import Mathlib

/-!
# Web crawler core: URL utilities, link extraction and the worker pool

A shallow embedding of the Go packages `internal/domain`, `internal/parser`,
`internal/crawler`, `internal/dedup`, `internal/frontier`, `internal/robots` and
`internal/fetcher`, together with the parts of the Go standard library
(`strings`, `unicode/utf8`, `net/url`, `context`, `net/http`) that those packages
call.

A Go `string` is a sequence of bytes.  It is modelled as a `List Char` in
which every character stands for the byte with the same code, so ASCII text
is written as itself (`"https://example.com/".toList`).

Layout: the definitions come first (the packages, the worker pool as a
transition system, its invariants, the reference definitions written from the
specification, and the concrete inputs of the examples), then the theorems.
An operation that can block returns an `Option`: `none` stands for a call that
never returns.

The worker pool is a function `step` from a state and an action to a state;
a run is the fold of `step` over a schedule, a list of actions that names
which goroutine moves next and what the environment answers (the fetched
page, a timeout, a cancelled context).  A property of every interleaving is
a property of `runOf` for every schedule.  `step` and `runOf` are the runs with
the in-memory frontier, `redisStep` and `redisRunOf` those with the Redis
frontier, whose list other clients of the server change as well; `Run.of`
chooses between the two as `New` does, by the option `UseRedis`.
-/

/-- A Go string: the list of its bytes, each written as the character with that code. -/
abbrev Str := List Char

/-! ## Package `unicode/utf8` -/

namespace utf8

/-- Go `utf8.RuneSelf`: the bytes below it stand for themselves. -/
def RuneSelf : Nat := 0x80

/-- Go `utf8.RuneError`: the rune U+FFFD, which stands for a byte that is not valid
UTF-8. -/
def RuneError : Nat := 0xFFFD

/-- The table `first` of package `utf8`: information about the first byte of a rune.
`0xF0` marks an ASCII byte and `0xF1` a byte that starts no rune; otherwise the low
bits give the width of the rune and the high bits the row of `acceptRanges` for the
second byte. -/
def first (s0 : Nat) : Nat :=
  if s0 < 0x80 then 0xF0
  else if s0 < 0xC2 then 0xF1
  else if s0 < 0xE0 then 0x02
  else if s0 = 0xE0 then 0x13
  else if s0 < 0xED then 0x03
  else if s0 = 0xED then 0x23
  else if s0 < 0xF0 then 0x03
  else if s0 = 0xF0 then 0x34
  else if s0 < 0xF4 then 0x04
  else if s0 = 0xF4 then 0x44
  else 0xF1

/-- The table `acceptRanges` of package `utf8`: the least and the greatest second byte
that a first byte accepts. -/
def acceptRanges (row : Nat) : Nat × Nat :=
  if row = 1 then (0xA0, 0xBF)
  else if row = 2 then (0x80, 0x9F)
  else if row = 3 then (0x90, 0xBF)
  else if row = 4 then (0x80, 0x8F)
  else (0x80, 0xBF)

/-- Is this a continuation byte, from `0x80` to `0xBF`? -/
def continuation (b : Nat) : Bool :=
  decide (0x80 ≤ b ∧ b ≤ 0xBF)

/-- Go `utf8.DecodeRuneInString`: the first rune of `s` and its width in bytes.  For a
first byte that is not the start of valid UTF-8 the result is `(RuneError, 1)`, for the
empty string `(RuneError, 0)`.  The loop `for _, r := range s` reads a string by the
same rule. -/
def DecodeRuneInString (s : Str) : Nat × Nat :=
  match s with
  | [] => (RuneError, 0)
  | c0 :: rest =>
    let s0 := c0.toNat
    let x := first s0
    if x ≥ 0xF0 then
      if x = 0xF0 then (s0, 1) else (RuneError, 1)
    else
      let sz := x % 8
      let accept := acceptRanges (x / 16)
      if (c0 :: rest).length < sz then (RuneError, 1)
      else
        let s1 := (rest.getD 0 ' ').toNat
        if s1 < accept.1 ∨ accept.2 < s1 then (RuneError, 1)
        else if sz ≤ 2 then ((s0 % 32) * 64 + s1 % 64, 2)
        else
          let s2 := (rest.getD 1 ' ').toNat
          if !continuation s2 then (RuneError, 1)
          else if sz ≤ 3 then ((s0 % 16) * 4096 + (s1 % 64) * 64 + s2 % 64, 3)
          else
            let s3 := (rest.getD 2 ' ').toNat
            if !continuation s3 then (RuneError, 1)
            else ((s0 % 8) * 262144 + (s1 % 64) * 4096 + (s2 % 64) * 64 + s3 % 64, 4)

/-- The runes of a string, as the loop `for _, r := range s` yields them; `fuel` bounds
the number of runes. -/
def runesUpTo : Nat → Str → List Nat
  | 0, _ => []
  | _ + 1, [] => []
  | fuel + 1, c :: s =>
    (DecodeRuneInString (c :: s)).1
      :: runesUpTo fuel ((c :: s).drop (DecodeRuneInString (c :: s)).2)

/-- The runes of a string: the string read as UTF-8, every byte that is not part of
valid UTF-8 read as `RuneError`. -/
def runes (s : Str) : List Nat :=
  runesUpTo s.length s

end utf8

/-! ## Package `unicode` -/

namespace unicode

/-- Two runes are equal under simple case folding, for the table `SimpleFold`, when
repeated folding leads from the first to the second. -/
def SameFold (SimpleFold : Nat → Nat) (a b : Nat) : Prop :=
  ∃ k, SimpleFold^[k] a = b

/-- What Go documents of `unicode.SimpleFold`, whose table comes with the toolchain:
among the runes equal to `r` under simple case folding, `SimpleFold(r)` is the smallest
one above `r` if there is one, and the smallest of all otherwise; so repeated folding
comes back to `r`.  Below `RuneSelf` the only runes equal under folding are the two cases
of an ASCII letter. -/
structure IsSimpleFold (SimpleFold : Nat → Nat) : Prop where
  cycle : ∀ r, ∃ k, 0 < k ∧ SimpleFold^[k] r = r
  next : ∀ r k, r < SimpleFold^[k] r → r < SimpleFold r ∧ SimpleFold r ≤ SimpleFold^[k] r
  ascii : ∀ a b, a < b → b < utf8.RuneSelf →
    (SameFold SimpleFold a b ↔ 65 ≤ a ∧ a ≤ 90 ∧ b = a + 32)

end unicode

/-! ## Package `strings` -/

namespace strings

/-- Go `strings.HasPrefix`. -/
def HasPrefix : Str → Str → Bool
  | _, [] => true
  | [], _ :: _ => false
  | c :: s, d :: p => c == d && HasPrefix s p

/-- Go `strings.HasSuffix`. -/
def HasSuffix (s suffix : Str) : Bool :=
  HasPrefix s.reverse suffix.reverse

/-- Go `strings.TrimSuffix`: `s` without the given trailing suffix, `s` itself when
it does not end with it. -/
def TrimSuffix (s suffix : Str) : Str :=
  if HasSuffix s suffix then s.take (s.length - suffix.length) else s

/-- Go `strings.Index`: position of the first occurrence of `sub`, `none` for Go's `-1`. -/
def Index : Str → Str → Option Nat
  | [], sub => if sub.isEmpty then some 0 else none
  | c :: s, sub =>
    if HasPrefix (c :: s) sub then some 0
    else (Index s sub).map (· + 1)

/-- Go `strings.LastIndex`: position of the last occurrence of `sub`. -/
def LastIndex : Str → Str → Option Nat
  | [], sub => if sub.isEmpty then some 0 else none
  | c :: s, sub =>
    match LastIndex s sub with
    | some i => some (i + 1)
    | none => if HasPrefix (c :: s) sub then some 0 else none

/-- Go `strings.Contains`. -/
def Contains (s sub : Str) : Bool :=
  (Index s sub).isSome

/-- Go `strings.Cut`: the text before and after the first `sep`, and whether `sep` was found. -/
def Cut (s sep : Str) : Str × Str × Bool :=
  match Index s sep with
  | some i => (s.take i, s.drop (i + sep.length), true)
  | none => (s, [], false)

/-- Go `strings.Count` for a one-byte separator. -/
def CountByte (s : Str) (c : Char) : Nat :=
  s.count c

/-- ASCII lower-casing of one byte. -/
def lowerByte (c : Char) : Char :=
  if 'A' ≤ c ∧ c ≤ 'Z' then Char.ofNat (c.toNat + 32) else c

/-- Go `strings.ToLower` on its ASCII path: bytes `A`..`Z` are lowered, every other
byte is kept. -/
def ToLower (s : Str) : Str :=
  s.map lowerByte

/-- The loop `for r != sr && r < tr { r = unicode.SimpleFold(r) }` of `EqualFold`, from
`r`.  Go's table brings every rune back to itself, so the loop ends; it makes fewer
than `tr` rounds there, and the model stops after `fuel` rounds. -/
def foldUntil (SimpleFold : Nat → Nat) (sr tr : Nat) : Nat → Nat → Nat
  | 0, r => r
  | fuel + 1, r =>
    if r ≠ sr ∧ r < tr then foldUntil SimpleFold sr tr fuel (SimpleFold r) else r

/-- The test of one pair of runes in the second loop of `EqualFold`: equal runes match;
otherwise, with `sr < tr` after a swap, below `RuneSelf` the two must be the upper and
the lower case of an ASCII letter, and from `RuneSelf` up `tr` must be met when `sr` is
folded repeatedly. -/
def equalFoldRune (SimpleFold : Nat → Nat) (sr tr : Nat) : Bool :=
  if tr = sr then true
  else
    let lo := if tr < sr then tr else sr
    let hi := if tr < sr then sr else tr
    if hi < utf8.RuneSelf then
      decide (65 ≤ lo ∧ lo ≤ 90 ∧ hi = lo + 32)
    else
      decide (foldUntil SimpleFold lo hi hi (SimpleFold lo) = hi)

/-- The part of `EqualFold` after the label `hasUnicode`: the loop over the runes of
`s`, each compared with the next rune of `t`.  Every turn takes at least one byte of
`s`, so `fuel` above the length of `s` is never used up. -/
def equalFoldUnicode (SimpleFold : Nat → Nat) : Nat → Str → Str → Bool
  | 0, _, _ => false
  | _ + 1, [], t => t.isEmpty
  | fuel + 1, c :: s, t =>
    let sr := utf8.DecodeRuneInString (c :: s)
    match t with
    | [] => false
    | t0 :: rest =>
      let tr := if t0.toNat < utf8.RuneSelf then (t0.toNat, rest)
        else ((utf8.DecodeRuneInString (t0 :: rest)).1,
              (t0 :: rest).drop (utf8.DecodeRuneInString (t0 :: rest)).2)
      if equalFoldRune SimpleFold sr.1 tr.1 then
        equalFoldUnicode SimpleFold fuel ((c :: s).drop sr.2) tr.2
      else false

/-- Go `strings.EqualFold`; `SimpleFold` is Go's `unicode.SimpleFold`, the folding table
of the toolchain.  As long as both strings show ASCII bytes, two bytes match when they
are equal or are the upper and lower case of the same letter; from the first byte that
is not ASCII on, the strings are compared rune by rune. -/
def EqualFold (SimpleFold : Nat → Nat) : Str → Str → Bool
  | [], [] => true
  | [], _ :: _ => false
  | _ :: _, [] => false
  | sr :: s, tr :: t =>
    if sr.toNat ≥ utf8.RuneSelf ∨ tr.toNat ≥ utf8.RuneSelf then
      equalFoldUnicode SimpleFold ((sr :: s).length + 1) (sr :: s) (tr :: t)
    else if tr = sr then EqualFold SimpleFold s t
    else
      let lo := if tr < sr then tr else sr
      let hi := if tr < sr then sr else tr
      if 'A' ≤ lo ∧ lo ≤ 'Z' ∧ hi.toNat = lo.toNat + 32 then EqualFold SimpleFold s t
      else false

/-- The UTF-8 encodings of the runes for which Go `unicode.IsSpace` holds. -/
def spaceRunes : List Str :=
  [ [Char.ofNat 0x09], [Char.ofNat 0x0A], [Char.ofNat 0x0B], [Char.ofNat 0x0C],
    [Char.ofNat 0x0D], [Char.ofNat 0x20],
    [Char.ofNat 0xC2, Char.ofNat 0x85], [Char.ofNat 0xC2, Char.ofNat 0xA0],
    [Char.ofNat 0xE1, Char.ofNat 0x9A, Char.ofNat 0x80],
    [Char.ofNat 0xE2, Char.ofNat 0x80, Char.ofNat 0x80],
    [Char.ofNat 0xE2, Char.ofNat 0x80, Char.ofNat 0x81],
    [Char.ofNat 0xE2, Char.ofNat 0x80, Char.ofNat 0x82],
    [Char.ofNat 0xE2, Char.ofNat 0x80, Char.ofNat 0x83],
    [Char.ofNat 0xE2, Char.ofNat 0x80, Char.ofNat 0x84],
    [Char.ofNat 0xE2, Char.ofNat 0x80, Char.ofNat 0x85],
    [Char.ofNat 0xE2, Char.ofNat 0x80, Char.ofNat 0x86],
    [Char.ofNat 0xE2, Char.ofNat 0x80, Char.ofNat 0x87],
    [Char.ofNat 0xE2, Char.ofNat 0x80, Char.ofNat 0x88],
    [Char.ofNat 0xE2, Char.ofNat 0x80, Char.ofNat 0x89],
    [Char.ofNat 0xE2, Char.ofNat 0x80, Char.ofNat 0x8A],
    [Char.ofNat 0xE2, Char.ofNat 0x80, Char.ofNat 0xA8],
    [Char.ofNat 0xE2, Char.ofNat 0x80, Char.ofNat 0xA9],
    [Char.ofNat 0xE2, Char.ofNat 0x80, Char.ofNat 0xAF],
    [Char.ofNat 0xE2, Char.ofNat 0x81, Char.ofNat 0x9F],
    [Char.ofNat 0xE3, Char.ofNat 0x80, Char.ofNat 0x80] ]

/-- Length of the white-space rune that `s` starts with, `0` when it starts with none. -/
def leadingSpace (s : Str) : Nat :=
  match spaceRunes.find? (fun r => HasPrefix s r) with
  | some r => r.length
  | none => 0

/-- Strips leading white-space runes; `fuel` bounds the number of runes removed. -/
def trimLeft : Nat → Str → Str
  | 0, s => s
  | fuel + 1, s =>
    match leadingSpace s with
    | 0 => s
    | n => trimLeft fuel (s.drop n)

/-- Length of the white-space rune that `s` ends with, `0` when it ends with none. -/
def trailingSpace (s : Str) : Nat :=
  match spaceRunes.find? (fun r => HasSuffix s r) with
  | some r => r.length
  | none => 0

/-- Strips trailing white-space runes; `fuel` bounds the number of runes removed. -/
def trimRight : Nat → Str → Str
  | 0, s => s
  | fuel + 1, s =>
    match trailingSpace s with
    | 0 => s
    | n => trimRight fuel (s.take (s.length - n))

/-- Go `strings.TrimSpace`: removes leading and trailing Unicode white space. -/
def TrimSpace (s : Str) : Str :=
  let t := trimLeft s.length s
  trimRight t.length t

end strings

/-! ## Package `net/url` (standard library) -/

namespace url

/-- The escaping modes of `net/url`. -/
inductive encoding where
  | encodePath
  | encodePathSegment
  | encodeHost
  | encodeZone
  | encodeUserPassword
  | encodeQueryComponent
  | encodeFragment
  deriving DecidableEq, Repr

open encoding

/-- Go `url.Userinfo`. -/
structure Userinfo where
  username : Str
  password : Str
  passwordSet : Bool
  deriving DecidableEq, Repr

/-- Go `url.URL`. -/
structure URL where
  Scheme : Str := []
  Opaque : Str := []
  User : Option Userinfo := none
  Host : Str := []
  Path : Str := []
  RawPath : Str := []
  OmitHost : Bool := false
  ForceQuery : Bool := false
  RawQuery : Str := []
  Fragment : Str := []
  RawFragment : Str := []
  deriving DecidableEq, Repr

/-- ASCII letter or digit. -/
def isAlnum (c : Char) : Bool :=
  ('a' ≤ c && c ≤ 'z') || ('A' ≤ c && c ≤ 'Z') || ('0' ≤ c && c ≤ '9')

/-- Go `ishex`. -/
def ishex (c : Char) : Bool :=
  ('0' ≤ c && c ≤ '9') || ('a' ≤ c && c ≤ 'f') || ('A' ≤ c && c ≤ 'F')

/-- Go `unhex`. -/
def unhex (c : Char) : Nat :=
  if '0' ≤ c ∧ c ≤ '9' then c.toNat - 48
  else if 'a' ≤ c ∧ c ≤ 'f' then c.toNat - 97 + 10
  else if 'A' ≤ c ∧ c ≤ 'F' then c.toNat - 65 + 10
  else 0

/-- The sub-delimiters and brackets a host may hold unescaped. -/
def hostAllowed : Str :=
  ['!', '$', '&', Char.ofNat 39, '(', ')', '*', '+', ',', ';', '=', ':', '[', ']', '<', '>', '"']

/-- The reserved characters of RFC 3986 section 2.2 that `shouldEscape` treats by mode. -/
def reservedChars : Str :=
  ['$', '&', '+', ',', '/', ':', ';', '=', '?', '@']

/-- Go `shouldEscape`: must byte `c` be percent-escaped in the given mode? -/
def shouldEscape (c : Char) (mode : encoding) : Bool :=
  if isAlnum c then false
  else if (mode = encodeHost ∨ mode = encodeZone) ∧ c ∈ hostAllowed then false
  else if c = '-' ∨ c = '_' ∨ c = '.' ∨ c = '~' then false
  else if c ∈ reservedChars then
    match mode with
    | encodePath => c == '?'
    | encodePathSegment => c == '/' || c == ';' || c == ',' || c == '?'
    | encodeUserPassword => c == '@' || c == '/' || c == '?' || c == ':'
    | encodeQueryComponent => true
    | encodeFragment => false
    | _ => true
  else if mode = encodeFragment ∧ (c = '!' ∨ c = '(' ∨ c = ')' ∨ c = '*') then false
  else true

/-- The digit table `upperhex`. -/
def upperhex (n : Nat) : Char :=
  "0123456789ABCDEF".toList.getD n '0'

/-- Go `escape`: percent-escapes every byte that `shouldEscape` names. -/
def escape : Str → encoding → Str
  | [], _ => []
  | c :: s, mode =>
    if c = ' ' ∧ mode = encodeQueryComponent then '+' :: escape s mode
    else if shouldEscape c mode then
      '%' :: upperhex (c.toNat / 16) :: upperhex (c.toNat % 16) :: escape s mode
    else c :: escape s mode

/-- Go `unescape`: decodes percent-escapes, `none` for a malformed escape or, in the
host modes, a byte a host may not hold. -/
def unescape : Str → encoding → Option Str
  | [], _ => some []
  | c :: s, mode =>
    if c = '%' then
      match s with
      | a :: b :: rest =>
        if !(ishex a && ishex b) then none
        else if mode = encodeHost ∧ unhex a < 8 ∧ ¬ (a = '2' ∧ b = '5') then none
        else if mode = encodeZone ∧ ¬ (a = '2' ∧ b = '5') ∧ unhex a * 16 + unhex b ≠ 32
            ∧ shouldEscape (Char.ofNat (unhex a * 16 + unhex b)) encodeHost then none
        else (unescape rest mode).map (Char.ofNat (unhex a * 16 + unhex b) :: ·)
      | _ => none
    else if c = '+' then
      (unescape s mode).map ((if mode = encodeQueryComponent then ' ' else '+') :: ·)
    else if (mode = encodeHost ∨ mode = encodeZone) ∧ c.toNat < 128
        ∧ shouldEscape c encodeHost then none
    else (unescape s mode).map (c :: ·)

/-- Go `validEncoded`: is `s` an acceptable already-escaped form? -/
def validEncoded (s : Str) (mode : encoding) : Bool :=
  s.all fun c =>
    c ∈ ['!', '$', '&', Char.ofNat 39, '(', ')', '*', '+', ',', ';', '=', ':', '@', '[', ']', '%']
      || !shouldEscape c mode

/-- Go `stringContainsCTLByte`. -/
def stringContainsCTLByte (s : Str) : Bool :=
  s.any fun b => b.toNat < 32 || b.toNat = 127

/-- Scanning loop of Go `getScheme`; `i` is the number of bytes already accepted and
`acc` holds them in reverse.  The result is `none` for the error
`missing protocol scheme`, else the scheme and the rest. -/
def getSchemeLoop (rawURL : Str) : Str → Str → Option (Str × Str)
  | _, [] => some ([], rawURL)
  | acc, c :: rest =>
    if ('a' ≤ c ∧ c ≤ 'z') ∨ ('A' ≤ c ∧ c ≤ 'Z') then getSchemeLoop rawURL (c :: acc) rest
    else if ('0' ≤ c ∧ c ≤ '9') ∨ c = '+' ∨ c = '-' ∨ c = '.' then
      if acc.isEmpty then some ([], rawURL) else getSchemeLoop rawURL (c :: acc) rest
    else if c = ':' then
      if acc.isEmpty then none else some (acc.reverse, rest)
    else some ([], rawURL)

/-- Go `getScheme`. -/
def getScheme (rawURL : Str) : Option (Str × Str) :=
  getSchemeLoop rawURL [] rawURL

/-- Go `validOptionalPort`. -/
def validOptionalPort : Str → Bool
  | [] => true
  | c :: digits => c == ':' && digits.all fun b => '0' ≤ b && b ≤ '9'

/-- Go `validUserinfo`. -/
def validUserinfo (s : Str) : Bool :=
  s.all fun r =>
    isAlnum r ||
      r ∈ ['-', '.', '_', ':', '~', '!', '$', '&', Char.ofNat 39, '(', ')', '*', '+', ',', ';',
        '=', '%', '@']

/-- Go `parseHost`. -/
def parseHost (host : Str) : Option Str :=
  if strings.HasPrefix host ['['] then
    match strings.LastIndex host [']'] with
    | none => none
    | some i =>
      if !validOptionalPort (host.drop (i + 1)) then none
      else
        match strings.Index (host.take i) ['%', '2', '5'] with
        | some zone =>
          match unescape (host.take zone) encodeHost,
              unescape ((host.take i).drop zone) encodeZone,
              unescape (host.drop i) encodeHost with
          | some host1, some host2, some host3 => some (host1 ++ host2 ++ host3)
          | _, _, _ => none
        | none => unescape host encodeHost
  else
    match strings.LastIndex host [':'] with
    | some i =>
      if !validOptionalPort (host.drop i) then none else unescape host encodeHost
    | none => unescape host encodeHost

/-- Go `parseAuthority`: the user information and the host of `user:password@host:port`. -/
def parseAuthority (authority : Str) : Option (Option Userinfo × Str) :=
  match strings.LastIndex authority ['@'] with
  | none => (parseHost authority).map fun host => (none, host)
  | some i =>
    match parseHost (authority.drop (i + 1)) with
    | none => none
    | some host =>
      let userinfo := authority.take i
      if !validUserinfo userinfo then none
      else if !strings.Contains userinfo [':'] then
        (unescape userinfo encodeUserPassword).map fun name =>
          (some { username := name, password := [], passwordSet := false }, host)
      else
        let (username, password, _) := strings.Cut userinfo [':']
        match unescape username encodeUserPassword, unescape password encodeUserPassword with
        | some name, some pw =>
          some (some { username := name, password := pw, passwordSet := true }, host)
        | _, _ => none

/-- Go `(*URL).setPath`: sets `Path` and, when the default escaping of the path differs
from the given text, `RawPath`. -/
def URL.setPath (u : URL) (p : Str) : Option URL :=
  (unescape p encodePath).map fun path =>
    { u with Path := path, RawPath := if p = escape path encodePath then [] else p }

/-- Go `(*URL).setFragment`. -/
def URL.setFragment (u : URL) (f : Str) : Option URL :=
  (unescape f encodeFragment).map fun frag =>
    { u with Fragment := frag, RawFragment := if f = escape frag encodeFragment then [] else f }

/-- Go `parse` with `viaRequest = false`: parses a URL without fragment. -/
def parseNoFragment (rawURL : Str) : Option URL :=
  if stringContainsCTLByte rawURL then none
  else if rawURL = ['*'] then some { Path := ['*'] }
  else
    match getScheme rawURL with
    | none => none
    | some (scheme, rest0) =>
      let scheme := strings.ToLower scheme
      let forceQuery := strings.HasSuffix rest0 ['?'] && strings.CountByte rest0 '?' == 1
      let rest := if forceQuery then rest0.take (rest0.length - 1)
        else (strings.Cut rest0 ['?']).1
      let rawQuery := if forceQuery then [] else (strings.Cut rest0 ['?']).2.1
      let u : URL := { Scheme := scheme, ForceQuery := forceQuery, RawQuery := rawQuery }
      if !strings.HasPrefix rest ['/'] ∧ scheme ≠ [] then
        some { u with Opaque := rest }
      else if !strings.HasPrefix rest ['/'] ∧
          strings.Contains (strings.Cut rest ['/']).1 [':'] then none
      else if (scheme ≠ [] ∨ !strings.HasPrefix rest ['/', '/', '/']) ∧
          strings.HasPrefix rest ['/', '/'] then
        let authority0 := rest.drop 2
        let authority := match strings.Index authority0 ['/'] with
          | some i => authority0.take i
          | none => authority0
        let rest1 := match strings.Index authority0 ['/'] with
          | some i => authority0.drop i
          | none => []
        match parseAuthority authority with
        | none => none
        | some (user, host) => URL.setPath { u with User := user, Host := host } rest1
      else if scheme ≠ [] ∧ strings.HasPrefix rest ['/'] then
        URL.setPath { u with OmitHost := true } rest
      else URL.setPath u rest

/-- Go `url.Parse`: parses a raw URL; `none` stands for a returned error. -/
def Parse (rawURL : Str) : Option URL :=
  let (u, frag, _) := strings.Cut rawURL ['#']
  match parseNoFragment u with
  | none => none
  | some parsed => if frag = [] then some parsed else URL.setFragment parsed frag

/-- Go `(*URL).EscapedPath`. -/
def URL.EscapedPath (u : URL) : Str :=
  if u.RawPath ≠ [] ∧ validEncoded u.RawPath encodePath
      ∧ unescape u.RawPath encodePath = some u.Path then u.RawPath
  else if u.Path = ['*'] then ['*']
  else escape u.Path encodePath

/-- Go `(*URL).EscapedFragment`. -/
def URL.EscapedFragment (u : URL) : Str :=
  if u.RawFragment ≠ [] ∧ validEncoded u.RawFragment encodeFragment
      ∧ unescape u.RawFragment encodeFragment = some u.Fragment then u.RawFragment
  else escape u.Fragment encodeFragment

/-- Go `(*Userinfo).String`. -/
def Userinfo.String (ui : Userinfo) : Str :=
  escape ui.username encodeUserPassword ++
    (if ui.passwordSet then ':' :: escape ui.password encodeUserPassword else [])

/-- The text `(*URL).String` writes before the path of a URL without opaque part: the
scheme, `//`, the user information and the host. -/
def URL.authorityPart (u : URL) : Str :=
  (if u.Scheme ≠ [] then u.Scheme ++ [':'] else []) ++
    (if u.Scheme ≠ [] ∨ u.Host ≠ [] ∨ u.User.isSome then
      if u.OmitHost ∧ u.Host = [] ∧ u.User.isNone then []
      else
        (if u.Host ≠ [] ∨ u.Path ≠ [] ∨ u.User.isSome then ['/', '/'] else []) ++
          (match u.User with
            | some ui => ui.String ++ ['@']
            | none => []) ++
          (if u.Host ≠ [] then escape u.Host encodeHost else [])
    else [])

/-- Go `(*URL).String`: reassembles the URL. -/
def URL.String (u : URL) : Str :=
  (if u.Opaque ≠ [] then
      (if u.Scheme ≠ [] then u.Scheme ++ [':'] else []) ++ u.Opaque
    else
      let buf := u.authorityPart
      let path := u.EscapedPath
      let buf := if path ≠ [] ∧ path.head? ≠ some '/' ∧ u.Host ≠ [] then buf ++ ['/'] else buf
      let buf := if buf = [] ∧ strings.Contains (strings.Cut path ['/']).1 [':']
        then ['.', '/'] else buf
      buf ++ path) ++
    (if u.ForceQuery ∨ u.RawQuery ≠ [] then '?' :: u.RawQuery else []) ++
    (if u.Fragment ≠ [] then '#' :: u.EscapedFragment else [])

end url

namespace strings

/-- The pieces of `s` between occurrences of the byte `sep`: the successive first
results of `strings.Cut(remaining, sep)` until the separator is no longer found. -/
def splitByte (sep : Char) : Str → List Str
  | [] => [[]]
  | c :: s =>
    if c = sep then [] :: splitByte sep s
    else
      match splitByte sep s with
      | [] => [[c]]
      | piece :: pieces => (c :: piece) :: pieces

end strings

namespace url

open encoding

/-- State of the loop of Go `resolvePath`: the output built so far, the flag `first`
and the last element read. -/
structure ResolveState where
  dst : Str
  first : Bool
  elem : Str

/-- One turn of the loop of Go `resolvePath` for the path element `elem`. -/
def resolveStep (st : ResolveState) (elem : Str) : ResolveState :=
  if elem = ['.'] then { st with first := false, elem := elem }
  else if elem = ['.', '.'] then
    let str := st.dst.drop 1
    match strings.LastIndex str ['/'] with
    | none => { dst := ['/'], first := true, elem := elem }
    | some index => { dst := '/' :: str.take index, first := st.first, elem := elem }
  else
    { dst := (if st.first then st.dst else st.dst ++ ['/']) ++ elem, first := false, elem := elem }

/-- Go `resolvePath`: resolves `ref` against `base` and removes dot segments. -/
def resolvePath (base ref : Str) : Str :=
  let full :=
    if ref = [] then base
    else if ref.head? ≠ some '/' then
      match strings.LastIndex base ['/'] with
      | some i => base.take (i + 1) ++ ref
      | none => ref
    else ref
  if full = [] then []
  else
    let st := (strings.splitByte '/' full).foldl resolveStep
      { dst := ['/'], first := true, elem := [] }
    let r := if st.elem = ['.'] ∨ st.elem = ['.', '.'] then st.dst ++ ['/'] else st.dst
    if 1 < r.length ∧ (r.drop 1).head? = some '/' then r.drop 1 else r

/-- The result of `setPath` with its error ignored, as `ResolveReference` uses it. -/
def URL.setPathIgnoringError (u : URL) (p : Str) : URL :=
  (u.setPath p).getD u

/-- Go `(*URL).ResolveReference`: resolves the reference `ref` against the base `u`. -/
def URL.ResolveReference (u ref : URL) : URL :=
  let url : URL := if ref.Scheme = [] then { ref with Scheme := u.Scheme } else ref
  if ref.Scheme ≠ [] ∨ ref.Host ≠ [] ∨ ref.User.isSome then
    url.setPathIgnoringError (resolvePath ref.EscapedPath [])
  else if ref.Opaque ≠ [] then
    { url with User := none, Host := [], Path := [] }
  else
    let url : URL :=
      if ref.Path = [] ∧ !ref.ForceQuery ∧ ref.RawQuery = [] then
        if ref.Fragment = [] then
          { url with RawQuery := u.RawQuery, Fragment := u.Fragment, RawFragment := u.RawFragment }
        else { url with RawQuery := u.RawQuery }
      else url
    if ref.Path = [] ∧ u.Opaque ≠ [] then
      { url with Opaque := u.Opaque, User := none, Host := [], Path := [] }
    else
      URL.setPathIgnoringError { url with Host := u.Host, User := u.User }
        (resolvePath u.EscapedPath ref.EscapedPath)

end url

/-! ## Package `internal/domain` -/

namespace domain

/-- `domain.Normalize`: `Normalize` of `url.go`; `none` stands for the returned error. -/
def Normalize (rawURL : Str) : Option Str :=
  match url.Parse rawURL with
  | none => none
  | some u =>
    let u := { u with Fragment := [] }
    let u := if u.Path ≠ ['/'] ∧ strings.HasSuffix u.Path ['/']
      then { u with Path := strings.TrimSuffix u.Path ['/'] } else u
    let u := if u.Path = [] then { u with Path := ['/'] } else u
    some u.String

/-- `domain.ResolveURL`: resolves `href` against `base` and normalizes the result. -/
def ResolveURL (base href : Str) : Option Str :=
  match url.Parse base with
  | none => none
  | some baseURL =>
    match url.Parse href with
    | none => none
    | some refURL => Normalize (baseURL.ResolveReference refURL).String

/-- `domain.IsSameDomain`: exact host match, compared with `strings.EqualFold`;
`SimpleFold` is the folding table that `EqualFold` consults. -/
def IsSameDomain (SimpleFold : Nat → Nat) (baseURL checkURL : Str) : Bool :=
  match url.Parse baseURL with
  | none => false
  | some base =>
    match url.Parse checkURL with
    | none => false
    | some check => strings.EqualFold SimpleFold base.Host check.Host

/-- `domain.IsValidHTTP`. -/
def IsValidHTTP (rawURL : Str) : Bool :=
  match url.Parse rawURL with
  | none => false
  | some u => u.Scheme = "http".toList ∨ u.Scheme = "https".toList

/-- `domain.GetHost`. -/
def GetHost (rawURL : Str) : Option Str :=
  (url.Parse rawURL).map fun u => u.Host

/-- `domain.GetBaseURL`. -/
def GetBaseURL (rawURL : Str) : Option Str :=
  (url.Parse rawURL).map fun u => u.Scheme ++ "://".toList ++ u.Host

end domain

/-! ## Package `internal/parser` -/

namespace parser

/-- The test of `ExtractLinks` (parser.go, lines 38-46) on one raw `href` value: is the
anchor skipped as empty, `javascript:`, `mailto:`, `tel:`, `data:` or fragment-only? -/
def skipped (rawHref : Str) : Bool :=
  let href := strings.TrimSpace rawHref
  href = [] ||
    strings.HasPrefix href "javascript:".toList ||
    strings.HasPrefix href "mailto:".toList ||
    strings.HasPrefix href "tel:".toList ||
    strings.HasPrefix href "data:".toList ||
    (strings.HasPrefix href ['#'] && 1 < href.length)

/-- State of the `Each` callback of `ExtractLinks`: the slice `links` and the map `seen`
(the keys that are set to `true`). -/
structure ExtractState where
  links : List Str
  seen : List Str

/-- The callback that `ExtractLinks` runs for one anchor (parser.go, lines 31-66);
`rawHref` is the value of the anchor's `href` attribute. -/
def visitAnchor (baseURL : Str) (st : ExtractState) (rawHref : Str) : ExtractState :=
  let href := strings.TrimSpace rawHref
  if skipped rawHref then st
  else
    match domain.ResolveURL baseURL href with
    | none => st
    | some absoluteURL =>
      if !domain.IsValidHTTP absoluteURL then st
      else if absoluteURL ∈ st.seen then st
      else { links := st.links ++ [absoluteURL], seen := absoluteURL :: st.seen }

/-- The loop of `Parser.ExtractLinks` over the anchors that the selector `a[href]` finds:
`anchors` lists the `href` attribute values of those anchors in document order (the HTML
parsing itself is done by the library goquery). -/
def extractFromAnchors (baseURL : Str) (anchors : List Str) : List Str :=
  (anchors.foldl (visitAnchor baseURL) { links := [], seen := [] }).links

/-- `Parser.ExtractLinks`: `document` is goquery's reading of the page, giving the `href`
values of its `a[href]` anchors or `none` when the HTML cannot be read. -/
def ExtractLinks (document : Str → Option (List Str)) (baseURL htmlContent : Str) :
    Option (List Str) :=
  (document htmlContent).map (extractFromAnchors baseURL)

/-- `Parser.FilterSameDomain`. -/
def FilterSameDomain (SimpleFold : Nat → Nat) (baseURL : Str) (links : List Str) :
    List Str :=
  links.filter (domain.IsSameDomain SimpleFold baseURL)

end parser

/-! ## Package `internal/crawler` -/

namespace crawler

/-- `crawler.Options` (the fields that the modelled code reads). -/
structure Options where
  Workers : Int
  MaxURLs : Int
  UserAgent : Str
  UseRedis : Bool
  RedisAddr : Str
  FrontierCapacity : Int
  deriving DecidableEq, Repr

/-- `crawler.DefaultOptions`. -/
def DefaultOptions : Options :=
  { Workers := 10, MaxURLs := 0, UserAgent := "GoCrawler/1.0".toList, UseRedis := false,
    RedisAddr := "localhost:6379".toList, FrontierCapacity := 100000 }

/-- The frontier that `New` builds. -/
inductive FrontierKind where
  | memory (capacity : Nat)
  | redis (addr key : Str)
  deriving DecidableEq, Repr

/-- The errors that `New` returns. -/
inductive NewError where
  | invalidBaseURL
  | notHTTP
  | redisConnect
  deriving DecidableEq, Repr

/-- The fields of `crawler.Crawler` that `New` decides. -/
structure Crawler where
  opts : Options
  baseURL : Str
  frontier : FrontierKind
  crawled : Int
  deriving DecidableEq, Repr

/-- The value of a Go `int` expression on a 64-bit platform: the result wraps around
at 64 bits. -/
def int64 (x : Int) : Int :=
  (x + 2 ^ 63) % 2 ^ 64 - 2 ^ 63

/-- Go `make(chan T, size)` for elements of `elemSize` bytes: whether the channel is
made.  The runtime panics for a negative size and for a buffer that is too large;
`chanBytes` is the largest buffer, in bytes, that the runtime grants.  The sizes of the
elements are those of a 64-bit platform: 16 bytes for a string, 8 for a pointer. -/
def makechan (chanBytes elemSize : Nat) (size : Int) : Bool :=
  decide (0 ≤ size ∧ elemSize * size.toNat ≤ chanBytes)

/-- A runtime for the examples: it grants channel buffers of up to `2 ^ 32` bytes. -/
def exampleChanBytes : Nat :=
  2 ^ 32

/-- The frontier of `New` (crawler.go, lines 56-66): `NewRedisFrontier` returns an error
when the server does not answer the ping, and `NewMemoryFrontier` makes a channel of
strings (16 bytes each) of the capacity in the options.  `none` stands for a panic. -/
def newFrontier (redisPing : Str → Bool) (chanBytes : Nat) (normalizedURL : Str)
    (opts : Options) : Option (Except NewError FrontierKind) :=
  if opts.UseRedis then
    let host := (domain.GetHost normalizedURL).getD []
    if redisPing opts.RedisAddr then
      some (.ok (.redis opts.RedisAddr ("crawler:".toList ++ host)))
    else some (.error .redisConnect)
  else if makechan chanBytes 16 opts.FrontierCapacity then
    some (.ok (.memory opts.FrontierCapacity.toNat))
  else none

/-- The part of `New` after the validation of the seed (crawler.go, lines 55-86): the
frontier, then the channel of results, made with `make(chan *Result, opts.Workers*2)`
(pointers of 8 bytes).  The constructors of the fetcher, the deduplicator, the parser
and the robots checker, called in between, are taken to return.  `none` stands for a
panic. -/
def newCrawler (redisPing : Str → Bool) (chanBytes : Nat) (normalizedURL : Str)
    (opts : Options) : Option (Except NewError Crawler) :=
  match newFrontier redisPing chanBytes normalizedURL opts with
  | none => none
  | some (.error err) => some (.error err)
  | some (.ok f) =>
    if makechan chanBytes 8 (int64 (opts.Workers * 2)) then
      some (.ok { opts := opts, baseURL := normalizedURL, frontier := f, crawled := 0 })
    else none

/-- `crawler.New`.  `redisPing addr` tells whether `frontier.NewRedisFrontier` reaches
the Redis server at `addr`, and `chanBytes` is the largest channel buffer that the
runtime grants.  The result is `none` when `New` panics instead of returning. -/
def New (redisPing : Str → Bool) (chanBytes : Nat) (baseURL : Str) (opts : Options) :
    Option (Except NewError Crawler) :=
  match domain.Normalize baseURL with
  | none => some (.error .invalidBaseURL)
  | some normalizedURL =>
    if !domain.IsValidHTTP normalizedURL then some (.error .notHTTP)
    else newCrawler redisPing chanBytes normalizedURL opts

/-- `fetcher.Result`; `Error` holds the text of the error, if any. -/
structure FetchResult where
  URL : Str
  StatusCode : Int
  Body : Str
  ContentType : Str
  Error : Option Str
  deriving DecidableEq, Repr

/-- `crawler.Result` without its time stamp; `Error` holds the text of the error. -/
structure Result where
  URL : Str
  Links : List Str := []
  SameHost : List Str := []
  External : List Str := []
  Error : Option Str := none
  deriving DecidableEq, Repr

/-- The collaborators of `crawlURL` behind interfaces: the deduplicator with state `D`,
the frontier with state `Q`, and goquery's reading of a page. -/
structure Deps (D Q : Type) where
  /-- `Deduplicator.SeenOrAdd`: the answer and the new state. -/
  SeenOrAdd : D → Str → Bool × D
  /-- `Frontier.Push`: whether it returned `nil`, and the new state. -/
  Push : Q → Str → Bool × Q
  /-- The `href` values of the anchors of a page, `none` when it cannot be read. -/
  document : Str → Option (List Str)
  /-- The text of the error of a page that cannot be read. -/
  parseError : Str
  /-- Go `unicode.SimpleFold`, the folding table that `IsSameDomain` consults. -/
  SimpleFold : Nat → Nat

/-- State of the loop `for _, link := range links` of `crawlURL`. -/
structure LinkLoop (D Q : Type) where
  result : Result
  dedup : D
  frontier : Q

/-- One turn of the loop of `crawlURL` (crawler.go, lines 246-259). -/
def categorize {D Q : Type} (deps : Deps D Q) (baseURL : Str) (st : LinkLoop D Q)
    (link : Str) : LinkLoop D Q :=
  if domain.IsSameDomain deps.SimpleFold baseURL link then
    let result := { st.result with SameHost := st.result.SameHost ++ [link] }
    let (seen, dedup) := deps.SeenOrAdd st.dedup link
    if !seen then
      let (_, frontier) := deps.Push st.frontier link
      { result := result, dedup := dedup, frontier := frontier }
    else { result := result, dedup := dedup, frontier := st.frontier }
  else
    { st with result := { st.result with External := st.result.External ++ [link] } }

/-- Decimal digits of a natural number, most significant first. -/
def natDigits (n : Nat) : Str :=
  (Nat.toDigits 10 n)

/-- Go `fmt.Errorf("HTTP %d", code)`. -/
def httpErrorText (code : Int) : Str :=
  "HTTP ".toList ++ (if code < 0 then '-' :: natDigits code.natAbs else natDigits code.natAbs)

/-- `Crawler.crawlURL`: `fetched` is what `c.fetcher.Fetch(ctx, url)` returned. -/
def crawlURL {D Q : Type} (deps : Deps D Q) (baseURL : Str) (dedup : D) (frontier : Q)
    (url : Str) (fetched : FetchResult) : LinkLoop D Q :=
  let result : Result := { URL := url }
  match fetched.Error with
  | some err => { result := { result with Error := some err }, dedup := dedup, frontier := frontier }
  | none =>
    if fetched.StatusCode < 200 ∨ fetched.StatusCode ≥ 300 then
      { result := { result with Error := some (httpErrorText fetched.StatusCode) },
        dedup := dedup, frontier := frontier }
    else if !strings.Contains (strings.ToLower fetched.ContentType) "text/html".toList then
      { result := result, dedup := dedup, frontier := frontier }
    else
      match parser.ExtractLinks deps.document url fetched.Body with
      | none =>
        { result := { result with Error := some deps.parseError }, dedup := dedup,
          frontier := frontier }
      | some links =>
        links.foldl (categorize deps baseURL)
          { result := { result with Links := links }, dedup := dedup, frontier := frontier }

end crawler

/-! ## Package `internal/dedup` -/

namespace dedup

/-- The Bloom filter of the library `bits-and-blooms/bloom` with state `F`: the two
operations that `BloomDedup` calls. -/
structure Bloom (F : Type) where
  TestString : F → Str → Bool
  AddString : F → Str → F

/-- A filter has no false negatives when a string that was added, now or earlier, tests
positive. -/
def Bloom.NoFalseNegatives {F : Type} (lib : Bloom F) : Prop :=
  ∀ (f : F) (u v : Str), v = u ∨ lib.TestString f v = true →
    lib.TestString (lib.AddString f u) v = true

/-- `dedup.BloomDedup` (the mutex is implicit: every method runs atomically). -/
structure BloomDedup (F : Type) where
  filter : F
  count : Nat

/-- `BloomDedup.SeenOrAdd`: the answer and the state afterwards. -/
def BloomDedup.SeenOrAdd {F : Type} (lib : Bloom F) (b : BloomDedup F) (url : Str) :
    Bool × BloomDedup F :=
  if lib.TestString b.filter url then (true, b)
  else (false, { filter := lib.AddString b.filter url, count := (b.count + 1) % 2 ^ 64 })

/-- `BloomDedup.Seen`. -/
def BloomDedup.Seen {F : Type} (lib : Bloom F) (b : BloomDedup F) (url : Str) : Bool :=
  lib.TestString b.filter url

/-- `BloomDedup.Count`. -/
def BloomDedup.Count {F : Type} (b : BloomDedup F) : Nat :=
  b.count

/-- An exact filter, the list of the strings added: a `Bloom` without false positives. -/
def exactFilter : Bloom (List Str) :=
  { TestString := fun f u => decide (u ∈ f), AddString := fun f u => u :: f }

end dedup

/-! ## Package `internal/frontier` -/

namespace frontier

/-- `frontier.MemoryFrontier`: the buffered channel `ch` (its content, oldest first, and
its capacity), the counter `size` and the flag `closed`. -/
structure MemoryFrontier where
  ch : List Str
  capacity : Nat
  size : Int
  closed : Bool
  deriving DecidableEq, Repr

/-- `frontier.NewMemoryFrontier`. -/
def NewMemoryFrontier (capacity : Nat) : MemoryFrontier :=
  { ch := [], capacity := capacity, size := 0, closed := false }

end frontier

/-! ## The worker pool of `internal/crawler` as a transition system -/

namespace crawler

open dedup frontier

/-- What is fixed during a run: the options, the normalized seed, the robots policy as
`Checker.IsAllowed` answers it after `Fetch`, goquery's reading of pages, and the
folding table `unicode.SimpleFold` of the toolchain. -/
structure Config where
  opts : Options
  baseURL : Str
  allowed : Str → Bool
  document : Str → Option (List Str)
  parseError : Str
  SimpleFold : Nat → Nat

/-- The part of `crawlURL` before its loop (crawler.go, lines 213-243): the result so
far and the links the loop will range over (none after an early return). -/
def crawlStart (cfg : Config) (url : Str) (fetched : FetchResult) : Result × List Str :=
  let result : Result := { URL := url }
  match fetched.Error with
  | some err => ({ result with Error := some err }, [])
  | none =>
    if fetched.StatusCode < 200 ∨ fetched.StatusCode ≥ 300 then
      ({ result with Error := some (httpErrorText fetched.StatusCode) }, [])
    else if !strings.Contains (strings.ToLower fetched.ContentType) "text/html".toList then
      (result, [])
    else
      match parser.ExtractLinks cfg.document url fetched.Body with
      | none => ({ result with Error := some cfg.parseError }, [])
      | some links => ({ result with Links := links }, links)

/-- State of the context `ctx` that the caller passes to `Run`. -/
inductive Ctx where
  | active
  | canceled
  | deadlineExceeded
  deriving DecidableEq, Repr

/-- Where a worker goroutine stands in `Crawler.worker` and `Crawler.crawlURL`, together
with its local variables. -/
inductive Loc where
  /-- Line 150: start of a turn of the outer loop. -/
  | top
  /-- Line 154 done: `current` holds the value loaded from `c.crawled`. -/
  | loaded (current : Int)
  /-- Line 167: past the budget claim, about to call `PopWithTimeout`. -/
  | pop
  /-- Inside `PopWithTimeout`: `url` was received, `f.size` is not yet decremented. -/
  | popCount (url : Str)
  /-- Line 177: the pop gave the empty string, about to read `frontier.Size()`. -/
  | sizeCheck
  /-- Lines 170-173 and 179-182: about to release the slot and return. -/
  | releaseExit
  /-- Lines 185-188 and 194-197: about to release the slot and continue. -/
  | releaseLoop
  /-- Line 192: about to ask `robots.IsAllowed(url)`. -/
  | robots (url : Str)
  /-- Line 219: inside `crawlURL`, about to fetch `url`. -/
  | fetch (url : Str)
  /-- Line 246: in the loop over the links, `rest` still to visit. -/
  | links (result : Result) (rest : List Str)
  /-- Line 252: `SeenOrAdd(link)` returned false, about to call `Push`. -/
  | push (result : Result) (link : Str) (rest : List Str)
  /-- Inside `Push`: `link` was sent on the channel, `f.size` is not yet incremented. -/
  | pushCount (result : Result) (rest : List Str)
  /-- Line 204: about to send the result or see `ctx.Done()`. -/
  | send (result : Result)
  /-- The goroutine has returned. -/
  | exited
  deriving DecidableEq, Repr

/-- Where the goroutine of `Crawler.run` stands. -/
inductive Phase where
  /-- Line 130: about to call `SeenOrAdd(c.baseURL)`. -/
  | start
  /-- Line 131: about to push the seed. -/
  | seeded
  /-- Line 144: the workers run, `run` waits for them. -/
  | running
  /-- The deferred calls have closed the frontier and the result channel. -/
  | finished
  deriving DecidableEq, Repr

/-- The calls on shared objects, recorded for the statements about a run. -/
inductive Event where
  /-- A call `SeenOrAdd(url)` and its answer. -/
  | seenOrAdd (url : Str) (seen : Bool)
  /-- The call `Push(ctx, c.baseURL)` of `run`; `ok` when it returned `nil`. -/
  | pushSeed (url : Str) (ok : Bool)
  /-- A call `Push(ctx, link)` of `crawlURL`; `ok` when it returned `nil`. -/
  | pushLink (url : Str) (ok : Bool)
  /-- A call `c.fetcher.Fetch(ctx, url)`. -/
  | fetch (url : Str)
  deriving DecidableEq, Repr

/-- The state of a run of a crawler with the in-memory frontier: the shared objects, the
goroutines, and the record `log` of the calls made so far, most recent first. -/
structure System (F : Type) where
  phase : Phase
  ctx : Ctx
  crawled : Int
  frontier : MemoryFrontier
  dedup : BloomDedup F
  /-- The results sent on `c.results`, oldest first. -/
  results : List Result
  resultsClosed : Bool
  workers : List Loc
  log : List Event

/-- What the scheduler and the environment decide for the next atomic step. -/
inductive Choice where
  /-- The channel operation goes through. -/
  | ok
  /-- The two seconds of `PopWithTimeout` elapse. -/
  | timeout
  /-- A `select` takes its `ctx.Done()` case. -/
  | done
  /-- The fetcher returns this result. -/
  | fetched (result : FetchResult)
  deriving DecidableEq, Repr

/-- One atomic step of a run. -/
inductive Action where
  /-- The caller cancels the context. -/
  | cancel
  /-- The deadline of the caller's context passes. -/
  | deadline
  /-- The goroutine of `run` moves. -/
  | main (choice : Choice)
  /-- Worker `i` moves. -/
  | worker (i : Nat) (choice : Choice)
  deriving DecidableEq, Repr

/-- The state in which `run` starts for a crawler that `New` built with the in-memory
frontier: the channel that `NewMemoryFrontier` made is empty and belongs to this
crawler alone.  (`New` returns such a crawler only for a capacity that is not
negative.)  The runs of a crawler with the Redis frontier start in `RedisSystem.init`. -/
def System.init {F : Type} (cfg : Config) (emptyFilter : F) : System F :=
  { phase := .start, ctx := .active, crawled := 0,
    frontier := NewMemoryFrontier cfg.opts.FrontierCapacity.toNat,
    dedup := { filter := emptyFilter, count := 0 },
    results := [], resultsClosed := false,
    workers := List.replicate cfg.opts.Workers.toNat .top, log := [] }

/-- `if c.opts.MaxURLs > 0 { atomic.AddInt64(&c.crawled, -1) }`. -/
def release {F : Type} (cfg : Config) (s : System F) : System F :=
  if 0 < cfg.opts.MaxURLs then { s with crawled := s.crawled - 1 } else s

/-- One atomic step of a worker at `loc`; `none` when the step cannot happen now (the
goroutine is blocked or has returned). -/
def workerStep {F : Type} (cfg : Config) (lib : Bloom F) (choice : Choice) (s : System F) :
    Loc → Option (System F × Loc)
  | .top =>
    if 0 < cfg.opts.MaxURLs then some (s, .loaded s.crawled) else some (s, .pop)
  | .loaded current =>
    if current ≥ cfg.opts.MaxURLs then some (s, .exited)
    else if s.crawled = current then some ({ s with crawled := current + 1 }, .pop)
    else some (s, .top)
  | .pop =>
    match choice with
    | .ok =>
      match s.frontier.ch with
      | url :: rest => some ({ s with frontier := { s.frontier with ch := rest } }, .popCount url)
      | [] => if s.frontier.closed then some (s, .releaseExit) else none
    | .timeout => some (s, .sizeCheck)
    | .done =>
      match s.ctx with
      | .active => none
      | .canceled => some (s, .releaseExit)
      | .deadlineExceeded => some (s, .sizeCheck)
    | .fetched _ => none
  | .popCount url =>
    some ({ s with frontier := { s.frontier with size := s.frontier.size - 1 } },
      if url = [] then .sizeCheck else .robots url)
  | .sizeCheck =>
    if s.frontier.size = 0 then some (s, .releaseExit) else some (s, .releaseLoop)
  | .releaseExit => some (release cfg s, .exited)
  | .releaseLoop => some (release cfg s, .top)
  | .robots url =>
    if cfg.allowed url then some (s, .fetch url) else some (s, .releaseLoop)
  | .fetch url =>
    match choice with
    | .fetched fr =>
      some ({ s with log := .fetch url :: s.log },
        .links (crawlStart cfg url fr).1 (crawlStart cfg url fr).2)
    | _ => none
  | .links result [] => some (s, .send result)
  | .links result (link :: rest) =>
    if domain.IsSameDomain cfg.SimpleFold cfg.baseURL link then
      let result := { result with SameHost := result.SameHost ++ [link] }
      let answer := s.dedup.SeenOrAdd lib link
      let s := { s with dedup := answer.2, log := .seenOrAdd link answer.1 :: s.log }
      if !answer.1 then some (s, .push result link rest) else some (s, .links result rest)
    else
      some (s, .links { result with External := result.External ++ [link] } rest)
  | .push result link rest =>
    if s.frontier.closed then
      some ({ s with log := .pushLink link false :: s.log }, .links result rest)
    else
      match choice with
      | .ok =>
        if s.frontier.ch.length < s.frontier.capacity then
          some ({ s with frontier := { s.frontier with ch := s.frontier.ch ++ [link] },
                         log := .pushLink link true :: s.log }, .pushCount result rest)
        else none
      | .done =>
        if s.ctx = .active then none
        else some ({ s with log := .pushLink link false :: s.log }, .links result rest)
      | _ => none
  | .pushCount result rest =>
    some ({ s with frontier := { s.frontier with size := s.frontier.size + 1 } },
      .links result rest)
  | .send result =>
    match choice with
    | .ok => some ({ s with results := s.results ++ [result] }, .top)
    | .done => if s.ctx = .active then none else some (s, .exited)
    | _ => none
  | .exited => none

/-- One atomic step of the goroutine of `run` (crawler.go, lines 129-145 and the
deferred calls); `none` when it cannot move. -/
def mainStep {F : Type} (cfg : Config) (lib : Bloom F) (choice : Choice) (s : System F) :
    Option (System F) :=
  match s.phase with
  | .start =>
    let answer := s.dedup.SeenOrAdd lib cfg.baseURL
    some { s with phase := .seeded, dedup := answer.2,
                  log := .seenOrAdd cfg.baseURL answer.1 :: s.log }
  | .seeded =>
    match choice with
    | .ok =>
      if s.frontier.ch.length < s.frontier.capacity then
        some { s with phase := .running,
                      frontier := { s.frontier with ch := s.frontier.ch ++ [cfg.baseURL],
                                                    size := s.frontier.size + 1 },
                      log := .pushSeed cfg.baseURL true :: s.log }
      else none
    | .done =>
      if s.ctx = .active then none
      else some { s with phase := .finished,
                         frontier := { s.frontier with closed := true },
                         resultsClosed := true,
                         log := .pushSeed cfg.baseURL false :: s.log }
    | _ => none
  | .running =>
    if s.workers.all (· = .exited) then
      some { s with phase := .finished, frontier := { s.frontier with closed := true },
                    resultsClosed := true }
    else none
  | .finished => none

/-- The effect of an action; an action that cannot happen leaves the state as it is. -/
def step {F : Type} (cfg : Config) (lib : Bloom F) (s : System F) : Action → System F
  | .cancel => if s.ctx = .active then { s with ctx := .canceled } else s
  | .deadline => if s.ctx = .active then { s with ctx := .deadlineExceeded } else s
  | .main choice => (mainStep cfg lib choice s).getD s
  | .worker i choice =>
    if s.phase = .running then
      match s.workers.get? i with
      | none => s
      | some loc =>
        match workerStep cfg lib choice s loc with
        | none => s
        | some (s', loc') => { s' with workers := s'.workers.set i loc' }
    else s

/-- The state after the actions of a schedule, taken in order from `s`. -/
def exec {F : Type} (cfg : Config) (lib : Bloom F) (s : System F) (schedule : List Action) :
    System F :=
  schedule.foldl (step cfg lib) s

/-- The state after a schedule of a run of the crawler with the in-memory frontier:
every interleaving of the goroutines is such a schedule. -/
def runOf {F : Type} (cfg : Config) (lib : Bloom F) (emptyFilter : F)
    (schedule : List Action) : System F :=
  exec cfg lib (System.init cfg emptyFilter) schedule

/-- The URLs of the `Push` calls in a log, most recent first. -/
def pushes : List Event → List Str
  | [] => []
  | .pushSeed url _ :: log => url :: pushes log
  | .pushLink url _ :: log => url :: pushes log
  | _ :: log => pushes log

/-- The URLs of the `Fetch` calls in a log, most recent first. -/
def fetches : List Event → List Str
  | [] => []
  | .fetch url :: log => url :: fetches log
  | _ :: log => fetches log

/-- How many calls `SeenOrAdd(url)` in the log answered false. -/
def unseenAnswers (url : Str) (log : List Event) : Nat :=
  log.countP fun e => decide (e = .seenOrAdd url false)

/-- The link for which a worker has got the answer false from `SeenOrAdd` and has not
yet called `Push`. -/
def Loc.pending : Loc → Option Str
  | .push _ link _ => some link
  | _ => none

/-- The URL that a worker has popped and not yet fetched or dropped. -/
def Loc.inFlight : Loc → Option Str
  | .popCount url => some url
  | .robots url => some url
  | .fetch url => some url
  | _ => none

/-- How often the string `u` occurs in a list. -/
def countOf (u : Str) (l : List Str) : Nat :=
  l.countP fun x => decide (x = u)

/-- How many workers are about to push the link `u`. -/
def pendingCount (u : Str) (workers : List Loc) : Nat :=
  workers.countP fun w => decide (w.pending = some u)

/-- How many workers have popped the URL `u` and not yet fetched or dropped it. -/
def inFlightCount (u : Str) (workers : List Loc) : Nat :=
  workers.countP fun w => decide (w.inFlight = some u)

/-- Does a worker at this place hold a claimed slot of the budget? -/
def Loc.holdsSlot : Loc → Bool
  | .top => false
  | .loaded _ => false
  | .exited => false
  | _ => true

end crawler

/-! ## Invariants of a run -/

namespace crawler

open dedup frontier

/-- The budget invariant: the results sent plus the workers that hold a claimed slot do
not exceed the counter, and the counter does not exceed `MaxURLs`. -/
structure BudgetInv {F : Type} (cfg : Config) (s : System F) : Prop where
  claimed : (s.results.length : Int) + (s.workers.countP Loc.holdsSlot : Int) ≤ s.crawled
  capped : s.crawled ≤ cfg.opts.MaxURLs

/-- The push invariant, for a filter without false negatives.  It speaks of the calls
that this crawler makes, not of what the queue holds. -/
structure PushInv {F : Type} (cfg : Config) (lib : Bloom F) (s : System F) : Prop where
  /-- Every URL passed to `SeenOrAdd` tests positive. -/
  tested : ∀ u b, Event.seenOrAdd u b ∈ s.log → lib.TestString s.dedup.filter u = true
  /-- Every URL pushed or about to be pushed has been passed to `SeenOrAdd`. -/
  logged : ∀ u, (0 < countOf u (pushes s.log) ∨ 0 < pendingCount u s.workers ∨
      (s.phase = .seeded ∧ u = cfg.baseURL)) → ∃ b, Event.seenOrAdd u b ∈ s.log
  /-- Before the seed is pushed nothing was pushed and no worker has moved. -/
  early : (s.phase = .start ∨ s.phase = .seeded) →
    pushes s.log = [] ∧ ∀ u, pendingCount u s.workers = 0 ∧ inFlightCount u s.workers = 0
  /-- A URL is pushed, or about to be pushed, at most once. -/
  once : ∀ u, countOf u (pushes s.log) + pendingCount u s.workers
    + (if s.phase = .seeded ∧ u = cfg.baseURL then 1 else 0) ≤ 1
  /-- A link about to be pushed got the answer false exactly once. -/
  answered : ∀ u, 0 < pendingCount u s.workers → unseenAnswers u s.log = 1
  /-- Every push of a link comes after exactly one answer false for that link. -/
  preceded : ∀ newer older url ok, s.log = newer ++ Event.pushLink url ok :: older →
    unseenAnswers url older = 1

/-- The queue invariant of the in-memory frontier: what was fetched, is in flight or is
queued was pushed by this crawler. -/
def QueuedInv {F : Type} (s : System F) : Prop :=
  ∀ u, countOf u (fetches s.log) + inFlightCount u s.workers
    + countOf u s.frontier.ch ≤ countOf u (pushes s.log)

end crawler

/-! ## Reference definitions, written from the specification -/

namespace domain

/-- The path that the specification prescribes for a normalized URL: `/` for an empty
path, the path without its last byte when it is longer than `/` and ends with `/`, and
the path itself otherwise. -/
def referencePath (path : Str) : Str :=
  if path = [] then ['/']
  else if 1 < path.length ∧ path.getLast? = some '/' then path.dropLast
  else path

/-- The normalization of the specification on a parsed URL: the fragment is cleared, the
path becomes `referencePath`, and every other component is kept. -/
def normalizeRef (u : url.URL) : url.URL :=
  { u with Fragment := [], Path := referencePath u.Path }

end domain

namespace parser

/-- The anchors that the specification excludes: after trimming white space the `href`
is empty, starts with `javascript:`, `mailto:`, `tel:` or `data:`, or is `#` followed by
at least one byte. -/
def rejectedHref (rawHref : Str) : Bool :=
  let href := strings.TrimSpace rawHref
  href = [] ||
    strings.HasPrefix href "javascript:".toList ||
    strings.HasPrefix href "mailto:".toList ||
    strings.HasPrefix href "tel:".toList ||
    strings.HasPrefix href "data:".toList ||
    (match href with
      | '#' :: _ :: _ => true
      | _ => false)

/-- The link that one anchor stands for: its trimmed `href` resolved against the base
URL and normalized, when the anchor is not skipped, the resolution succeeds and the
result is an `http` or `https` URL. -/
def candidate (baseURL rawHref : Str) : Option Str :=
  if skipped rawHref then none
  else (domain.ResolveURL baseURL (strings.TrimSpace rawHref)).filter domain.IsValidHTTP

end parser

namespace parser

/-- The first occurrences of the strings of a list, in the order in which they first
appear. -/
def firstOccurrences : List Str → List Str
  | [] => []
  | x :: xs => x :: (firstOccurrences xs).filter fun y => decide (y ≠ x)

end parser

/-! ## Concrete inputs for the witnesses -/

namespace unicode

/-- A folding table for the examples: the two cases of every ASCII letter, with the
Kelvin sign U+212A in the orbit of `K` and `k` and the long s U+017F in the orbit of
`S` and `s`, as in Go's table; every other rune is alone. -/
def sampleFold (r : Nat) : Nat :=
  if r = 0x4B then 0x6B
  else if r = 0x6B then 0x212A
  else if r = 0x212A then 0x4B
  else if r = 0x53 then 0x73
  else if r = 0x73 then 0x17F
  else if r = 0x17F then 0x53
  else if 0x41 ≤ r ∧ r ≤ 0x5A then r + 32
  else if 0x61 ≤ r ∧ r ≤ 0x7A then r - 32
  else r

end unicode

namespace domain

end domain

namespace crawler

/-- A deduplicator that has seen everything, a frontier whose `Push` always fails, and a
page with two anchors. -/
def witnessDeps : Deps Unit Unit :=
  { SeenOrAdd := fun d _ => (true, d), Push := fun q _ => (false, q),
    document := fun _ => some ["/internal".toList, "https://external1.com".toList],
    parseError := "parse error".toList, SimpleFold := unicode.sampleFold }

/-- Two workers and a budget of one URL on a site whose pages link to `/a` and `/b`. -/
def budgetConfig : Config :=
  { opts := { DefaultOptions with Workers := 2, MaxURLs := 1 },
    baseURL := "https://example.com/".toList,
    allowed := fun _ => true,
    document := fun _ => some ["/a".toList, "/b".toList],
    parseError := "parse error".toList, SimpleFold := unicode.sampleFold }

/-- A page fetched with status 200 that is not HTML. -/
def plainPage : FetchResult :=
  { URL := [], StatusCode := 200, Body := [], ContentType := "text/plain".toList, Error := none }

/-- A schedule for `budgetConfig`: the seed is pushed, both workers load the counter,
worker 0 claims the slot, worker 1 fails its claim, retries and stops, worker 0 crawls
the seed, sends its result and finds the budget used up, and `run` closes the channel. -/
def budgetSchedule : List Action :=
  [.main .ok, .main .ok, .worker 0 .ok, .worker 1 .ok, .worker 0 .ok, .worker 1 .ok,
    .worker 1 .ok, .worker 1 .ok, .worker 0 .ok, .worker 0 .ok, .worker 0 .ok,
    .worker 0 (.fetched plainPage), .worker 0 .ok, .worker 0 .ok, .worker 0 .ok, .worker 0 .ok,
    .main .ok]

/-- An HTML page fetched with status 200. -/
def htmlPage : FetchResult :=
  { URL := [], StatusCode := 200, Body := [], ContentType := "text/html".toList, Error := none }

/-- One worker without budget on a site `http://h/` whose pages have the anchors `/a`
and `/`. -/
def linkConfig : Config :=
  { opts := { DefaultOptions with Workers := 1 },
    baseURL := "http://h/".toList,
    allowed := fun _ => true,
    document := fun _ => some ["/a".toList, "/".toList],
    parseError := "parse error".toList, SimpleFold := unicode.sampleFold }

/-- A schedule for one worker: the seed is pushed, popped and fetched as `page`, and
the worker handles the first two links of the page. -/
def linkSchedule (page : FetchResult) : List Action :=
  [.main .ok, .main .ok, .worker 0 .ok, .worker 0 .ok, .worker 0 .ok, .worker 0 .ok,
    .worker 0 (.fetched page), .worker 0 .ok, .worker 0 .ok, .worker 0 .ok, .worker 0 .ok]

end crawler

namespace url

/-- The bytes that a URL scheme may hold after its first letter. -/
def schemeChar (c : Char) : Prop :=
  (('a' ≤ c ∧ c ≤ 'z') ∨ ('A' ≤ c ∧ c ≤ 'Z')) ∨
    (('0' ≤ c ∧ c ≤ '9') ∨ c = '+' ∨ c = '-' ∨ c = '.')

/-- An ASCII letter. -/
def letter (c : Char) : Prop :=
  ('a' ≤ c ∧ c ≤ 'z') ∨ ('A' ≤ c ∧ c ≤ 'Z')

/-- A well-formed scheme: a letter followed by scheme bytes. -/
def validScheme (scheme : Str) : Prop :=
  (∃ c rest, scheme = c :: rest ∧ letter c) ∧ ∀ c ∈ scheme, schemeChar c

end url

/-! ## Package `context` (standard library) -/

namespace context

open crawler (Ctx)

/-- The errors `context.Canceled` and `context.DeadlineExceeded`. -/
inductive Error where
  | Canceled
  | DeadlineExceeded
  deriving DecidableEq, Repr

/-- Go `ctx.Err()` for a context in the given state. -/
def Err : Ctx → Option Error
  | .active => none
  | .canceled => some .Canceled
  | .deadlineExceeded => some .DeadlineExceeded

/-- Go `context.WithTimeout(parent, timeout)`: the state of the derived context when the
call returns.  A parent that is done hands its error on; under a parent that is not done
a timeout that is not positive has elapsed already. -/
def WithTimeout (parent : Ctx) (timeout : Int) : Ctx :=
  match parent with
  | .active => if timeout ≤ 0 then .deadlineExceeded else .active
  | .canceled => .canceled
  | .deadlineExceeded => .deadlineExceeded

end context

/-! ## The operations of `frontier.MemoryFrontier`, one call at a time -/

namespace frontier

open crawler (Ctx)

/-- Which case the runtime takes when both cases of a `select` are ready. -/
inductive Pick where
  | channel
  | done
  deriving DecidableEq, Repr

/-- What happens to the caller's context while a `select` waits with no case ready and
no other goroutine touches the channel. -/
inductive Wake where
  /-- The caller cancels the context. -/
  | cancel
  /-- The deadline of the caller's context passes. -/
  | deadline
  /-- The context stays as it is. -/
  | nothing
  deriving DecidableEq, Repr

/-- The state of the caller's context after the wait. -/
def Wake.ctx : Wake → Ctx
  | .cancel => .canceled
  | .deadline => .deadlineExceeded
  | .nothing => .active

/-- What `Pop` and `PopWithTimeout` return: the URL and the error (`none` for `nil`). -/
abbrev Popped := Str × Option context.Error

/-- `MemoryFrontier.Push` (memory.go, lines 24-36): the error (`none` for `nil`) and the
state afterwards; `none` when the call never returns. -/
def MemoryFrontier.Push (f : MemoryFrontier) (ctx : Ctx) (url : Str) (pick : Pick)
    (wake : Wake) : Option (Option context.Error × MemoryFrontier) :=
  if f.closed then some (some .Canceled, f)
  else
    let sent : Option context.Error × MemoryFrontier :=
      (none, { f with ch := f.ch ++ [url], size := f.size + 1 })
    match decide (f.ch.length < f.capacity), context.Err ctx with
    | true, none => some sent
    | true, some err =>
      match pick with
      | .channel => some sent
      | .done => some (some err, f)
    | false, some err => some (some err, f)
    | false, none =>
      match context.Err wake.ctx with
      | some err => some (some err, f)
      | none => none

/-- The case `url, ok := <-f.ch` of `Pop` and of `PopWithTimeout`, taken when the channel
holds an item or is closed. -/
def MemoryFrontier.receive (f : MemoryFrontier) : Popped × MemoryFrontier :=
  match f.ch with
  | url :: rest => ((url, none), { f with ch := rest, size := f.size - 1 })
  | [] => (([], some .Canceled), f)

/-- `MemoryFrontier.Pop` (memory.go, lines 39-50); `none` when the call never returns. -/
def MemoryFrontier.Pop (f : MemoryFrontier) (ctx : Ctx) (pick : Pick) (wake : Wake) :
    Option (Popped × MemoryFrontier) :=
  match decide (f.ch ≠ []) || f.closed, context.Err ctx with
  | true, none => some f.receive
  | true, some err =>
    match pick with
    | .channel => some f.receive
    | .done => some (([], some err), f)
  | false, some err => some (([], some err), f)
  | false, none =>
    match context.Err wake.ctx with
    | some err => some (([], some err), f)
    | none => none

/-- The case `<-ctx.Done()` of `PopWithTimeout` (memory.go, lines 64-68), `derived` being
the state of the context that `context.WithTimeout` returned. -/
def MemoryFrontier.expired (f : MemoryFrontier) (derived : Ctx) : Popped × MemoryFrontier :=
  if context.Err derived = some .DeadlineExceeded then (([], none), f)
  else (([], context.Err derived), f)

/-- `MemoryFrontier.PopWithTimeout` (memory.go, lines 53-70), `timeout` in nanoseconds.
The call always returns: a wait that nothing else ends is ended by the timer. -/
def MemoryFrontier.PopWithTimeout (f : MemoryFrontier) (ctx : Ctx) (timeout : Int)
    (pick : Pick) (wake : Wake) : Popped × MemoryFrontier :=
  let derived := context.WithTimeout ctx timeout
  match decide (f.ch ≠ []) || f.closed, derived with
  | true, .active => f.receive
  | true, _ =>
    match pick with
    | .channel => f.receive
    | .done => f.expired derived
  | false, .active =>
    match wake with
    | .cancel => f.expired .canceled
    | .deadline => f.expired .deadlineExceeded
    | .nothing => f.expired .deadlineExceeded
  | false, _ => f.expired derived

/-- `MemoryFrontier.Size`. -/
def MemoryFrontier.Size (f : MemoryFrontier) : Int :=
  f.size

/-- `MemoryFrontier.Close` (memory.go, lines 78-83): the error, always `nil`, and the
state afterwards. -/
def MemoryFrontier.Close (f : MemoryFrontier) : Option context.Error × MemoryFrontier :=
  (none, if f.closed = false then { f with closed := true } else f)

/-- The calls `Push(ctx, url)` for the URLs of a list, in order, by one goroutine: the
errors returned and the state afterwards; `none` when a call never returns. -/
def pushEach (ctx : Ctx) (pick : Pick) (wake : Wake) :
    MemoryFrontier → List Str → Option (List (Option context.Error) × MemoryFrontier)
  | f, [] => some ([], f)
  | f, url :: urls =>
    match f.Push ctx url pick wake with
    | none => none
    | some (err, next) =>
      match pushEach ctx pick wake next urls with
      | none => none
      | some (errs, last) => some (err :: errs, last)

/-- The results of `n` calls `Pop(ctx)` in a row by one goroutine, and the state
afterwards; `none` when a call never returns. -/
def popTimes (ctx : Ctx) (pick : Pick) (wake : Wake) :
    Nat → MemoryFrontier → Option (List Popped × MemoryFrontier)
  | 0, f => some ([], f)
  | n + 1, f =>
    match f.Pop ctx pick wake with
    | none => none
    | some (popped, next) =>
      match popTimes ctx pick wake n next with
      | none => none
      | some (rest, last) => some (popped :: rest, last)

end frontier

/-! ## Package `internal/robots` -/

namespace robots

/-- The library `temoto/robotstxt` with policies of type `R`: the three calls that
`Checker` makes. -/
structure Library (R : Type) where
  /-- `robotstxt.FromBytes(body)`, `none` for an error. -/
  FromBytes : Str → Option R
  /-- `data.FindGroup(agent)`: the `CrawlDelay` of the group in nanoseconds, `none` when
  there is no group. -/
  FindGroup : R → Str → Option Int
  /-- `data.TestAgent(path, agent)`. -/
  TestAgent : R → Str → Str → Bool

/-- `robots.Checker` (the lock is implicit: every method runs atomically); `crawlDelay`
in nanoseconds. -/
structure Checker (R : Type) where
  data : Option R
  userAgent : Str
  crawlDelay : Int

/-- `robots.NewChecker`. -/
def NewChecker {R : Type} (userAgent : Str) : Checker R :=
  { data := none, userAgent := userAgent, crawlDelay := 0 }

/-- What the HTTP exchange of `Fetch` gives. -/
inductive Exchange where
  /-- `client.Do(req)` returns an error. -/
  | failed
  /-- `client.Do(req)` returns a response with this status code; `body` is what
  `io.ReadAll` reads from it, `none` when the read fails. -/
  | response (status : Int) (body : Option Str)
  deriving DecidableEq, Repr

/-- The errors that `Fetch` returns. -/
inductive FetchError where
  /-- `url.Parse(baseURL)` failed. -/
  | parse
  /-- `http.NewRequestWithContext` failed: it cannot parse the URL of `robots.txt`. -/
  | request
  deriving DecidableEq, Repr

/-- The URL that `Fetch` asks for (robots.go, line 36). -/
def robotsURL (parsedURL : url.URL) : Str :=
  parsedURL.Scheme ++ "://".toList ++ parsedURL.Host ++ "/robots.txt".toList

/-- `Checker.Fetch` (robots.go, lines 30-91): the error (`none` for `nil`) and the state
afterwards; `exchange` tells what the request for `robots.txt` gives. -/
def Checker.Fetch {R : Type} (lib : Library R) (c : Checker R) (baseURL : Str)
    (exchange : Exchange) : Option FetchError × Checker R :=
  match url.Parse baseURL with
  | none => (some .parse, c)
  | some parsedURL =>
    match url.Parse (robotsURL parsedURL) with
    | none => (some .request, c)
    | some _ =>
      match exchange with
      | .failed => (none, { c with data := none })
      | .response status body =>
        if status ≠ 200 then (none, { c with data := none })
        else
          match body with
          | none => (none, { c with data := none })
          | some bytes =>
            match lib.FromBytes bytes with
            | none => (none, { c with data := none })
            | some data =>
              match lib.FindGroup data c.userAgent with
              | some delay =>
                if delay > 0 then (none, { c with data := some data, crawlDelay := delay })
                else (none, { c with data := some data })
              | none => (none, { c with data := some data })

/-- `Checker.IsAllowed` (robots.go, lines 94-110). -/
def Checker.IsAllowed {R : Type} (lib : Library R) (c : Checker R) (rawURL : Str) : Bool :=
  match c.data with
  | none => true
  | some data =>
    match url.Parse rawURL with
    | none => false
    | some parsedURL => lib.TestAgent data parsedURL.Path c.userAgent

/-- `Checker.CrawlDelay`. -/
def Checker.CrawlDelay {R : Type} (c : Checker R) : Int :=
  c.crawlDelay

end robots

/-! ## Package `net/http` (standard library): how a client follows redirects -/

namespace http

/-- The part of an `http.Response` that decides about redirects. -/
structure Response where
  StatusCode : Int
  /-- The header `Location`, empty when absent. -/
  Location : Str
  deriving DecidableEq, Repr

/-- The errors of a request. -/
inductive Error where
  /-- `http.ErrUseLastResponse`. -/
  | ErrUseLastResponse
  /-- Another error of `CheckRedirect`, of the transport, or of a `Location` that
  cannot be parsed. -/
  | other (text : Str)
  deriving DecidableEq, Repr

/-- The server and the network as a client sees them. -/
structure Transport where
  /-- `c.send(req, deadline)` for a GET request to this URL. -/
  send : Str → Except Error Response
  /-- `req.URL.Parse(loc)`: the URL that the header `Location` names, seen from the
  URL of the request. -/
  resolve : Str → Str → Option Str

/-- `redirectBehavior` for a GET request without a body: is the response a redirect to
follow? -/
def redirectBehavior (resp : Response) : Bool :=
  resp.StatusCode = 301 ∨ resp.StatusCode = 302 ∨ resp.StatusCode = 303 ∨
    resp.StatusCode = 307 ∨ resp.StatusCode = 308

/-- What `Client.Do` returns, with the requests it made, oldest first. -/
structure Outcome where
  reqs : List Str
  resp : Option Response
  err : Option Error
  deriving DecidableEq, Repr

/-- The loop of `Client.do` (net/http, client.go) from the point where it sends `req`,
`reqs` being the requests made before.  `checkRedirect req via` is the `CheckRedirect`
of the client.  Every turn sends one request; `none` when `fuel` turns do not suffice. -/
def Client.doLoop (checkRedirect : Str → List Str → Option Error) (t : Transport) :
    Nat → List Str → Str → Option Outcome
  | 0, _, _ => none
  | fuel + 1, reqs, req =>
    let reqs := reqs ++ [req]
    match t.send req with
    | .error err => some { reqs := reqs, resp := none, err := some err }
    | .ok resp =>
      if !redirectBehavior resp then some { reqs := reqs, resp := some resp, err := none }
      else if resp.Location = [] then some { reqs := reqs, resp := some resp, err := none }
      else
        match t.resolve req resp.Location with
        | none =>
          some { reqs := reqs, resp := none,
                 err := some (.other "failed to parse Location header".toList) }
        | some next =>
          match checkRedirect next reqs with
          | some .ErrUseLastResponse => some { reqs := reqs, resp := some resp, err := none }
          | some err => some { reqs := reqs, resp := some resp, err := some err }
          | none => Client.doLoop checkRedirect t fuel reqs next

/-- `Client.Do(req)` for a GET request to the URL `req`. -/
def Client.Do (checkRedirect : Str → List Str → Option Error) (t : Transport) (fuel : Nat)
    (req : Str) : Option Outcome :=
  Client.doLoop checkRedirect t fuel [] req

end http

/-! ## Package `internal/fetcher` -/

namespace fetcher

/-- The `CheckRedirect` function that `NewHTTPFetcher` installs (fetcher.go, lines
63-68): `req` is the request to come, `via` the requests made, oldest first. -/
def CheckRedirect (_req : Str) (via : List Str) : Option http.Error :=
  if via.length ≥ 10 then some .ErrUseLastResponse else none

end fetcher

/-! ## The robots gate and the budget: places of a worker, invariant of a run -/

namespace crawler

open dedup frontier

/-- Does a worker at this place hold a claimed slot for which it has not yet called the
fetcher? -/
def Loc.unspent : Loc → Bool
  | .pop => true
  | .popCount _ => true
  | .sizeCheck => true
  | .releaseExit => true
  | .releaseLoop => true
  | .robots _ => true
  | .fetch _ => true
  | _ => false

/-- The URL that a worker at this place is crawling: the argument of its `crawlURL`. -/
def Loc.crawling : Loc → Option Str
  | .fetch url => some url
  | .links result _ => some result.URL
  | .push result _ _ => some result.URL
  | .pushCount result _ => some result.URL
  | .send result => some result.URL
  | _ => none

/-- The invariant of the robots gate: what is fetched, being crawled or sent as a result
is allowed, and (under a budget) the counter is the number of calls of the fetcher plus
the slots that workers hold and have not yet spent on a call. -/
structure RobotsInv {F : Type} (cfg : Config) (s : System F) : Prop where
  fetched : ∀ u ∈ fetches s.log, cfg.allowed u = true
  crawling : ∀ loc ∈ s.workers, ∀ u, loc.crawling = some u → cfg.allowed u = true
  sent : ∀ r ∈ s.results, cfg.allowed r.URL = true
  counted : 0 < cfg.opts.MaxURLs →
    s.crawled = ((fetches s.log).length : Int) + (s.workers.countP Loc.unspent : Int)

/-- One worker and a budget of one URL on a site whose robots policy disallows the
paths under `/blocked`; the seed is such a path. -/
def robotsConfig : Config :=
  { opts := { DefaultOptions with Workers := 1, MaxURLs := 1 },
    baseURL := "https://example.com/blocked/page".toList,
    allowed := fun u => !strings.HasPrefix u "https://example.com/blocked".toList,
    document := fun _ => some [],
    parseError := "parse error".toList, SimpleFold := unicode.sampleFold }

/-- The state of a run for `robotsConfig` in which the seed is queued and the worker is
about to claim a slot. -/
def robotsState : System (List Str) :=
  runOf robotsConfig exactFilter [] [.main .ok, .main .ok]

/-- A schedule for `robotsConfig`: the seed is pushed, then the worker takes six steps. -/
def robotsSchedule : List Action :=
  [.main .ok, .main .ok, .worker 0 .ok, .worker 0 .ok, .worker 0 .ok, .worker 0 .ok,
    .worker 0 .ok, .worker 0 .ok]

end crawler

namespace dedup

/-- The filter that `bloom.NewWithEstimates(1, 0.9)` builds, as `BloomDedup` sees it: it
has one bit and one hash function, so every string is mapped to that bit.  The state
is the bit. -/
def oneBitFilter : Bloom Bool :=
  { TestString := fun bit _ => bit, AddString := fun _ _ => true }

/-- The state after `SeenOrAdd` was called for each URL of a list, in order. -/
def seenOrAddEach {F : Type} (lib : Bloom F) (b : BloomDedup F) (urls : List Str) :
    BloomDedup F :=
  urls.foldl (fun state url => (state.SeenOrAdd lib url).2) b

end dedup

namespace robots

/-- The exchanges after which `Fetch` has no policy: the request fails, the status is
not 200, the body cannot be read, or the body does not parse. -/
def Exchange.unusable {R : Type} (lib : Library R) : Exchange → Bool
  | .failed => true
  | .response _ none => true
  | .response status (some bytes) => status ≠ 200 || (lib.FromBytes bytes).isNone

/-- A stand-in for the library in the examples: every body parses to the same policy,
which disallows the paths under `/blocked/` and asks every agent for a crawl delay of
five seconds. -/
def sampleLibrary : Library Unit :=
  { FromBytes := fun _ => some (),
    FindGroup := fun _ _ => some 5000000000,
    TestAgent := fun _ path _ => !strings.HasPrefix path "/blocked/".toList }

/-- The `robots.txt` of the test `TestChecker_CrawlDelay`: two lines. -/
def sampleBody : Str :=
  "User-agent: TestBot".toList ++ [Char.ofNat 10] ++ "Crawl-delay: 5".toList

end robots

namespace http

/-- A redirect chain without end: every request is answered by a redirect whose
`Location` names a next URL. -/
def Transport.Endless (t : Transport) : Prop :=
  ∀ req, ∃ resp next, t.send req = .ok resp ∧ redirectBehavior resp = true ∧
    resp.Location ≠ [] ∧ t.resolve req resp.Location = some next

/-- A server that answers every request with `302 Found` and the location `/next`. -/
def loopTransport : Transport :=
  { send := fun _ => .ok { StatusCode := 302, Location := "/next".toList },
    resolve := fun _ loc => some ("https://example.com".toList ++ loc) }

end http

/-! ## The counter, the queue and the drain: further invariants of a run -/

namespace crawler

open dedup frontier

/-- `Crawler.CrawledCount` (crawler.go, lines 265-267): the atomic load of `c.crawled`. -/
def System.CrawledCount {F : Type} (s : System F) : Int :=
  s.crawled

/-- Is a worker at this place between its call of the fetcher and the send of the
result? -/
def Loc.afterFetch : Loc → Bool
  | .links _ _ => true
  | .push _ _ _ => true
  | .pushCount _ _ => true
  | .send _ => true
  | _ => false

/-- While the context is not done every call of the fetcher has led to a result or is
still being worked on, and a run that has ended has no worker left. -/
structure DeliveredInv {F : Type} (s : System F) : Prop where
  delivered : s.ctx = .active →
    (fetches s.log).length = s.results.length + s.workers.countP Loc.afterFetch
  ended : s.phase = .finished → s.ctx = .active → ∀ loc ∈ s.workers, loc = .exited

/-- Without a budget (`MaxURLs ≤ 0`) no worker loads the counter, and it stays zero. -/
structure UnlimitedInv {F : Type} (s : System F) : Prop where
  zero : s.crawled = 0
  unloaded : ∀ loc ∈ s.workers, ∀ current, loc ≠ .loaded current

/-- Every URL that is queued, was pushed or is about to be pushed has been passed to
`SeenOrAdd` before. -/
structure CoveredInv {F : Type} (cfg : Config) (s : System F) : Prop where
  queued : ∀ u ∈ s.frontier.ch, ∃ seen, Event.seenOrAdd u seen ∈ s.log
  pending : ∀ loc ∈ s.workers, ∀ u, loc.pending = some u →
    ∃ seen, Event.seenOrAdd u seen ∈ s.log
  seed : s.phase = .seeded → ∃ seen, Event.seenOrAdd cfg.baseURL seen ∈ s.log
  ordered : ∀ newer older u, (∃ ok, s.log = newer ++ Event.pushSeed u ok :: older) ∨
      (∃ ok, s.log = newer ++ Event.pushLink u ok :: older) →
    ∃ seen, Event.seenOrAdd u seen ∈ older

/-- One worker and no budget, the default, on a site whose seed is a page without
links. -/
def unlimitedConfig : Config :=
  { opts := { DefaultOptions with Workers := 1 },
    baseURL := "https://example.com/".toList,
    allowed := fun _ => true,
    document := fun _ => some [],
    parseError := "parse error".toList, SimpleFold := unicode.sampleFold }

/-- A schedule for `unlimitedConfig`: the seed is pushed, the worker pops and fetches
it, sends the result, waits in vain at the empty queue, finds `Size()` at zero and
returns, and `run` closes the channel. -/
def unlimitedSchedule : List Action :=
  [.main .ok, .main .ok, .worker 0 .ok, .worker 0 .ok, .worker 0 .ok, .worker 0 .ok,
    .worker 0 (.fetched plainPage), .worker 0 .ok, .worker 0 .ok, .worker 0 .ok,
    .worker 0 .timeout, .worker 0 .ok, .worker 0 .ok, .main .ok]

/-- A schedule for `budgetConfig`: the seed is pushed, worker 0 claims the slot, pops
the seed and starts to crawl it; worker 1 finds the budget used up and returns. -/
def claimSchedule : List Action :=
  [.main .ok, .main .ok, .worker 0 .ok, .worker 0 .ok, .worker 0 .ok, .worker 0 .ok,
    .worker 1 .ok, .worker 1 .ok]

/-- A schedule in which `run` passes the seed to `SeenOrAdd` and pushes it. -/
def seedSchedule : List Action :=
  [.main .ok, .main .ok]

/-- The state in which a run of `budgetConfig` starts. -/
def claimBefore : System (List Str) :=
  System.init budgetConfig []

/-- The state `claimBefore` after a worker has claimed the slot. -/
def claimAfter : System (List Str) :=
  { claimBefore with crawled := 1 }

/-- A state of a run of `budgetConfig` in which worker 0 has waited in vain at the
queue and is about to read `Size()`, which is zero; worker 1 has returned. -/
def drainState : System (List Str) :=
  { phase := .running, ctx := .active, crawled := 1,
    frontier := { ch := [], capacity := 100000, size := 0, closed := false },
    dedup := { filter := ["https://example.com/".toList], count := 1 },
    results := [], resultsClosed := false,
    workers := [.sizeCheck, .exited], log := [] }

/-- A state as `drainState`, but with one URL queued and `Size()` at one. -/
def busyState : System (List Str) :=
  { drainState with
    frontier := { ch := ["https://example.com/a".toList], capacity := 100000, size := 1,
                  closed := false } }

end crawler

/-! ## Runs of a crawler with the Redis frontier -/

namespace frontier

/-- `frontier.RedisFrontier`: the list that the Redis server keeps under the key of the
crawler, head first, and whether `Close` was called on the client.  The list belongs to
the server: every client that uses the key reads and writes it, and nothing in the
crawler clears it. -/
structure RedisFrontier where
  list : List Str
  closed : Bool
  deriving DecidableEq, Repr

/-- `frontier.NewRedisFrontier` when the server answers the ping; `leftover` is what the
server holds under the key at that time. -/
def NewRedisFrontier (leftover : List Str) : RedisFrontier :=
  { list := leftover, closed := false }

end frontier

namespace crawler

open dedup frontier

/-- The state of a run of a crawler that `New` built with `UseRedis`: as `System`, with
the Redis frontier in the place of the in-memory one. -/
structure RedisSystem (F : Type) where
  phase : Phase
  ctx : Ctx
  crawled : Int
  frontier : RedisFrontier
  dedup : BloomDedup F
  /-- The results sent on `c.results`, oldest first. -/
  results : List Result
  resultsClosed : Bool
  workers : List Loc
  log : List Event

/-- One atomic step of a run with the Redis frontier. -/
inductive RedisAction where
  /-- A step of this crawler or of the context of its caller. -/
  | own (action : Action)
  /-- Other clients of the server change the list under the key to `list`. -/
  | peers (list : List Str)
  deriving DecidableEq, Repr

/-- The state in which `run` starts for a crawler that `New` built with `UseRedis`, when
the server holds `leftover` under the key. -/
def RedisSystem.init {F : Type} (cfg : Config) (emptyFilter : F) (leftover : List Str) :
    RedisSystem F :=
  { phase := .start, ctx := .active, crawled := 0,
    frontier := NewRedisFrontier leftover,
    dedup := { filter := emptyFilter, count := 0 },
    results := [], resultsClosed := false,
    workers := List.replicate cfg.opts.Workers.toNat .top, log := [] }

/-- `if c.opts.MaxURLs > 0 { atomic.AddInt64(&c.crawled, -1) }`. -/
def redisRelease {F : Type} (cfg : Config) (s : RedisSystem F) : RedisSystem F :=
  if 0 < cfg.opts.MaxURLs then { s with crawled := s.crawled - 1 } else s

/-- One atomic step of a worker at `loc` when the frontier is the Redis frontier; `none`
when the step cannot happen now.  For a command sent to the server the choice `ok` is
its reply, `timeout` the empty reply of `BLPOP` after two seconds without an item, and
`done` an error of the client (the context is done, the connection fails, the client is
closed).  `PopWithTimeout` is one `BLPOP`, `Size` one `LLEN` (with zero for an error)
and `Push` one `RPUSH`, so the places `popCount` and `pushCount` are not used. -/
def redisWorkerStep {F : Type} (cfg : Config) (lib : Bloom F) (choice : Choice)
    (s : RedisSystem F) : Loc → Option (RedisSystem F × Loc)
  | .top =>
    if 0 < cfg.opts.MaxURLs then some (s, .loaded s.crawled) else some (s, .pop)
  | .loaded current =>
    if current ≥ cfg.opts.MaxURLs then some (s, .exited)
    else if s.crawled = current then some ({ s with crawled := current + 1 }, .pop)
    else some (s, .top)
  | .pop =>
    match choice with
    | .ok =>
      if s.frontier.closed then none
      else
        match s.frontier.list with
        | url :: rest =>
          some ({ s with frontier := { s.frontier with list := rest } },
            if url = [] then .sizeCheck else .robots url)
        | [] => none
    | .timeout =>
      if s.frontier.closed then none
      else if s.frontier.list = [] then some (s, .sizeCheck) else none
    | .done => some (s, .releaseExit)
    | .fetched _ => none
  | .popCount _ => none
  | .sizeCheck =>
    match choice with
    | .ok =>
      if s.frontier.closed then none
      else if s.frontier.list.length = 0 then some (s, .releaseExit)
      else some (s, .releaseLoop)
    | .done => some (s, .releaseExit)
    | _ => none
  | .releaseExit => some (redisRelease cfg s, .exited)
  | .releaseLoop => some (redisRelease cfg s, .top)
  | .robots url =>
    if cfg.allowed url then some (s, .fetch url) else some (s, .releaseLoop)
  | .fetch url =>
    match choice with
    | .fetched fr =>
      some ({ s with log := .fetch url :: s.log },
        .links (crawlStart cfg url fr).1 (crawlStart cfg url fr).2)
    | _ => none
  | .links result [] => some (s, .send result)
  | .links result (link :: rest) =>
    if domain.IsSameDomain cfg.SimpleFold cfg.baseURL link then
      let result := { result with SameHost := result.SameHost ++ [link] }
      let answer := s.dedup.SeenOrAdd lib link
      let s := { s with dedup := answer.2, log := .seenOrAdd link answer.1 :: s.log }
      if !answer.1 then some (s, .push result link rest) else some (s, .links result rest)
    else
      some (s, .links { result with External := result.External ++ [link] } rest)
  | .push result link rest =>
    match choice with
    | .ok =>
      if s.frontier.closed then none
      else
        some ({ s with frontier := { s.frontier with list := s.frontier.list ++ [link] },
                       log := .pushLink link true :: s.log }, .links result rest)
    | .done => some ({ s with log := .pushLink link false :: s.log }, .links result rest)
    | _ => none
  | .pushCount _ _ => none
  | .send result =>
    match choice with
    | .ok => some ({ s with results := s.results ++ [result] }, .top)
    | .done => if s.ctx = .active then none else some (s, .exited)
    | _ => none
  | .exited => none

/-- One atomic step of the goroutine of `run` when the frontier is the Redis frontier;
`none` when it cannot move. -/
def redisMainStep {F : Type} (cfg : Config) (lib : Bloom F) (choice : Choice)
    (s : RedisSystem F) : Option (RedisSystem F) :=
  match s.phase with
  | .start =>
    let answer := s.dedup.SeenOrAdd lib cfg.baseURL
    some { s with phase := .seeded, dedup := answer.2,
                  log := .seenOrAdd cfg.baseURL answer.1 :: s.log }
  | .seeded =>
    match choice with
    | .ok =>
      if s.frontier.closed then none
      else
        some { s with phase := .running,
                      frontier := { s.frontier with list := s.frontier.list ++ [cfg.baseURL] },
                      log := .pushSeed cfg.baseURL true :: s.log }
    | .done =>
      some { s with phase := .finished,
                    frontier := { s.frontier with closed := true },
                    resultsClosed := true,
                    log := .pushSeed cfg.baseURL false :: s.log }
    | _ => none
  | .running =>
    if s.workers.all (· = .exited) then
      some { s with phase := .finished, frontier := { s.frontier with closed := true },
                    resultsClosed := true }
    else none
  | .finished => none

/-- The effect of an action on a run with the Redis frontier; an action that cannot
happen leaves the state as it is. -/
def redisStep {F : Type} (cfg : Config) (lib : Bloom F) (s : RedisSystem F) :
    RedisAction → RedisSystem F
  | .peers list => { s with frontier := { s.frontier with list := list } }
  | .own .cancel => if s.ctx = .active then { s with ctx := .canceled } else s
  | .own .deadline => if s.ctx = .active then { s with ctx := .deadlineExceeded } else s
  | .own (.main choice) => (redisMainStep cfg lib choice s).getD s
  | .own (.worker i choice) =>
    if s.phase = .running then
      match s.workers.get? i with
      | none => s
      | some loc =>
        match redisWorkerStep cfg lib choice s loc with
        | none => s
        | some (s', loc') => { s' with workers := s'.workers.set i loc' }
    else s

/-- The state after the actions of a schedule, taken in order from `s`. -/
def redisExec {F : Type} (cfg : Config) (lib : Bloom F) (s : RedisSystem F)
    (schedule : List RedisAction) : RedisSystem F :=
  schedule.foldl (redisStep cfg lib) s

/-- The state after a schedule of a run of the crawler with the Redis frontier. -/
def redisRunOf {F : Type} (cfg : Config) (lib : Bloom F) (emptyFilter : F)
    (leftover : List Str) (schedule : List RedisAction) : RedisSystem F :=
  redisExec cfg lib (RedisSystem.init cfg emptyFilter leftover) schedule

/-- A state of a run of the crawler that `New` built: with the in-memory frontier, or
with the Redis frontier. -/
inductive Run (F : Type) where
  | memory (s : System F)
  | redis (s : RedisSystem F)

/-- The record of the calls made so far in a run, most recent first. -/
def Run.log {F : Type} : Run F → List Event
  | .memory s => s.log
  | .redis s => s.log

/-- What is queued in the frontier, head first. -/
def Run.queue {F : Type} : Run F → List Str
  | .memory s => s.frontier.ch
  | .redis s => s.frontier.list

/-- The steps of a schedule that are steps of this crawler or of its caller. -/
def ownActions : List RedisAction → List Action
  | [] => []
  | .own action :: schedule => action :: ownActions schedule
  | .peers _ :: schedule => ownActions schedule

/-- The state after a schedule of a run of the crawler that `New` built for the options
in `cfg`: `New` chooses the frontier by `UseRedis`.  With the in-memory frontier the
queue starts empty and only this crawler touches it; with the Redis frontier the server
holds `leftover` at the start, and the schedule tells when other clients change the
list. -/
def Run.of {F : Type} (cfg : Config) (lib : Bloom F) (emptyFilter : F)
    (leftover : List Str) (schedule : List RedisAction) : Run F :=
  if cfg.opts.UseRedis then .redis (redisRunOf cfg lib emptyFilter leftover schedule)
  else .memory (runOf cfg lib emptyFilter (ownActions schedule))

/-- The part of the state of a run with the Redis frontier that belongs to this crawler:
the state without the list of the server. -/
def RedisSystem.own {F : Type} (s : RedisSystem F) : System F :=
  { phase := s.phase, ctx := s.ctx, crawled := s.crawled,
    frontier := { ch := [], capacity := 0, size := 0, closed := s.frontier.closed },
    dedup := s.dedup, results := s.results, resultsClosed := s.resultsClosed,
    workers := s.workers, log := s.log }

/-- One worker and no budget with the Redis frontier, on a site whose seed
`https://example.com/` is a page without links. -/
def redisConfig : Config :=
  { unlimitedConfig with opts := { unlimitedConfig.opts with UseRedis := true } }

/-- A schedule for `redisConfig`: the seed is pushed; the worker pops a URL, fetches it
as `plainPage` and sends the result; then it pops and fetches once more. -/
def redisSchedule : List RedisAction :=
  [.own (.main .ok), .own (.main .ok),
    .own (.worker 0 .ok), .own (.worker 0 .ok), .own (.worker 0 .ok),
    .own (.worker 0 (.fetched plainPage)), .own (.worker 0 .ok), .own (.worker 0 .ok),
    .own (.worker 0 .ok), .own (.worker 0 .ok), .own (.worker 0 .ok),
    .own (.worker 0 (.fetched plainPage))]

end crawler

set_option maxHeartbeats 1000000

/-! # Theorems -/

/-! ## Facts about the `strings` functions -/

namespace strings

theorem hasPrefix_singleton (s : Str) (c : Char) :
    HasPrefix s [c] = true ↔ s.head? = some c := by
  cases s with
  | nil => simp [HasPrefix]
  | cons d t => simp [HasPrefix]

theorem hasSuffix_singleton (s : Str) (c : Char) :
    HasSuffix s [c] = true ↔ s.getLast? = some c := by
  unfold HasSuffix
  rw [List.reverse_singleton, hasPrefix_singleton, List.head?_reverse]

theorem trimSuffix_singleton (s : Str) (c : Char) (h : HasSuffix s [c] = true) :
    TrimSuffix s [c] = s.dropLast := by
  simp [TrimSuffix, h, List.dropLast_eq_take]

theorem char_le_iff (a b : Char) : a ≤ b ↔ a.toNat ≤ b.toNat := Iff.rfl

theorem char_lt_iff (a b : Char) : a < b ↔ a.toNat < b.toNat := Iff.rfl

theorem char_eq_iff (a b : Char) : a = b ↔ a.toNat = b.toNat := by
  constructor
  · intro h; rw [h]
  · intro h
    have := congrArg Char.ofNat h
    simpa using this

end strings

/-! ## `domain.Normalize` and `domain.IsSameDomain` -/

namespace domain

open url

theorem normalize_path_eq (path : Str) :
    (if (if path ≠ ['/'] ∧ strings.HasSuffix path ['/'] = true
          then strings.TrimSuffix path ['/'] else path) = []
      then ['/']
      else (if path ≠ ['/'] ∧ strings.HasSuffix path ['/'] = true
          then strings.TrimSuffix path ['/'] else path)) = referencePath path := by
  unfold referencePath
  by_cases hs : strings.HasSuffix path ['/'] = true
  · have hlast := (strings.hasSuffix_singleton path '/').1 hs
    rw [strings.trimSuffix_singleton path '/' hs]
    by_cases h1 : path = ['/']
    · subst h1; simp
    · have hne : path ≠ [] := by rintro rfl; simp at hlast
      have hlen : 1 < path.length := by
        match path, hne, h1, hlast with
        | [c], _, h1, hlast => simp at hlast; exact absurd (by rw [hlast]) h1
        | _ :: _ :: _, _, _, _ => simp
      have hdl : path.dropLast ≠ [] := by
        intro h
        have := congrArg List.length h
        simp at this
        omega
      simp [h1, hs, hne, hlen, hlast, hdl]
  · have hlast : ¬ path.getLast? = some '/' := fun h =>
      hs ((strings.hasSuffix_singleton path '/').2 h)
    simp [hs, hlast]

theorem Normalize_eq_map (rawURL : Str) :
    Normalize rawURL = (Parse rawURL).map fun u => (normalizeRef u).String := by
  unfold Normalize
  cases hp : Parse rawURL with
  | none => rfl
  | some u =>
    have key := normalize_path_eq u.Path
    simp only [Option.map_some', normalizeRef]
    by_cases hc : u.Path ≠ ['/'] ∧ strings.HasSuffix u.Path ['/'] = true
    · rw [if_pos hc] at key
      rw [if_pos hc]
      dsimp only
      by_cases he : strings.TrimSuffix u.Path ['/'] = []
      · rw [if_pos he] at key
        rw [if_pos he, ← key]
      · rw [if_neg he] at key
        rw [if_neg he, ← key]
    · rw [if_neg hc] at key
      rw [if_neg hc]
      dsimp only
      by_cases he : u.Path = []
      · rw [if_pos he] at key
        rw [if_pos he, ← key]
      · rw [if_neg he] at key
        rw [if_neg he, ← key]

/-- C2 (the code at the failing input): `Normalize` maps `https://example.com/a//` to
`https://example.com/a/`, and maps that result to `https://example.com/a`, so
normalizing twice differs from normalizing once. -/
theorem Normalize_not_idempotent_double_slash :
    Normalize "https://example.com/a//".toList = some "https://example.com/a/".toList ∧
    Normalize "https://example.com/a/".toList = some "https://example.com/a".toList ∧
    (Normalize "https://example.com/a//".toList).bind Normalize
      ≠ Normalize "https://example.com/a//".toList := by
  have h1 : Normalize "https://example.com/a//".toList = some "https://example.com/a/".toList := by
    rfl
  have h2 : Normalize "https://example.com/a/".toList = some "https://example.com/a".toList := by
    rfl
  refine ⟨h1, h2, ?_⟩
  rw [h1, Option.some_bind, h2]
  decide

/-- C3 as amended: `Normalize` equals the reference definition on the parsed URL record.
For every URL that parses, the result is the serialization, by `(*URL).String`, of the
record with the scheme, host and query string of the input, no fragment, and the
reference path (`/` for an empty path, one trailing `/` removed from a path longer than
`/`, the path itself otherwise); a URL that does not parse is rejected; and the five
examples of the specification come out as stated. -/
theorem Normalize_eq_reference :
    (∀ rawURL : Str, Normalize rawURL = (Parse rawURL).map fun u => (normalizeRef u).String) ∧
    (∀ u : URL, (normalizeRef u).Scheme = u.Scheme ∧ (normalizeRef u).Host = u.Host ∧
      (normalizeRef u).RawQuery = u.RawQuery ∧ (normalizeRef u).Fragment = [] ∧
      ((normalizeRef u).Path =
        if u.Path = [] then ['/']
        else if 1 < u.Path.length ∧ u.Path.getLast? = some '/' then u.Path.dropLast
        else u.Path)) ∧
    Normalize "https://example.com/page#section".toList = some "https://example.com/page".toList ∧
    Normalize "https://example.com/page/".toList = some "https://example.com/page".toList ∧
    Normalize "https://example.com".toList = some "https://example.com/".toList ∧
    Normalize "https://example.com/a/b/c/".toList = some "https://example.com/a/b/c".toList ∧
    Normalize "https://example.com/page?q=1".toList = some "https://example.com/page?q=1".toList := by
  refine ⟨Normalize_eq_map, fun u => ⟨rfl, rfl, rfl, rfl, rfl⟩, by rfl, by rfl, by rfl, by rfl, by rfl⟩

/-- C3 (counterexample): the URL `mailto:test@example.com` parses with an opaque part
and an empty path; `Normalize` returns it unchanged, so the path of the output is still
empty and not `/` (the serialization leaves out the path of a URL with an opaque
part). -/
theorem Normalize_opaque_url_keeps_empty_path :
    (Parse "mailto:test@example.com".toList).map (fun u => (u.Opaque, u.Path))
      = some ("test@example.com".toList, []) ∧
    Normalize "mailto:test@example.com".toList = some "mailto:test@example.com".toList ∧
    ((Normalize "mailto:test@example.com".toList).bind Parse).map (fun u => u.Path)
      = some [] := by
  have h1 : Normalize "mailto:test@example.com".toList
      = some "mailto:test@example.com".toList := by rfl
  refine ⟨by rfl, h1, ?_⟩
  rw [h1, Option.some_bind]
  rfl

end domain
namespace utf8

theorem decode_ascii (c : Char) (s : Str) (h : c.toNat < 0x80) :
    DecodeRuneInString (c :: s) = (c.toNat, 1) := by
  simp [DecodeRuneInString, first, h]

theorem decode_width_pos (c : Char) (s : Str) : 1 ≤ (DecodeRuneInString (c :: s)).2 := by
  unfold DecodeRuneInString
  dsimp only
  split_ifs <;> simp

theorem runesUpTo_of_le (fuel : Nat) :
    ∀ s : Str, s.length ≤ fuel → runesUpTo fuel s = runesUpTo s.length s := by
  induction fuel using Nat.strong_induction_on with
  | _ fuel ih =>
    intro s hs
    cases s with
    | nil => cases fuel <;> rfl
    | cons c s =>
      cases fuel with
      | zero => simp at hs
      | succ n =>
        simp only [List.length_cons] at hs ⊢
        simp only [runesUpTo]
        have hw := decode_width_pos c s
        have hd : ((c :: s).drop (DecodeRuneInString (c :: s)).2).length ≤ s.length := by
          simp only [List.length_drop, List.length_cons]
          omega
        rw [ih n (Nat.lt_succ_self n) _ (by omega)]
        by_cases hn : s.length = n
        · rw [hn]
          rw [ih n (Nat.lt_succ_self n) _ (by omega)]
        · rw [ih s.length (by omega) _ hd]

theorem runes_cons (c : Char) (s : Str) :
    runes (c :: s) = (DecodeRuneInString (c :: s)).1
      :: runes ((c :: s).drop (DecodeRuneInString (c :: s)).2) := by
  have hw := decode_width_pos c s
  have hd : ((c :: s).drop (DecodeRuneInString (c :: s)).2).length ≤ s.length := by
    simp only [List.length_drop, List.length_cons]
    omega
  unfold runes
  simp only [List.length_cons, runesUpTo]
  rw [runesUpTo_of_le s.length _ hd]

theorem runes_cons_ascii (c : Char) (s : Str) (h : c.toNat < 0x80) :
    runes (c :: s) = c.toNat :: runes s := by
  rw [runes_cons, decode_ascii c s h]
  rfl

theorem runes_ascii (s : Str) (h : ∀ c ∈ s, c.toNat < 0x80) :
    runes s = s.map Char.toNat := by
  induction s with
  | nil => rfl
  | cons c s ih =>
    rw [runes_cons_ascii c s (h c (List.mem_cons_self c s)),
      ih fun d hd => h d (List.mem_cons_of_mem c hd)]
    rfl

end utf8

namespace unicode

theorem SameFold.symm {f : Nat → Nat} (h : IsSimpleFold f) {a b : Nat}
    (hab : SameFold f a b) : SameFold f b a := by
  obtain ⟨k, hk⟩ := hab
  obtain ⟨n, hn0, hn⟩ := h.cycle a
  have hfix : f^[n * k] a = a := by
    rw [Function.iterate_mul]
    exact Function.iterate_fixed hn k
  refine ⟨n * k - k, ?_⟩
  have hle : k ≤ n * k := Nat.le_mul_of_pos_left k hn0
  rw [← hk, ← Function.iterate_add_apply, Nat.sub_add_cancel hle, hfix]

end unicode

namespace strings

open unicode

theorem lowerByte_toNat (c : Char) :
    (lowerByte c).toNat = if 65 ≤ c.toNat ∧ c.toNat ≤ 90 then c.toNat + 32 else c.toNat := by
  unfold lowerByte
  by_cases h : 65 ≤ c.toNat ∧ c.toNat ≤ 90
  · have h2 : 'A' ≤ c ∧ c ≤ 'Z' := h
    rw [if_pos h2, if_pos h]
    obtain ⟨h1, h2⟩ := h
    generalize c.toNat = n at h1 h2
    interval_cases n <;> rfl
  · have h2 : ¬ ('A' ≤ c ∧ c ≤ 'Z') := h
    rw [if_neg h2, if_neg h]

theorem equalFoldRune_self (f : Nat → Nat) (r : Nat) : equalFoldRune f r r = true := by
  simp [equalFoldRune]

end strings

namespace unicode

end unicode

namespace domain

open url

end domain

/-! ## `Parser.ExtractLinks` -/

namespace parser

theorem skipped_eq_rejectedHref (rawHref : Str) : skipped rawHref = rejectedHref rawHref := by
  unfold skipped rejectedHref
  dsimp only
  congr 1
  match strings.TrimSpace rawHref with
  | [] => rfl
  | [c] => by_cases h : c = '#' <;> simp [strings.HasPrefix, h]
  | c :: d :: t => by_cases h : c = '#' <;> simp [strings.HasPrefix, h]

theorem visitAnchor_skipped (baseURL : Str) (st : ExtractState) (rawHref : Str)
    (h : skipped rawHref = true) : visitAnchor baseURL st rawHref = st := by
  simp [visitAnchor, h]

theorem visitAnchor_eq_candidate (baseURL : Str) (st : ExtractState) (rawHref : Str) :
    visitAnchor baseURL st rawHref =
      match candidate baseURL rawHref with
      | none => st
      | some absoluteURL =>
        if absoluteURL ∈ st.seen then st
        else { links := st.links ++ [absoluteURL], seen := absoluteURL :: st.seen } := by
  unfold visitAnchor candidate
  by_cases hs : skipped rawHref = true
  · simp [hs]
  · simp only [hs, if_false, Bool.false_eq_true]
    cases hr : domain.ResolveURL baseURL (strings.TrimSpace rawHref) with
    | none => simp
    | some a =>
      by_cases hv : domain.IsValidHTTP a = true
      · simp [Option.filter, hv]
      · simp [Option.filter, hv]

theorem foldl_visitAnchor_filter (baseURL : Str) (keep : Str → Bool)
    (hkeep : ∀ rawHref, keep rawHref = false → skipped rawHref = true)
    (anchors : List Str) (st : ExtractState) :
    (anchors.filter keep).foldl (visitAnchor baseURL) st
      = anchors.foldl (visitAnchor baseURL) st := by
  induction anchors generalizing st with
  | nil => rfl
  | cons a rest ih =>
    by_cases hk : keep a = true
    · simp only [List.filter_cons, hk, if_true, List.foldl_cons]
      exact ih _
    · have hk' : keep a = false := by simpa using hk
      simp only [List.filter_cons, hk, if_false, List.foldl_cons, Bool.false_eq_true]
      rw [visitAnchor_skipped baseURL st a (hkeep a hk')]
      exact ih _

/-- C9: anchors that the filters name contribute nothing.  When every anchor that `keep`
drops is one whose trimmed `href` is empty, starts with `javascript:`, `mailto:`, `tel:`
or `data:`, or is `#` followed by at least one byte, then `ExtractLinks` returns for the
page without the dropped anchors the same list as for the whole page. -/
theorem ExtractLinks_ignores_rejected_anchors (baseURL : Str) (keep : Str → Bool)
    (hkeep : ∀ rawHref, keep rawHref = false → rejectedHref rawHref = true)
    (anchors : List Str) :
    extractFromAnchors baseURL (anchors.filter keep) = extractFromAnchors baseURL anchors := by
  unfold extractFromAnchors
  rw [foldl_visitAnchor_filter baseURL keep _ anchors]
  intro rawHref h
  rw [skipped_eq_rejectedHref]
  exact hkeep rawHref h

/-- Witness for C9: of the anchors `javascript:void(0)`, `mailto:test@example.com`,
`tel:+1234567890`, a blank `href`, `#section` and `https://example.com/valid`, removing
the five that the filters name leaves the result unchanged. -/
theorem ExtractLinks_ignores_rejected_anchors_witness :
    extractFromAnchors "https://example.com".toList
        (["javascript:void(0)".toList, "mailto:test@example.com".toList,
          "tel:+1234567890".toList, "   ".toList, "#section".toList,
          "https://example.com/valid".toList].filter fun h => !rejectedHref h)
      = extractFromAnchors "https://example.com".toList
        ["javascript:void(0)".toList, "mailto:test@example.com".toList,
          "tel:+1234567890".toList, "   ".toList, "#section".toList,
          "https://example.com/valid".toList] :=
  ExtractLinks_ignores_rejected_anchors "https://example.com".toList (fun h => !rejectedHref h)
    (fun rawHref h => by simpa using h) _

theorem candidate_valid (baseURL rawHref a : Str) (h : candidate baseURL rawHref = some a) :
    domain.IsValidHTTP a = true := by
  unfold candidate at h
  split at h
  · simp at h
  · rw [Option.filter_eq_some] at h
    exact h.2

theorem firstOccurrences_subset (cands : List Str) :
    ∀ x, x ∈ firstOccurrences cands → x ∈ cands := by
  induction cands with
  | nil => simp [firstOccurrences]
  | cons c cs ih =>
    intro x hx
    simp only [firstOccurrences, List.mem_cons, List.mem_filter] at hx
    rcases hx with rfl | ⟨hx, _⟩
    · exact List.mem_cons_self _ _
    · exact List.mem_cons_of_mem _ (ih x hx)

theorem firstOccurrences_mem (cands : List Str) :
    ∀ x, x ∈ cands → x ∈ firstOccurrences cands := by
  induction cands with
  | nil => simp
  | cons c cs ih =>
    intro x hx
    simp only [firstOccurrences, List.mem_cons, List.mem_filter, decide_eq_true_eq]
    by_cases hxc : x = c
    · exact Or.inl hxc
    · rcases List.mem_cons.1 hx with h | h
      · exact absurd h hxc
      · exact Or.inr ⟨ih x h, hxc⟩

theorem firstOccurrences_nodup (cands : List Str) : (firstOccurrences cands).Nodup := by
  induction cands with
  | nil => simp [firstOccurrences]
  | cons c cs ih =>
    simp only [firstOccurrences, List.nodup_cons, List.mem_filter, decide_eq_true_eq]
    exact ⟨fun h => h.2 rfl, ih.filter _⟩

theorem foldl_visitAnchor_links (baseURL : Str) (anchors : List Str) (st : ExtractState)
    (hseen : ∀ x, x ∈ st.seen ↔ x ∈ st.links) :
    (anchors.foldl (visitAnchor baseURL) st).links =
      st.links ++ (firstOccurrences (anchors.filterMap (candidate baseURL))).filter
        fun x => decide (x ∉ st.links) := by
  induction anchors generalizing st with
  | nil => simp [firstOccurrences]
  | cons h rest ih =>
    rw [List.foldl_cons, visitAnchor_eq_candidate, List.filterMap_cons]
    cases candidate baseURL h with
    | none => exact ih st hseen
    | some a =>
      simp only
      by_cases hs : a ∈ st.seen
      · rw [if_pos hs, ih st hseen]
        have hl : a ∈ st.links := (hseen a).1 hs
        congr 1
        simp only [firstOccurrences, List.filter_cons, hl, not_true_eq_false, decide_False,
          Bool.false_eq_true, if_false, List.filter_filter]
        apply List.filter_congr
        intro x _
        by_cases hx : x ∈ st.links
        · simp [hx]
        · have : x ≠ a := fun e => hx (e ▸ hl)
          simp [hx, this]
      · rw [if_neg hs]
        have hl : a ∉ st.links := fun hl => hs ((hseen a).2 hl)
        rw [ih]
        · simp only [firstOccurrences, List.filter_cons, hl, not_false_eq_true, decide_True,
            if_true, List.filter_filter, List.append_assoc, List.singleton_append]
          congr 2
          apply List.filter_congr
          intro x _
          simp only [List.mem_append, List.mem_singleton, not_or, Bool.decide_and,
            Bool.and_comm]
        · intro x
          simp only [List.mem_cons, List.mem_append, List.mem_singleton, hseen x]
          tauto

theorem extractFromAnchors_eq_firstOccurrences (baseURL : Str) (anchors : List Str) :
    extractFromAnchors baseURL anchors
      = firstOccurrences (anchors.filterMap (candidate baseURL)) := by
  unfold extractFromAnchors
  rw [foldl_visitAnchor_links baseURL anchors _ (fun x => by simp)]
  simp

/-- C10: for every page, the list that `ExtractLinks` returns contains no string twice,
every element is an `http` or `https` URL, and the list consists of the links that the
anchors resolve and normalize to, each at the place of the first anchor that yields it;
the anchors `/page1`, `/page1` and `/page1/` under `https://example.com` yield the single
link `https://example.com/page1`. -/
theorem ExtractLinks_dedupes_in_first_anchor_order :
    (∀ (baseURL : Str) (anchors : List Str),
      (extractFromAnchors baseURL anchors).Nodup ∧
      (∀ link ∈ extractFromAnchors baseURL anchors, domain.IsValidHTTP link = true) ∧
      (∀ link, link ∈ extractFromAnchors baseURL anchors ↔
        link ∈ anchors.filterMap (candidate baseURL)) ∧
      extractFromAnchors baseURL anchors
        = firstOccurrences (anchors.filterMap (candidate baseURL))) ∧
    extractFromAnchors "https://example.com".toList
      ["/page1".toList, "/page1".toList, "/page1/".toList]
      = ["https://example.com/page1".toList] := by
  refine ⟨fun baseURL anchors => ?_, ?_⟩
  · have heq := extractFromAnchors_eq_firstOccurrences baseURL anchors
    have hmem : ∀ link, link ∈ extractFromAnchors baseURL anchors ↔
        link ∈ anchors.filterMap (candidate baseURL) := fun link => by
      rw [heq]
      exact ⟨firstOccurrences_subset _ link, firstOccurrences_mem _ link⟩
    refine ⟨heq ▸ firstOccurrences_nodup _, ?_, hmem, heq⟩
    intro link hl
    have hc := (hmem link).1 hl
    rw [List.mem_filterMap] at hc
    obtain ⟨rawHref, _, hcand⟩ := hc
    exact candidate_valid baseURL rawHref link hcand
  · have v : domain.IsValidHTTP "https://example.com/page1".toList = true := by rfl
    have c1 : candidate "https://example.com".toList "/page1".toList
        = some "https://example.com/page1".toList := by
      have t : strings.TrimSpace "/page1".toList = "/page1".toList := by rfl
      have k : skipped "/page1".toList = false := by rfl
      have r : domain.ResolveURL "https://example.com".toList "/page1".toList
          = some "https://example.com/page1".toList := by rfl
      simp only [candidate, t, k, r, Option.filter, v, if_true, if_false, Bool.false_eq_true]
    have c2 : candidate "https://example.com".toList "/page1/".toList
        = some "https://example.com/page1".toList := by
      have t : strings.TrimSpace "/page1/".toList = "/page1/".toList := by rfl
      have k : skipped "/page1/".toList = false := by rfl
      have r : domain.ResolveURL "https://example.com".toList "/page1/".toList
          = some "https://example.com/page1".toList := by rfl
      simp only [candidate, t, k, r, Option.filter, v, if_true, if_false, Bool.false_eq_true]
    rw [extractFromAnchors_eq_firstOccurrences]
    simp only [List.filterMap_cons, List.filterMap_nil, c1, c2]
    decide

end parser

/-! ## `Crawler.crawlURL` -/

namespace crawler

theorem foldl_categorize {D Q : Type} (deps : Deps D Q) (baseURL : Str) (links : List Str)
    (st : LinkLoop D Q) :
    (links.foldl (categorize deps baseURL) st).result =
      { st.result with
        SameHost := st.result.SameHost
          ++ links.filter (domain.IsSameDomain deps.SimpleFold baseURL),
        External := st.result.External
          ++ links.filter fun link => !domain.IsSameDomain deps.SimpleFold baseURL link } := by
  induction links generalizing st with
  | nil => simp
  | cons link rest ih =>
    rw [List.foldl_cons, ih]
    by_cases hd : domain.IsSameDomain deps.SimpleFold baseURL link = true
    · have hres : (categorize deps baseURL st link).result
          = { st.result with SameHost := st.result.SameHost ++ [link] } := by
        unfold categorize
        rw [if_pos hd]
        dsimp only
        split <;> rfl
      rw [hres]
      simp [List.filter_cons, hd]
    · have hres : (categorize deps baseURL st link).result
          = { st.result with External := st.result.External ++ [link] } := by
        unfold categorize
        rw [if_neg hd]
      rw [hres]
      simp [List.filter_cons, hd]

/-- The function `crawlURL` is its part before the loop, `crawlStart`, followed by the
loop over the links. -/
theorem crawlURL_eq_crawlStart {D Q : Type} (deps : Deps D Q) (cfg : Config)
    (hdoc : cfg.document = deps.document) (herr : cfg.parseError = deps.parseError)
    (dedup : D) (frontier : Q) (url : Str) (fetched : FetchResult) :
    crawlURL deps cfg.baseURL dedup frontier url fetched =
      (crawlStart cfg url fetched).2.foldl (categorize deps cfg.baseURL)
        { result := (crawlStart cfg url fetched).1, dedup := dedup, frontier := frontier } := by
  unfold crawlURL crawlStart
  rw [hdoc, herr]
  cases fetched.Error with
  | some e => rfl
  | none =>
    dsimp only
    split_ifs
    · rfl
    · rfl
    · cases parser.ExtractLinks deps.document url fetched.Body <;> rfl

/-- C5: the link partition of `crawlURL`.  For a fetch without error, with a 2xx status
and an HTML content type, and with `links` the list that `ExtractLinks` returns, the
result has `Links = links`, `SameHost` is the sublist of the links on the seed's host in
their order, `External` is the sublist of the other links in their order, and every link
is in exactly one of the two.  The deduplicator and the frontier are arbitrary, so a
same-host link is in `SameHost` whether or not it was seen before or its push failed. -/
theorem crawlURL_partitions_links {D Q : Type} (deps : Deps D Q) (baseURL : Str) (dedup : D)
    (frontier : Q) (url : Str) (fetched : FetchResult) (links : List Str)
    (herr : fetched.Error = none)
    (hstatus : 200 ≤ fetched.StatusCode ∧ fetched.StatusCode < 300)
    (hhtml : strings.Contains (strings.ToLower fetched.ContentType) "text/html".toList = true)
    (hlinks : parser.ExtractLinks deps.document url fetched.Body = some links) :
    (crawlURL deps baseURL dedup frontier url fetched).result.Links = links ∧
    (crawlURL deps baseURL dedup frontier url fetched).result.SameHost
      = links.filter (domain.IsSameDomain deps.SimpleFold baseURL) ∧
    (crawlURL deps baseURL dedup frontier url fetched).result.External
      = links.filter (fun link => !domain.IsSameDomain deps.SimpleFold baseURL link) ∧
    (∀ link ∈ links,
      (link ∈ (crawlURL deps baseURL dedup frontier url fetched).result.SameHost ∧
        link ∉ (crawlURL deps baseURL dedup frontier url fetched).result.External) ∨
      (link ∉ (crawlURL deps baseURL dedup frontier url fetched).result.SameHost ∧
        link ∈ (crawlURL deps baseURL dedup frontier url fetched).result.External)) := by
  have hcrawl : (crawlURL deps baseURL dedup frontier url fetched).result =
      { URL := url, Links := links,
        SameHost := links.filter (domain.IsSameDomain deps.SimpleFold baseURL),
        External := links.filter fun link =>
          !domain.IsSameDomain deps.SimpleFold baseURL link } := by
    unfold crawlURL
    have hs : ¬ (fetched.StatusCode < 200 ∨ fetched.StatusCode ≥ 300) := by omega
    simp only [herr, hs, hhtml, hlinks, if_false, Bool.not_true, Bool.false_eq_true]
    rw [foldl_categorize]
    simp
  rw [hcrawl]
  refine ⟨rfl, rfl, rfl, ?_⟩
  intro link hl
  simp only [List.mem_filter, hl, true_and, Bool.not_eq_true', Bool.not_eq_true]
  cases domain.IsSameDomain deps.SimpleFold baseURL link <;> simp

/-- Witness for C5: the page of `https://example.com/` with the anchors `/internal` and
`https://external1.com`, fetched with status 200 as `text/html`. -/
theorem crawlURL_partitions_links_witness :
    (crawlURL witnessDeps "https://example.com/".toList () () "https://example.com/".toList
      { URL := "https://example.com/".toList, StatusCode := 200, Body := [],
        ContentType := "text/html; charset=utf-8".toList, Error := none }).result.SameHost
      = ["https://example.com/internal".toList, "https://external1.com/".toList].filter
          (domain.IsSameDomain unicode.sampleFold "https://example.com/".toList) :=
  (crawlURL_partitions_links witnessDeps "https://example.com/".toList () ()
    "https://example.com/".toList
    { URL := "https://example.com/".toList, StatusCode := 200, Body := [],
      ContentType := "text/html; charset=utf-8".toList, Error := none }
    ["https://example.com/internal".toList, "https://external1.com/".toList]
    rfl (by decide) (by rfl) (by
      have c1 : parser.candidate "https://example.com/".toList "/internal".toList
          = some "https://example.com/internal".toList := by
        have t : strings.TrimSpace "/internal".toList = "/internal".toList := by rfl
        have k : parser.skipped "/internal".toList = false := by rfl
        have r : domain.ResolveURL "https://example.com/".toList "/internal".toList
            = some "https://example.com/internal".toList := by rfl
        have v : domain.IsValidHTTP "https://example.com/internal".toList = true := by rfl
        simp only [parser.candidate, t, k, r, Option.filter, v, if_true, if_false,
          Bool.false_eq_true]
      have c2 : parser.candidate "https://example.com/".toList "https://external1.com".toList
          = some "https://external1.com/".toList := by
        have t : strings.TrimSpace "https://external1.com".toList
            = "https://external1.com".toList := by rfl
        have k : parser.skipped "https://external1.com".toList = false := by rfl
        have r : domain.ResolveURL "https://example.com/".toList "https://external1.com".toList
            = some "https://external1.com/".toList := by rfl
        have v : domain.IsValidHTTP "https://external1.com/".toList = true := by rfl
        simp only [parser.candidate, t, k, r, Option.filter, v, if_true, if_false,
          Bool.false_eq_true]
      simp only [parser.ExtractLinks, witnessDeps, Option.map_some',
        parser.extractFromAnchors_eq_firstOccurrences, List.filterMap_cons,
        List.filterMap_nil, c1, c2]
      decide)).2.1

end crawler

/-! ## The budget of the worker pool -/

namespace crawler

open dedup frontier

theorem countP_set_add {α : Type} (p : α → Bool) (l : List α) (i : Nat) (a b : α)
    (h : l.get? i = some b) :
    (l.set i a).countP p + (if p b then 1 else 0) = l.countP p + (if p a then 1 else 0) := by
  induction l generalizing i with
  | nil => simp at h
  | cons x xs ih =>
    cases i with
    | zero =>
      simp only [List.get?_cons_zero, Option.some.injEq] at h
      subst h
      simp only [List.set_cons_zero, List.countP_cons]
      omega
    | succ j =>
      simp only [List.get?_cons_succ] at h
      have := ih j h
      simp only [List.set_cons_succ, List.countP_cons]
      omega

theorem workerStep_budget {F : Type} (cfg : Config) (lib : Bloom F) (choice : Choice)
    (s s' : System F) (loc loc' : Loc) (hmax : 0 < cfg.opts.MaxURLs)
    (h : workerStep cfg lib choice s loc = some (s', loc')) :
    s'.workers = s.workers ∧
    ((s'.results.length : Int) + (if loc'.holdsSlot then 1 else 0) + s.crawled
      ≤ (s.results.length : Int) + (if loc.holdsSlot then 1 else 0) + s'.crawled) ∧
    (s.crawled ≤ cfg.opts.MaxURLs → s'.crawled ≤ cfg.opts.MaxURLs) := by
  rcases loc with _ | _ | _ | _ | _ | _ | _ | _ | _ | ⟨_, _ | _⟩ | _ | _ | _ | _
  all_goals simp only [workerStep, release] at h
  all_goals repeat' split at h
  all_goals first
    | (simp only [reduceCtorEq] at h)
    | (simp only [Option.some.injEq, Prod.mk.injEq] at h
       obtain ⟨rfl, rfl⟩ := h
       simp [Loc.holdsSlot]
       try omega)

theorem mainStep_budget {F : Type} (cfg : Config) (lib : Bloom F) (choice : Choice)
    (s s' : System F) (h : mainStep cfg lib choice s = some s') :
    s'.workers = s.workers ∧ s'.results = s.results ∧ s'.crawled = s.crawled := by
  simp only [mainStep] at h
  repeat' split at h
  all_goals first
    | (simp only [reduceCtorEq] at h)
    | (simp only [Option.some.injEq] at h
       subst h
       simp)

theorem step_budget {F : Type} (cfg : Config) (lib : Bloom F) (s : System F) (a : Action)
    (hmax : 0 < cfg.opts.MaxURLs) (inv : BudgetInv cfg s) : BudgetInv cfg (step cfg lib s a) := by
  cases a with
  | cancel => simp only [step]; split <;> exact ⟨inv.claimed, inv.capped⟩
  | deadline => simp only [step]; split <;> exact ⟨inv.claimed, inv.capped⟩
  | main choice =>
    simp only [step]
    cases hm : mainStep cfg lib choice s with
    | none => exact inv
    | some s' =>
      obtain ⟨hw, hr, hc⟩ := mainStep_budget cfg lib choice s s' hm
      exact ⟨by simpa [hw, hr, hc] using inv.claimed, by simpa [hc] using inv.capped⟩
  | worker i choice =>
    simp only [step]
    split
    · cases hg : s.workers.get? i with
      | none => exact inv
      | some loc =>
        dsimp only
        cases hw : workerStep cfg lib choice s loc with
        | none => exact inv
        | some p =>
          obtain ⟨s', loc'⟩ := p
          dsimp only
          obtain ⟨hws, hdelta, hcap⟩ := workerStep_budget cfg lib choice s s' loc loc' hmax hw
          have hcount := countP_set_add Loc.holdsSlot s.workers i loc' loc hg
          refine ⟨?_, hcap inv.capped⟩
          have hcl := inv.claimed
          simp only [hws]
          have e1 : ((List.countP Loc.holdsSlot (s.workers.set i loc') : Nat) : Int)
              + (if loc.holdsSlot = true then 1 else 0)
              = (List.countP Loc.holdsSlot s.workers : Nat)
                + (if loc'.holdsSlot = true then 1 else 0) := by
            have := congrArg (Nat.cast : Nat → Int) hcount
            push_cast at this
            exact this
          omega
    · exact inv

theorem exec_budget {F : Type} (cfg : Config) (lib : Bloom F) (schedule : List Action)
    (s : System F) (hmax : 0 < cfg.opts.MaxURLs) (inv : BudgetInv cfg s) :
    BudgetInv cfg (exec cfg lib s schedule) := by
  induction schedule generalizing s with
  | nil => exact inv
  | cons a rest ih => exact ih (step cfg lib s a) (step_budget cfg lib s a hmax inv)

theorem init_budget {F : Type} (cfg : Config) (emptyFilter : F) (hmax : 0 < cfg.opts.MaxURLs) :
    BudgetInv cfg (System.init cfg emptyFilter) := by
  refine ⟨?_, ?_⟩
  · simp [System.init, List.countP_replicate, Loc.holdsSlot]
  · simp only [System.init]; omega

/-- C1: the budget cap.  For every `MaxURLs > 0`, every number of workers from 1 up,
every robots policy, every way the site answers, and every schedule of the atomic steps
of the goroutines (load, compare-and-swap, decrement, pop, send and the others), the
number of results sent on the result channel does not exceed `MaxURLs`. -/
theorem results_never_exceed_MaxURLs {F : Type} (cfg : Config) (lib : Bloom F)
    (emptyFilter : F) (schedule : List Action)
    (hmax : 0 < cfg.opts.MaxURLs) (_hworkers : 1 ≤ cfg.opts.Workers) :
    ((runOf cfg lib emptyFilter schedule).results.length : Int) ≤ cfg.opts.MaxURLs := by
  have inv := exec_budget cfg lib schedule (System.init cfg emptyFilter) hmax
    (init_budget cfg emptyFilter hmax)
  have h1 := inv.claimed
  have h2 := inv.capped
  unfold runOf
  omega

/-- Witness for C1: two workers, a budget of one URL, and a schedule in which both
workers load the counter before either claims; one result is sent and both workers
return. -/
theorem results_never_exceed_MaxURLs_witness :
    ((runOf budgetConfig exactFilter [] budgetSchedule).results.length : Int) ≤ 1 ∧
    (runOf budgetConfig exactFilter [] budgetSchedule).results.length = 1 ∧
    (runOf budgetConfig exactFilter [] budgetSchedule).workers = [.exited, .exited] :=
  ⟨results_never_exceed_MaxURLs budgetConfig exactFilter [] budgetSchedule
    (by decide) (by decide), by rfl, by rfl⟩

end crawler

/-! ## At-most-once enqueue -/

namespace crawler

open dedup frontier

theorem seenOrAdd_tested {F : Type} (lib : Bloom F) (hlib : lib.NoFalseNegatives)
    (d : BloomDedup F) (u v : Str) (h : v = u ∨ lib.TestString d.filter v = true) :
    lib.TestString (d.SeenOrAdd lib u).2.filter v = true := by
  unfold BloomDedup.SeenOrAdd
  by_cases ht : lib.TestString d.filter u = true
  · rw [if_pos ht]
    rcases h with rfl | h
    · exact ht
    · exact h
  · rw [if_neg ht]
    exact hlib d.filter u v h

theorem seenOrAdd_answer {F : Type} (lib : Bloom F) (d : BloomDedup F) (u : Str) :
    (d.SeenOrAdd lib u).1 = lib.TestString d.filter u := by
  unfold BloomDedup.SeenOrAdd
  by_cases ht : lib.TestString d.filter u = true
  · rw [if_pos ht, ht]
  · rw [if_neg ht]
    simpa using ht

/-- The ways in which one step of a worker touches the log, the deduplicator and the
channel of the frontier. -/
theorem workerStep_kinds {F : Type} (cfg : Config) (lib : Bloom F) (choice : Choice)
    (s s' : System F) (loc loc' : Loc)
    (h : workerStep cfg lib choice s loc = some (s', loc')) :
    s'.workers = s.workers ∧ s'.phase = s.phase ∧
    ((s'.log = s.log ∧ s'.dedup = s.dedup ∧ s'.frontier.ch = s.frontier.ch ∧
        loc.pending = none ∧ loc'.pending = none ∧
        (loc'.inFlight = loc.inFlight ∨ loc'.inFlight = none)) ∨
      (∃ u, s.frontier.ch = u :: s'.frontier.ch ∧ s'.log = s.log ∧ s'.dedup = s.dedup ∧
        loc.pending = none ∧ loc'.pending = none ∧
        loc.inFlight = none ∧ loc'.inFlight = some u) ∨
      (∃ link, s'.log = .seenOrAdd link (s.dedup.SeenOrAdd lib link).1 :: s.log ∧
        s'.dedup = (s.dedup.SeenOrAdd lib link).2 ∧ s'.frontier.ch = s.frontier.ch ∧
        loc.pending = none ∧
        loc'.pending = (if (s.dedup.SeenOrAdd lib link).1 then none else some link) ∧
        loc.inFlight = none ∧ loc'.inFlight = none) ∨
      (∃ link ok, loc.pending = some link ∧ loc'.pending = none ∧
        s'.log = .pushLink link ok :: s.log ∧ s'.dedup = s.dedup ∧
        s'.frontier.ch = (if ok then s.frontier.ch ++ [link] else s.frontier.ch) ∧
        loc.inFlight = none ∧ loc'.inFlight = none) ∨
      (∃ u, loc.inFlight = some u ∧ loc'.inFlight = none ∧ s'.log = .fetch u :: s.log ∧
        s'.dedup = s.dedup ∧ s'.frontier.ch = s.frontier.ch ∧
        loc.pending = none ∧ loc'.pending = none)) := by
  rcases loc with _ | _ | _ | _ | _ | _ | _ | _ | _ | ⟨_, _ | _⟩ | _ | _ | _ | _
  all_goals simp only [workerStep, release] at h
  all_goals repeat' split at h
  all_goals first
    | (simp only [reduceCtorEq] at h)
    | (simp only [Option.some.injEq, Prod.mk.injEq] at h
       obtain ⟨rfl, rfl⟩ := h
       simp_all [Loc.pending, Loc.inFlight])
  all_goals (refine ⟨_, ⟨rfl, ‹_›⟩, rfl, ?_⟩; simp_all)

theorem mainStep_kinds {F : Type} (cfg : Config) (lib : Bloom F) (choice : Choice)
    (s s' : System F) (h : mainStep cfg lib choice s = some s') :
    s'.workers = s.workers ∧
    ((s.phase = .start ∧ s'.phase = .seeded ∧
        s'.log = .seenOrAdd cfg.baseURL (s.dedup.SeenOrAdd lib cfg.baseURL).1 :: s.log ∧
        s'.dedup = (s.dedup.SeenOrAdd lib cfg.baseURL).2 ∧ s'.frontier.ch = s.frontier.ch) ∨
      (∃ ok, s.phase = .seeded ∧ s'.phase = (if ok then .running else .finished) ∧
        s'.log = .pushSeed cfg.baseURL ok :: s.log ∧ s'.dedup = s.dedup ∧
        s'.frontier.ch = (if ok then s.frontier.ch ++ [cfg.baseURL] else s.frontier.ch)) ∨
      (s.phase = .running ∧ s'.phase = .finished ∧ s'.log = s.log ∧ s'.dedup = s.dedup ∧
        s'.frontier.ch = s.frontier.ch)) := by
  simp only [mainStep] at h
  repeat' split at h
  all_goals first
    | (simp only [reduceCtorEq] at h)
    | (simp only [Option.some.injEq] at h
       subst h
       simp_all)

theorem countOf_cons (u x : Str) (l : List Str) :
    countOf u (x :: l) = countOf u l + if x = u then 1 else 0 := by
  simp [countOf, List.countP_cons]

theorem countOf_append_singleton (u x : Str) (l : List Str) :
    countOf u (l ++ [x]) = countOf u l + if x = u then 1 else 0 := by
  simp [countOf, List.countP_append, List.countP_cons]

theorem countOf_pos_iff (u : Str) (l : List Str) : 0 < countOf u l ↔ u ∈ l := by
  simp [countOf, List.countP_pos_iff]

theorem nodup_of_countOf_le_one (l : List Str) (h : ∀ u, countOf u l ≤ 1) : l.Nodup := by
  induction l with
  | nil => exact List.nodup_nil
  | cons x xs ih =>
    rw [List.nodup_cons]
    constructor
    · intro hx
      have h1 := h x
      rw [countOf_cons, if_pos rfl] at h1
      have h2 := (countOf_pos_iff x xs).2 hx
      omega
    · apply ih
      intro u
      have h1 := h u
      rw [countOf_cons] at h1
      omega

theorem unseenAnswers_cons (u : Str) (e : Event) (log : List Event) :
    unseenAnswers u (e :: log)
      = unseenAnswers u log + if e = .seenOrAdd u false then 1 else 0 := by
  simp [unseenAnswers, List.countP_cons]

theorem unseenAnswers_pos (u : Str) (log : List Event) (h : 0 < unseenAnswers u log) :
    Event.seenOrAdd u false ∈ log := by
  simp only [unseenAnswers, List.countP_pos_iff, decide_eq_true_eq] at h
  obtain ⟨e, he, rfl⟩ := h
  exact he

theorem pendingCount_set (u : Str) (workers : List Loc) (i : Nat) (loc loc' : Loc)
    (h : workers.get? i = some loc) :
    pendingCount u (workers.set i loc') + (if loc.pending = some u then 1 else 0)
      = pendingCount u workers + (if loc'.pending = some u then 1 else 0) := by
  have := countP_set_add (fun w => decide (w.pending = some u)) workers i loc' loc h
  simpa [pendingCount] using this

theorem inFlightCount_set (u : Str) (workers : List Loc) (i : Nat) (loc loc' : Loc)
    (h : workers.get? i = some loc) :
    inFlightCount u (workers.set i loc') + (if loc.inFlight = some u then 1 else 0)
      = inFlightCount u workers + (if loc'.inFlight = some u then 1 else 0) := by
  have := countP_set_add (fun w => decide (w.inFlight = some u)) workers i loc' loc h
  simpa [inFlightCount] using this

/-- A URL that tests negative was neither pushed nor is about to be, and no call of
`SeenOrAdd` has answered false for it. -/
theorem PushInv.fresh {F : Type} {cfg : Config} {lib : Bloom F} {s : System F}
    (inv : PushInv cfg lib s) (link : Str)
    (hneg : lib.TestString s.dedup.filter link = false) :
    countOf link (pushes s.log) = 0 ∧ pendingCount link s.workers = 0 ∧
      unseenAnswers link s.log = 0 ∧ ¬ (s.phase = .seeded ∧ link = cfg.baseURL) := by
  have key : ∀ b, Event.seenOrAdd link b ∉ s.log := fun b hb => by
    have := inv.tested link b hb
    rw [hneg] at this
    exact Bool.false_ne_true this
  have hlogged := inv.logged link
  refine ⟨?_, ?_, ?_, ?_⟩
  · by_contra hc
    obtain ⟨b, hb⟩ := hlogged (Or.inl (Nat.pos_of_ne_zero hc))
    exact key b hb
  · by_contra hc
    obtain ⟨b, hb⟩ := hlogged (Or.inr (Or.inl (Nat.pos_of_ne_zero hc)))
    exact key b hb
  · by_contra hc
    exact key false (unseenAnswers_pos link s.log (Nat.pos_of_ne_zero hc))
  · intro hc
    obtain ⟨b, hb⟩ := hlogged (Or.inr (Or.inr hc))
    exact key b hb

/-- Steps that add at most a `fetch` event and keep the deduplicator and the pending
pushes. -/
theorem PushInv.frame {F : Type} {cfg : Config} {lib : Bloom F} {s t : System F}
    (inv : PushInv cfg lib s)
    (hlog : t.log = s.log ∨ ∃ u0, t.log = .fetch u0 :: s.log)
    (hd : t.dedup = s.dedup)
    (hph : t.phase = s.phase ∨ (t.phase = .finished ∧ s.phase = .running))
    (hP : ∀ u, pendingCount u t.workers = pendingCount u s.workers)
    (hI : ∀ u, (t.phase = .start ∨ t.phase = .seeded) →
      inFlightCount u t.workers = inFlightCount u s.workers) :
    PushInv cfg lib t := by
  have hpushes : pushes t.log = pushes s.log := by
    rcases hlog with h | ⟨u0, h⟩ <;> rw [h]
    rfl
  have hmem : ∀ u b, Event.seenOrAdd u b ∈ t.log ↔ Event.seenOrAdd u b ∈ s.log := by
    intro u b
    rcases hlog with h | ⟨u0, h⟩ <;> rw [h]
    simp
  have hunseen : ∀ u, unseenAnswers u t.log = unseenAnswers u s.log := by
    intro u
    rcases hlog with h | ⟨u0, h⟩ <;> rw [h]
    rw [unseenAnswers_cons]
    simp
  have hseeded : t.phase = .seeded → s.phase = .seeded := by
    rcases hph with h | ⟨h, _⟩ <;> rw [h] <;> simp
  have hstart : t.phase = .start → s.phase = .start := by
    rcases hph with h | ⟨h, _⟩ <;> rw [h] <;> simp
  refine ⟨?_, ?_, ?_, ?_, ?_, ?_⟩
  · intro u b hb
    rw [hd]
    exact inv.tested u b ((hmem u b).1 hb)
  · intro u hu
    rw [hpushes, hP] at hu
    obtain ⟨b, hb⟩ := inv.logged u (by
      rcases hu with h | h | ⟨h1, h2⟩
      · exact Or.inl h
      · exact Or.inr (Or.inl h)
      · exact Or.inr (Or.inr ⟨hseeded h1, h2⟩))
    exact ⟨b, (hmem u b).2 hb⟩
  · intro hp
    have hp' : s.phase = .start ∨ s.phase = .seeded := by
      rcases hp with h | h
      · exact Or.inl (hstart h)
      · exact Or.inr (hseeded h)
    obtain ⟨h1, h2⟩ := inv.early hp'
    refine ⟨by rw [hpushes, h1], fun u => ?_⟩
    rw [hP, hI u hp]
    exact h2 u
  · intro u
    have := inv.once u
    rw [hpushes, hP]
    by_cases hc : t.phase = .seeded ∧ u = cfg.baseURL
    · rw [if_pos hc]
      rw [if_pos ⟨hseeded hc.1, hc.2⟩] at this
      exact this
    · rw [if_neg hc]
      omega
  · intro u hu
    rw [hP] at hu
    rw [hunseen]
    exact inv.answered u hu
  · intro newer older url ok hdec
    rcases hlog with h | ⟨u0, h⟩
    · rw [h] at hdec
      exact inv.preceded newer older url ok hdec
    · rw [h] at hdec
      cases newer with
      | nil => simp at hdec
      | cons e newer' =>
        simp only [List.cons_append, List.cons.injEq] at hdec
        exact inv.preceded newer' older url ok hdec.2

/-- A call of `SeenOrAdd` by a worker or by `run`.  `extra u` tells whether the call
makes `u` a pending push: for a worker when the answer is false, for `run` always. -/
theorem PushInv.seen {F : Type} {cfg : Config} {lib : Bloom F} {s t : System F}
    (hlib : lib.NoFalseNegatives) (inv : PushInv cfg lib s) (link : Str)
    (hlog : t.log = .seenOrAdd link (s.dedup.SeenOrAdd lib link).1 :: s.log)
    (hd : t.dedup = (s.dedup.SeenOrAdd lib link).2)
    (hI : ∀ u, inFlightCount u t.workers = inFlightCount u s.workers)
    (hcase :
      (s.phase = .running ∧ t.phase = .running ∧
        ∀ u, pendingCount u t.workers = pendingCount u s.workers
          + if (s.dedup.SeenOrAdd lib link).1 = false ∧ link = u then 1 else 0) ∨
      (s.phase = .start ∧ t.phase = .seeded ∧ link = cfg.baseURL ∧
        ∀ u, pendingCount u t.workers = pendingCount u s.workers)) :
    PushInv cfg lib t := by
  have hans := seenOrAdd_answer lib s.dedup link
  have hpushes : pushes t.log = pushes s.log := by rw [hlog]; rfl
  have hunseen : ∀ u, unseenAnswers u t.log = unseenAnswers u s.log
      + if (s.dedup.SeenOrAdd lib link).1 = false ∧ link = u then 1 else 0 := by
    intro u
    rw [hlog, unseenAnswers_cons]
    congr 1
    by_cases hc : (s.dedup.SeenOrAdd lib link).1 = false ∧ link = u
    · rw [if_pos hc, if_pos]
      rw [hc.1, hc.2]
    · rw [if_neg hc, if_neg]
      intro he
      injection he with h1 h2
      exact hc ⟨h2, h1⟩
  have htested : ∀ u b, Event.seenOrAdd u b ∈ t.log →
      lib.TestString t.dedup.filter u = true := by
    intro u b hb
    rw [hd]
    rw [hlog, List.mem_cons] at hb
    rcases hb with hb | hb
    · injection hb with h1 _
      exact seenOrAdd_tested lib hlib s.dedup link u (Or.inl h1)
    · exact seenOrAdd_tested lib hlib s.dedup link u (Or.inr (inv.tested u b hb))
  have hold : ∀ u b, Event.seenOrAdd u b ∈ s.log → Event.seenOrAdd u b ∈ t.log := by
    intro u b hb
    rw [hlog]
    exact List.mem_cons_of_mem _ hb
  have hnew : Event.seenOrAdd link (s.dedup.SeenOrAdd lib link).1 ∈ t.log := by
    rw [hlog]
    exact List.mem_cons_self _ _
  have hpre : ∀ newer older url ok, t.log = newer ++ Event.pushLink url ok :: older →
      unseenAnswers url older = 1 := by
    intro newer older url ok hdec
    rw [hlog] at hdec
    cases newer with
    | nil => simp at hdec
    | cons e newer' =>
      simp only [List.cons_append, List.cons.injEq] at hdec
      exact inv.preceded newer' older url ok hdec.2
  rcases hcase with ⟨hs, ht, hP⟩ | ⟨hs, ht, hbase, hP⟩
  · refine ⟨htested, ?_, ?_, ?_, ?_, hpre⟩
    · intro u hu
      rw [hpushes, hP, ht] at hu
      by_cases hc : (s.dedup.SeenOrAdd lib link).1 = false ∧ link = u
      · exact ⟨_, hc.2 ▸ hnew⟩
      · rw [if_neg hc, Nat.add_zero] at hu
        obtain ⟨b, hb⟩ := inv.logged u (by
          rcases hu with h | h | ⟨h1, _⟩
          · exact Or.inl h
          · exact Or.inr (Or.inl h)
          · simp at h1)
        exact ⟨b, hold u b hb⟩
    · intro hp
      rw [ht] at hp
      simp at hp
    · intro u
      have := inv.once u
      rw [hpushes, hP, ht]
      rw [hs] at this
      simp only [reduceCtorEq, false_and, if_false, Nat.add_zero] at this ⊢
      by_cases hc : (s.dedup.SeenOrAdd lib link).1 = false ∧ link = u
      · rw [if_pos hc]
        obtain ⟨h1, h2, _, _⟩ := inv.fresh link (by rw [← hans]; exact hc.1)
        rw [← hc.2, h1, h2]
      · rw [if_neg hc]
        omega
    · intro u hu
      rw [hP] at hu
      rw [hunseen]
      by_cases hc : (s.dedup.SeenOrAdd lib link).1 = false ∧ link = u
      · rw [if_pos hc]
        obtain ⟨_, _, h3, _⟩ := inv.fresh link (by rw [← hans]; exact hc.1)
        rw [← hc.2, h3]
      · rw [if_neg hc] at hu ⊢
        exact inv.answered u hu
  · obtain ⟨hearly, hzero⟩ := inv.early (Or.inl hs)
    refine ⟨htested, ?_, ?_, ?_, ?_, hpre⟩
    · intro u hu
      rw [hpushes, hP, hearly, (hzero u).1] at hu
      rcases hu with h | h | ⟨_, h2⟩
      · simp [countOf] at h
      · simp at h
      · exact ⟨_, h2 ▸ hbase ▸ hnew⟩
    · intro _
      refine ⟨by rw [hpushes, hearly], fun u => ?_⟩
      rw [hP, hI]
      exact hzero u
    · intro u
      rw [hpushes, hP, hearly, (hzero u).1]
      simp only [countOf, List.countP_nil, Nat.zero_add]
      split <;> omega
    · intro u hu
      rw [hP, (hzero u).1] at hu
      simp at hu

/-- A call of `Push` by a worker or by `run`. -/
theorem PushInv.push {F : Type} {cfg : Config} {lib : Bloom F} {s t : System F}
    (inv : PushInv cfg lib s) (link : Str) (ok : Bool)
    (hd : t.dedup = s.dedup)
    (hcase :
      (s.phase = .running ∧ t.phase = .running ∧ t.log = .pushLink link ok :: s.log ∧
        ∀ u, pendingCount u t.workers + (if link = u then 1 else 0)
          = pendingCount u s.workers) ∨
      (s.phase = .seeded ∧ t.phase ≠ .start ∧ t.phase ≠ .seeded ∧ link = cfg.baseURL ∧
        t.log = .pushSeed link ok :: s.log ∧
        ∀ u, pendingCount u t.workers = pendingCount u s.workers)) :
    PushInv cfg lib t := by
  have hpushes : pushes t.log = link :: pushes s.log := by
    rcases hcase with ⟨_, _, h, _⟩ | ⟨_, _, _, _, h, _⟩ <;> rw [h] <;> rfl
  have hmem : ∀ u b, Event.seenOrAdd u b ∈ t.log ↔ Event.seenOrAdd u b ∈ s.log := by
    intro u b
    rcases hcase with ⟨_, _, h, _⟩ | ⟨_, _, _, _, h, _⟩ <;> rw [h] <;> simp
  have hunseen : ∀ u, unseenAnswers u t.log = unseenAnswers u s.log := by
    intro u
    rcases hcase with ⟨_, _, h, _⟩ | ⟨_, _, _, _, h, _⟩ <;> rw [h, unseenAnswers_cons] <;> simp
  have htested : ∀ u b, Event.seenOrAdd u b ∈ t.log →
      lib.TestString t.dedup.filter u = true := by
    intro u b hb
    rw [hd]
    exact inv.tested u b ((hmem u b).1 hb)
  rcases hcase with ⟨hs, ht, hlog, hP⟩ | ⟨hs, ht1, ht2, hbase, hlog, hP⟩
  · refine ⟨htested, ?_, ?_, ?_, ?_, ?_⟩
    · intro u hu
      rw [hpushes, countOf_cons, ht] at hu
      have hPu := hP u
      obtain ⟨b, hb⟩ := inv.logged u (by
        by_cases hc : link = u
        · rw [if_pos hc] at hPu
          exact Or.inr (Or.inl (by omega))
        · rw [if_neg hc] at hu hPu
          rcases hu with h | h | ⟨h1, _⟩
          · exact Or.inl (by omega)
          · exact Or.inr (Or.inl (by omega))
          · simp at h1)
      exact ⟨b, (hmem u b).2 hb⟩
    · intro hp
      rw [ht] at hp
      simp at hp
    · intro u
      have := inv.once u
      have hPu := hP u
      rw [hpushes, countOf_cons, ht]
      rw [hs] at this
      simp only [reduceCtorEq, false_and, if_false, Nat.add_zero] at this ⊢
      omega
    · intro u hu
      have hPu := hP u
      rw [hunseen]
      exact inv.answered u (by omega)
    · intro newer older url ok' hdec
      rw [hlog] at hdec
      cases newer with
      | nil =>
        simp only [List.nil_append, List.cons.injEq, Event.pushLink.injEq] at hdec
        obtain ⟨⟨h1, _⟩, h2⟩ := hdec
        have hPu := hP url
        rw [if_pos h1] at hPu
        rw [← h2]
        exact inv.answered url (by omega)
      | cons e newer' =>
        simp only [List.cons_append, List.cons.injEq] at hdec
        exact inv.preceded newer' older url ok' hdec.2
  · refine ⟨htested, ?_, ?_, ?_, ?_, ?_⟩
    · intro u hu
      rw [hpushes, countOf_cons, hP] at hu
      obtain ⟨b, hb⟩ := inv.logged u (by
        by_cases hc : link = u
        · exact Or.inr (Or.inr ⟨hs, by rw [← hc, hbase]⟩)
        · rw [if_neg hc] at hu
          rcases hu with h | h | ⟨h1, _⟩
          · exact Or.inl (by omega)
          · exact Or.inr (Or.inl h)
          · exact absurd h1 ht2)
      exact ⟨b, (hmem u b).2 hb⟩
    · intro hp
      rcases hp with h | h
      · exact absurd h ht1
      · exact absurd h ht2
    · intro u
      have := inv.once u
      rw [hpushes, countOf_cons, hP]
      rw [hs, ← hbase] at this
      simp only [true_and] at this
      rw [if_neg (show ¬ (t.phase = .seeded ∧ u = cfg.baseURL) from fun h => ht2 h.1)]
      by_cases hc : link = u
      · rw [if_pos hc]
        rw [if_pos hc.symm] at this
        omega
      · rw [if_neg hc]
        rw [if_neg (fun h => hc h.symm)] at this
        omega
    · intro u hu
      rw [hP] at hu
      rw [hunseen]
      exact inv.answered u hu
    · intro newer older url ok' hdec
      rw [hlog] at hdec
      cases newer with
      | nil => simp at hdec
      | cons e newer' =>
        simp only [List.cons_append, List.cons.injEq] at hdec
        exact inv.preceded newer' older url ok' hdec.2

theorem step_push {F : Type} (cfg : Config) (lib : Bloom F) (hlib : lib.NoFalseNegatives)
    (s : System F) (a : Action) (inv : PushInv cfg lib s) :
    PushInv cfg lib (step cfg lib s a) := by
  cases a with
  | cancel =>
    simp only [step]
    split
    · exact inv.frame (Or.inl rfl) rfl (Or.inl rfl) (fun _ => rfl) (fun _ _ => rfl)
    · exact inv
  | deadline =>
    simp only [step]
    split
    · exact inv.frame (Or.inl rfl) rfl (Or.inl rfl) (fun _ => rfl) (fun _ _ => rfl)
    · exact inv
  | main choice =>
    simp only [step]
    cases hm : mainStep cfg lib choice s with
    | none => exact inv
    | some s' =>
      obtain ⟨hw, hk⟩ := mainStep_kinds cfg lib choice s s' hm
      simp only [Option.getD_some]
      rcases hk with ⟨hs, ht, hlog, hd, hch⟩ | ⟨ok, hs, ht, hlog, hd, hch⟩ |
        ⟨hs, ht, hlog, hd, hch⟩
      · exact inv.seen hlib cfg.baseURL hlog hd (fun u => by rw [hw])
          (Or.inr ⟨hs, ht, rfl, fun u => by rw [hw]⟩)
      · refine inv.push cfg.baseURL ok hd
          (Or.inr ⟨hs, ?_, ?_, rfl, hlog, fun u => by rw [hw]⟩)
        · rw [ht]; cases ok <;> simp
        · rw [ht]; cases ok <;> simp
      · exact inv.frame (Or.inl hlog) hd (Or.inr ⟨ht, hs⟩) (fun u => by rw [hw])
          (fun u _ => by rw [hw])
  | worker i choice =>
    simp only [step]
    split
    · rename_i hrun
      cases hg : s.workers.get? i with
      | none => exact inv
      | some loc =>
        dsimp only
        cases hstep : workerStep cfg lib choice s loc with
        | none => exact inv
        | some p =>
          obtain ⟨s', loc'⟩ := p
          dsimp only
          obtain ⟨hw, hph, hk⟩ := workerStep_kinds cfg lib choice s s' loc loc' hstep
          have hP := fun u => pendingCount_set u s.workers i loc loc' hg
          have hI := fun u => inFlightCount_set u s.workers i loc loc' hg
          have hrun2 : s'.phase = .running := by rw [hph, hrun]
          rcases hk with ⟨hlog, hd, hch, hp1, hp2, hfl⟩ |
            ⟨u0, hch, hlog, hd, hp1, hp2, hf1, hf2⟩ |
            ⟨link, hlog, hd, hch, hp1, hp2, hf1, hf2⟩ |
            ⟨link, ok, hp1, hp2, hlog, hd, hch, hf1, hf2⟩ |
            ⟨u0, hf1, hf2, hlog, hd, hch, hp1, hp2⟩
          · refine inv.frame (Or.inl hlog) hd (Or.inl hph) (fun u => ?_) (fun u hp => ?_)
            · have := hP u
              simp only [hw, hp1, hp2, reduceCtorEq, if_false] at this ⊢
              omega
            · simp only [hrun2, reduceCtorEq, or_self] at hp
          · refine inv.frame (Or.inl hlog) hd (Or.inl hph) (fun u => ?_) (fun u hp => ?_)
            · have := hP u
              simp only [hw, hp1, hp2, reduceCtorEq, if_false] at this ⊢
              omega
            · simp only [hrun2, reduceCtorEq, or_self] at hp
          · refine inv.seen hlib link hlog hd (fun u => ?_)
              (Or.inl ⟨hrun, hrun2, fun u => ?_⟩)
            · have := hI u
              simp only [hw, hf1, hf2, reduceCtorEq, if_false] at this ⊢
              omega
            · have := hP u
              simp only [hw, hp1, hp2, reduceCtorEq, if_false, Nat.add_zero] at this ⊢
              rw [this]
              congr 1
              cases (s.dedup.SeenOrAdd lib link).1 <;> simp
          · refine inv.push link ok hd (Or.inl ⟨hrun, hrun2, hlog, fun u => ?_⟩)
            have := hP u
            simp only [hw, hp1, hp2, reduceCtorEq, if_false, Option.some.injEq] at this ⊢
            omega
          · refine inv.frame (Or.inr ⟨u0, hlog⟩) hd (Or.inl hph) (fun u => ?_)
              (fun u hp => ?_)
            · have := hP u
              simp only [hw, hp1, hp2, reduceCtorEq, if_false] at this ⊢
              omega
            · simp only [hrun2, reduceCtorEq, or_self] at hp
    · exact inv

theorem exec_push {F : Type} (cfg : Config) (lib : Bloom F) (hlib : lib.NoFalseNegatives)
    (schedule : List Action) (s : System F) (inv : PushInv cfg lib s) :
    PushInv cfg lib (exec cfg lib s schedule) := by
  induction schedule generalizing s with
  | nil => exact inv
  | cons a rest ih => exact ih (step cfg lib s a) (step_push cfg lib hlib s a inv)

theorem init_push {F : Type} (cfg : Config) (lib : Bloom F) (emptyFilter : F) :
    PushInv cfg lib (System.init cfg emptyFilter) := by
  have hP : ∀ u, pendingCount u (List.replicate cfg.opts.Workers.toNat Loc.top) = 0 := by
    intro u
    simp [pendingCount, List.countP_replicate, Loc.pending]
  have hI : ∀ u, inFlightCount u (List.replicate cfg.opts.Workers.toNat Loc.top) = 0 := by
    intro u
    simp [inFlightCount, List.countP_replicate, Loc.inFlight]
  refine ⟨?_, ?_, ?_, ?_, ?_, ?_⟩
  · intro u b hb
    simp [System.init] at hb
  · intro u hu
    simp only [System.init, pushes, hP, reduceCtorEq, false_and, or_false] at hu
    simp [countOf] at hu
  · intro _
    exact ⟨rfl, fun u => ⟨hP u, hI u⟩⟩
  · intro u
    simp only [System.init, pushes, hP, reduceCtorEq, false_and, if_false]
    simp [countOf]
  · intro u hu
    simp only [System.init, hP] at hu
    omega
  · intro newer older url ok hdec
    simp [System.init] at hdec

theorem step_queued {F : Type} (cfg : Config) (lib : Bloom F) (s : System F) (a : Action)
    (inv : QueuedInv s) : QueuedInv (step cfg lib s a) := by
  cases a with
  | cancel =>
    simp only [step]
    split
    · exact inv
    · exact inv
  | deadline =>
    simp only [step]
    split
    · exact inv
    · exact inv
  | main choice =>
    simp only [step]
    cases hm : mainStep cfg lib choice s with
    | none => exact inv
    | some s' =>
      obtain ⟨hw, hk⟩ := mainStep_kinds cfg lib choice s s' hm
      simp only [Option.getD_some]
      intro u
      have := inv u
      rcases hk with ⟨hs, ht, hlog, hd, hch⟩ | ⟨ok, hs, ht, hlog, hd, hch⟩ |
        ⟨hs, ht, hlog, hd, hch⟩
      · simp only [hlog, hw, hch, fetches, pushes]
        exact this
      · simp only [hlog, hw, hch, fetches, pushes, countOf_cons]
        cases ok
        · simp only [Bool.false_eq_true, if_false]
          omega
        · simp only [if_true, countOf_append_singleton]
          omega
      · simp only [hlog, hw, hch]
        exact this
  | worker i choice =>
    simp only [step]
    split
    · rename_i hrun
      cases hg : s.workers.get? i with
      | none => exact inv
      | some loc =>
        dsimp only
        cases hstep : workerStep cfg lib choice s loc with
        | none => exact inv
        | some p =>
          obtain ⟨s', loc'⟩ := p
          dsimp only
          obtain ⟨hw, hph, hk⟩ := workerStep_kinds cfg lib choice s s' loc loc' hstep
          intro u
          have hq := inv u
          have hI := inFlightCount_set u s.workers i loc loc' hg
          rcases hk with ⟨hlog, hd, hch, hp1, hp2, hfl⟩ |
            ⟨u0, hch, hlog, hd, hp1, hp2, hf1, hf2⟩ |
            ⟨link, hlog, hd, hch, hp1, hp2, hf1, hf2⟩ |
            ⟨link, ok, hp1, hp2, hlog, hd, hch, hf1, hf2⟩ |
            ⟨u0, hf1, hf2, hlog, hd, hch, hp1, hp2⟩
          · simp only [hw, hlog, hch]
            rcases hfl with h | h
            · rw [h] at hI
              omega
            · rw [h] at hI
              simp only [reduceCtorEq, if_false] at hI
              omega
          · rw [hch] at hq
            simp only [hw, hlog, hf1, hf2, reduceCtorEq, if_false, Option.some.injEq,
              countOf_cons] at hI hq ⊢
            omega
          · simp only [hw, hlog, hch, hf1, hf2, reduceCtorEq, if_false, fetches, pushes] at hI ⊢
            omega
          · simp only [hw, hlog, hch, hf1, hf2, reduceCtorEq, if_false, fetches, pushes,
              countOf_cons] at hI ⊢
            cases ok
            · simp only [Bool.false_eq_true, if_false]
              omega
            · simp only [if_true, countOf_append_singleton]
              omega
          · simp only [hw, hlog, hch, hf1, hf2, reduceCtorEq, if_false, Option.some.injEq,
              fetches, pushes, countOf_cons] at hI ⊢
            omega
    · exact inv

theorem exec_queued {F : Type} (cfg : Config) (lib : Bloom F) (schedule : List Action)
    (s : System F) (inv : QueuedInv s) : QueuedInv (exec cfg lib s schedule) := by
  induction schedule generalizing s with
  | nil => exact inv
  | cons a rest ih => exact ih (step cfg lib s a) (step_queued cfg lib s a inv)

theorem init_queued {F : Type} (cfg : Config) (emptyFilter : F) :
    QueuedInv (System.init cfg emptyFilter : System F) := by
  intro u
  have hI : inFlightCount u (List.replicate cfg.opts.Workers.toNat Loc.top) = 0 := by
    simp [inFlightCount, List.countP_replicate, Loc.inFlight]
  simp only [System.init, hI, fetches, pushes, NewMemoryFrontier]
  simp [countOf]

theorem exactFilter_noFalseNegatives : exactFilter.NoFalseNegatives := by
  intro f u v h
  simp only [exactFilter, decide_eq_true_eq, List.mem_cons] at h ⊢
  exact h

/-- The log of the run of `linkSchedule` when the page has a new same-host link `l1`
followed by the seed itself: the seed is pushed once, the new link is pushed once after
the answer false, and the seed found again on the page is not pushed. -/
theorem log_of_linkSchedule {F : Type} (cfg : Config) (lib : Bloom F) (f0 : F) (l1 : Str)
    (page : FetchResult) (r0 : Result)
    (hW : cfg.opts.Workers = 1) (hM : cfg.opts.MaxURLs = 0)
    (hcap : cfg.opts.FrontierCapacity = 100000)
    (hallow : cfg.allowed cfg.baseURL = true) (hne : cfg.baseURL ≠ [])
    (hstart : crawlStart cfg cfg.baseURL page = (r0, [l1, cfg.baseURL]))
    (hs1 : domain.IsSameDomain cfg.SimpleFold cfg.baseURL l1 = true)
    (hs2 : domain.IsSameDomain cfg.SimpleFold cfg.baseURL cfg.baseURL = true)
    (ht0 : lib.TestString f0 cfg.baseURL = false)
    (ht1 : lib.TestString (lib.AddString f0 cfg.baseURL) l1 = false)
    (ht2 : lib.TestString (lib.AddString (lib.AddString f0 cfg.baseURL) l1) cfg.baseURL
      = true) :
    (runOf cfg lib f0 (linkSchedule page)).log
      = [.seenOrAdd cfg.baseURL true, .pushLink l1 true, .seenOrAdd l1 false,
          .fetch cfg.baseURL, .pushSeed cfg.baseURL true, .seenOrAdd cfg.baseURL false] := by
  simp [runOf, exec, linkSchedule, step, mainStep, workerStep, System.init, NewMemoryFrontier,
    BloomDedup.SeenOrAdd, hW, hM, hcap, hallow, hne, hstart, hs1, hs2, ht0, ht1, ht2]

theorem candidate_of_parts (baseURL rawHref href absoluteURL : Str)
    (ht : strings.TrimSpace rawHref = href) (hk : parser.skipped rawHref = false)
    (hr : domain.ResolveURL baseURL href = some absoluteURL)
    (hv : domain.IsValidHTTP absoluteURL = true) :
    parser.candidate baseURL rawHref = some absoluteURL := by
  simp only [parser.candidate, ht, hk, hr, Option.filter, hv, if_true, if_false,
    Bool.false_eq_true]

theorem crawlStart_linkConfig :
    crawlStart linkConfig "http://h/".toList htmlPage
      = ({ URL := "http://h/".toList, Links := ["http://h/a".toList, "http://h/".toList] },
          ["http://h/a".toList, "http://h/".toList]) := by
  have cA : parser.candidate "http://h/".toList "/a".toList = some "http://h/a".toList :=
    candidate_of_parts _ _ "/a".toList _ (by rfl) (by rfl) (by rfl) (by rfl)
  have cB : parser.candidate "http://h/".toList "/".toList = some "http://h/".toList :=
    candidate_of_parts _ _ "/".toList _ (by rfl) (by rfl) (by rfl) (by rfl)
  have hc : strings.Contains (strings.ToLower "text/html".toList) "text/html".toList
      = true := by rfl
  have hl : parser.ExtractLinks linkConfig.document "http://h/".toList []
      = some ["http://h/a".toList, "http://h/".toList] := by
    simp only [parser.ExtractLinks, linkConfig, Option.map_some',
      parser.extractFromAnchors_eq_firstOccurrences, List.filterMap_cons,
      List.filterMap_nil, cA, cB]
    decide
  simp only [crawlStart, htmlPage, hc, hl]
  decide

end crawler

/-! ## The scheme of a URL survives normalization and a second parse -/

namespace url

open encoding

theorem getSchemeLoop_sound (rawURL : Str) (s : Str) :
    ∀ (acc scheme rest : Str), getSchemeLoop rawURL acc s = some (scheme, rest) →
      scheme ≠ [] →
      ∃ k, s = k ++ ':' :: rest ∧ scheme = acc.reverse ++ k ∧ (∀ c ∈ k, schemeChar c) ∧
        (acc = [] → ∃ c k', k = c :: k' ∧ letter c) := by
  induction s with
  | nil =>
    intro acc scheme rest h hne
    simp only [getSchemeLoop, Option.some.injEq, Prod.mk.injEq] at h
    exact absurd h.1.symm hne
  | cons c s ih =>
    intro acc scheme rest h hne
    rw [getSchemeLoop] at h
    by_cases hl : ('a' ≤ c ∧ c ≤ 'z') ∨ ('A' ≤ c ∧ c ≤ 'Z')
    · rw [if_pos hl] at h
      obtain ⟨k, hs, hsch, hk, _⟩ := ih (c :: acc) scheme rest h hne
      refine ⟨c :: k, by rw [hs]; rfl, by rw [hsch]; simp, ?_, fun _ => ⟨c, k, rfl, hl⟩⟩
      intro d hd
      rcases List.mem_cons.1 hd with rfl | hd
      · exact Or.inl hl
      · exact hk d hd
    · rw [if_neg hl] at h
      by_cases hd : ('0' ≤ c ∧ c ≤ '9') ∨ c = '+' ∨ c = '-' ∨ c = '.'
      · rw [if_pos hd] at h
        by_cases he : acc.isEmpty = true
        · rw [if_pos he] at h
          simp only [Option.some.injEq, Prod.mk.injEq] at h
          exact absurd h.1.symm hne
        · rw [if_neg he] at h
          obtain ⟨k, hs, hsch, hk, _⟩ := ih (c :: acc) scheme rest h hne
          refine ⟨c :: k, by rw [hs]; rfl, by rw [hsch]; simp, ?_, fun ha => ?_⟩
          · intro d hd'
            rcases List.mem_cons.1 hd' with rfl | hd'
            · exact Or.inr hd
            · exact hk d hd'
          · rw [ha] at he
            simp at he
      · rw [if_neg hd] at h
        by_cases hc : c = ':'
        · rw [if_pos hc] at h
          by_cases he : acc.isEmpty = true
          · rw [if_pos he] at h
            simp at h
          · rw [if_neg he] at h
            simp only [Option.some.injEq, Prod.mk.injEq] at h
            refine ⟨[], by rw [hc, h.2]; rfl, by rw [← h.1]; simp, by simp, fun ha => ?_⟩
            rw [ha] at he
            simp at he
        · rw [if_neg hc] at h
          simp only [Option.some.injEq, Prod.mk.injEq] at h
          exact absurd h.1.symm hne

theorem schemeChar_ne_colon (c : Char) (h : schemeChar c) : c ≠ ':' := by
  rintro rfl
  revert h
  unfold schemeChar
  decide

theorem getSchemeLoop_complete (rawURL : Str) (k : Str) :
    ∀ (acc tail : Str), (∀ c ∈ k, schemeChar c) →
      (acc ≠ [] ∨ ∃ c k', k = c :: k' ∧ letter c) →
      getSchemeLoop rawURL acc (k ++ ':' :: tail) = some (acc.reverse ++ k, tail) := by
  induction k with
  | nil =>
    intro acc tail _ hacc
    have hne : acc ≠ [] := by
      rcases hacc with h | ⟨c, k', h, _⟩
      · exact h
      · simp at h
    have he : ¬ acc.isEmpty = true := by simpa using hne
    rw [List.nil_append, getSchemeLoop]
    have h1 : ¬ (('a' ≤ ':' ∧ ':' ≤ 'z') ∨ ('A' ≤ ':' ∧ ':' ≤ 'Z')) := by decide
    have h2 : ¬ (('0' ≤ ':' ∧ ':' ≤ '9') ∨ ':' = '+' ∨ ':' = '-' ∨ ':' = '.') := by decide
    rw [if_neg h1, if_neg h2, if_pos rfl, if_neg he]
    simp
  | cons c k ih =>
    intro acc tail hk hacc
    rw [List.cons_append, getSchemeLoop]
    have hc := hk c (List.mem_cons_self _ _)
    have hk' : ∀ d ∈ k, schemeChar d := fun d hd => hk d (List.mem_cons_of_mem _ hd)
    have hrec := ih (c :: acc) tail hk' (Or.inl (List.cons_ne_nil _ _))
    by_cases hl : ('a' ≤ c ∧ c ≤ 'z') ∨ ('A' ≤ c ∧ c ≤ 'Z')
    · rw [if_pos hl, hrec]
      simp
    · rw [if_neg hl]
      have hd : ('0' ≤ c ∧ c ≤ '9') ∨ c = '+' ∨ c = '-' ∨ c = '.' := by
        rcases hc with h | h
        · exact absurd h hl
        · exact h
      rw [if_pos hd]
      have he : ¬ acc.isEmpty = true := by
        rcases hacc with h | ⟨c', k', h, hlet⟩
        · simpa using h
        · simp only [List.cons.injEq] at h
          rw [← h.1] at hlet
          exact absurd hlet hl
      rw [if_neg he, hrec]
      simp

end url

namespace url

open encoding

theorem setPath_frame (v u : URL) (p : Str) (h : v.setPath p = some u) :
    u.Scheme = v.Scheme ∧ u.Opaque = v.Opaque ∧ u.Host = v.Host ∧ u.User = v.User ∧
      u.OmitHost = v.OmitHost ∧ u.Fragment = v.Fragment := by
  unfold URL.setPath at h
  cases hu : unescape p encodePath with
  | none => rw [hu] at h; simp at h
  | some path =>
    rw [hu] at h
    simp only [Option.map_some', Option.some.injEq] at h
    subst h
    simp

theorem setFragment_frame (v u : URL) (f : Str) (h : v.setFragment f = some u) :
    u.Scheme = v.Scheme ∧ u.Opaque = v.Opaque ∧ u.Host = v.Host ∧ u.User = v.User ∧
      u.OmitHost = v.OmitHost ∧ u.Path = v.Path ∧ u.RawPath = v.RawPath := by
  unfold URL.setFragment at h
  cases hu : unescape f encodeFragment with
  | none => rw [hu] at h; simp at h
  | some frag =>
    rw [hu] at h
    simp only [Option.map_some', Option.some.injEq] at h
    subst h
    simp

/-- What `parse` decides about the scheme and the opaque part. -/
theorem parseNoFragment_scheme (rawURL : Str) (u : URL)
    (h : parseNoFragment rawURL = some u) :
    (rawURL = ['*'] ∧ u.Scheme = []) ∨
      ∃ scheme rest, getScheme rawURL = some (scheme, rest) ∧
        u.Scheme = strings.ToLower scheme := by
  simp only [parseNoFragment] at h
  repeat' split at h
  all_goals first
    | (simp only [reduceCtorEq] at h)
    | (simp only [Option.some.injEq] at h
       subst h
       first
         | (left; exact ⟨‹_›, rfl⟩)
         | (right; exact ⟨_, _, ‹_›, rfl⟩))
    | (right
       exact ⟨_, _, ‹_›, (setPath_frame _ _ _ h).1⟩)

theorem parseNoFragment_opaque (rawURL : Str) (u : URL)
    (h : parseNoFragment rawURL = some u) (hs : u.Scheme = []) : u.Opaque = [] := by
  simp only [parseNoFragment] at h
  repeat' split at h
  all_goals first
    | (simp only [reduceCtorEq] at h)
    | (simp only [Option.some.injEq] at h
       subst h
       first
         | rfl
         | (rename_i hc; exact absurd hs hc.2))
    | exact (setPath_frame _ _ _ h).2.1

end url

namespace strings

theorem index_singleton_cons (c d : Char) (s : Str) :
    Index (c :: s) [d] = if c = d then some 0 else (Index s [d]).map (· + 1) := by
  rw [Index]
  by_cases h : c = d
  · simp [HasPrefix, h]
  · simp [HasPrefix, h]

theorem index_singleton_nil (d : Char) : Index [] [d] = none := by
  simp [Index]

theorem cut_singleton_nil (d : Char) : (Cut [] [d]).1 = [] := by
  simp [Cut, index_singleton_nil]

theorem cut_singleton_cons (c d : Char) (s : Str) :
    (Cut (c :: s) [d]).1 = if c = d then [] else c :: (Cut s [d]).1 := by
  unfold Cut
  rw [index_singleton_cons]
  by_cases h : c = d
  · simp [h]
  · simp only [h, if_false]
    cases Index s [d] <;> simp

theorem cut_singleton_append (k s : Str) (d : Char) (hk : ∀ c ∈ k, c ≠ d) :
    (Cut (k ++ s) [d]).1 = k ++ (Cut s [d]).1 := by
  induction k with
  | nil => rfl
  | cons c k ih =>
    rw [List.cons_append, cut_singleton_cons, if_neg (hk c (List.mem_cons_self _ _)),
      ih (fun x hx => hk x (List.mem_cons_of_mem _ hx))]
    rfl

theorem cut_fst_prefix (s sep : Str) : ∃ t, s = (Cut s sep).1 ++ t := by
  unfold Cut
  cases Index s sep with
  | none => exact ⟨[], by simp⟩
  | some i => exact ⟨s.drop i, by simp⟩

theorem contains_singleton (s : Str) (c : Char) : Contains s [c] = true ↔ c ∈ s := by
  unfold Contains
  induction s with
  | nil => simp [index_singleton_nil]
  | cons d s ih =>
    rw [index_singleton_cons]
    by_cases h : d = c
    · simp [h]
    · simp only [h, if_false, Option.isSome_map', List.mem_cons]
      rw [ih]
      constructor
      · exact Or.inr
      · rintro (h' | h')
        · exact absurd h'.symm h
        · exact h'

theorem lowerByte_idem (c : Char) : lowerByte (lowerByte c) = lowerByte c := by
  rw [char_eq_iff, lowerByte_toNat, lowerByte_toNat]
  split_ifs <;> omega

theorem toLower_idem (s : Str) : ToLower (ToLower s) = ToLower s := by
  simp [ToLower, List.map_map, Function.comp_def, lowerByte_idem]

end strings

namespace url

open encoding

theorem letter_iff (c : Char) :
    letter c ↔ (97 ≤ c.toNat ∧ c.toNat ≤ 122) ∨ (65 ≤ c.toNat ∧ c.toNat ≤ 90) := Iff.rfl

theorem schemeChar_iff (c : Char) :
    schemeChar c ↔ ((97 ≤ c.toNat ∧ c.toNat ≤ 122) ∨ (65 ≤ c.toNat ∧ c.toNat ≤ 90)) ∨
      ((48 ≤ c.toNat ∧ c.toNat ≤ 57) ∨ c.toNat = 43 ∨ c.toNat = 45 ∨ c.toNat = 46) := by
  unfold schemeChar
  rw [strings.char_eq_iff c '+', strings.char_eq_iff c '-', strings.char_eq_iff c '.']
  rfl

theorem letter_lowerByte (c : Char) (h : letter c) : letter (strings.lowerByte c) := by
  rw [letter_iff] at h ⊢
  rw [strings.lowerByte_toNat]
  split_ifs <;> omega

theorem schemeChar_lowerByte (c : Char) (h : schemeChar c) :
    schemeChar (strings.lowerByte c) := by
  rw [schemeChar_iff] at h ⊢
  rw [strings.lowerByte_toNat]
  split_ifs <;> omega

theorem validScheme_toLower (scheme : Str) (h : validScheme scheme) :
    validScheme (strings.ToLower scheme) := by
  obtain ⟨⟨c, rest, hs, hl⟩, hall⟩ := h
  refine ⟨⟨strings.lowerByte c, strings.ToLower rest, by rw [hs]; rfl,
    letter_lowerByte c hl⟩, ?_⟩
  intro d hd
  simp only [strings.ToLower, List.mem_map] at hd
  obtain ⟨e, he, rfl⟩ := hd
  exact schemeChar_lowerByte e (hall e he)

theorem getScheme_valid (rawURL scheme rest : Str)
    (h : getScheme rawURL = some (scheme, rest)) (hne : scheme ≠ []) :
    validScheme scheme ∧ rawURL = scheme ++ ':' :: rest := by
  obtain ⟨k, hs, hsch, hk, hfirst⟩ := getSchemeLoop_sound rawURL rawURL [] scheme rest h hne
  simp only [List.reverse_nil, List.nil_append] at hsch
  subst hsch
  exact ⟨⟨hfirst rfl, hk⟩, hs⟩

theorem getScheme_of_valid (scheme tail : Str) (h : validScheme scheme) :
    getScheme (scheme ++ ':' :: tail) = some (scheme, tail) := by
  have := getSchemeLoop_complete (scheme ++ ':' :: tail) scheme [] tail h.2 (Or.inr h.1)
  simpa [getScheme] using this

theorem Parse_scheme (rawURL : Str) (u : URL) (h : Parse rawURL = some u) :
    ((strings.Cut rawURL ['#']).1 = ['*'] ∧ u.Scheme = []) ∨
      ∃ scheme rest, getScheme (strings.Cut rawURL ['#']).1 = some (scheme, rest) ∧
        u.Scheme = strings.ToLower scheme := by
  unfold Parse at h
  generalize strings.Cut rawURL ['#'] = c at h ⊢
  obtain ⟨pre, frag, found⟩ := c
  simp only at h
  cases hp : parseNoFragment pre with
  | none => rw [hp] at h; simp at h
  | some parsed =>
    rw [hp] at h
    simp only at h
    have key := parseNoFragment_scheme pre parsed hp
    have hsch : u.Scheme = parsed.Scheme := by
      split at h
      · simp only [Option.some.injEq] at h
        rw [h]
      · exact (setFragment_frame _ _ _ h).1
    rw [hsch]
    exact key

theorem Parse_opaque (rawURL : Str) (u : URL) (h : Parse rawURL = some u)
    (hs : u.Scheme = []) : u.Opaque = [] := by
  unfold Parse at h
  generalize strings.Cut rawURL ['#'] = c at h
  obtain ⟨pre, frag, found⟩ := c
  simp only at h
  cases hp : parseNoFragment pre with
  | none => rw [hp] at h; simp at h
  | some parsed =>
    rw [hp] at h
    simp only at h
    split at h
    · simp only [Option.some.injEq] at h
      subst h
      exact parseNoFragment_opaque pre parsed hp hs
    · obtain ⟨h1, h2, _⟩ := setFragment_frame _ _ _ h
      rw [h2]
      exact parseNoFragment_opaque pre parsed hp (h1 ▸ hs)

/-- The scheme of a URL that parses is empty or well formed, and in lower case. -/
theorem Parse_scheme_valid (rawURL : Str) (u : URL) (h : Parse rawURL = some u)
    (hne : u.Scheme ≠ []) :
    validScheme u.Scheme ∧ strings.ToLower u.Scheme = u.Scheme := by
  rcases Parse_scheme rawURL u h with ⟨_, h0⟩ | ⟨scheme, rest, hg, hs⟩
  · exact absurd h0 hne
  · have hne' : scheme ≠ [] := by
      rintro rfl
      exact hne (by rw [hs]; rfl)
    obtain ⟨hv, _⟩ := getScheme_valid _ scheme rest hg hne'
    rw [hs]
    exact ⟨validScheme_toLower scheme hv, strings.toLower_idem scheme⟩

end url

namespace url

open encoding

theorem authorityPart_scheme (u : URL) (hs : u.Scheme ≠ []) :
    ∃ rest, u.authorityPart = u.Scheme ++ ':' :: rest := by
  unfold URL.authorityPart
  rw [if_pos hs]
  exact ⟨_, by rw [List.append_assoc]; rfl⟩

theorem String_scheme_prefix (u : URL) (hs : u.Scheme ≠ []) :
    ∃ tail, u.String = u.Scheme ++ ':' :: tail := by
  unfold URL.String
  by_cases ho : u.Opaque ≠ []
  · rw [if_pos ho, if_pos hs]
    exact ⟨_, by simp only [List.append_assoc]; rfl⟩
  · rw [if_neg ho]
    obtain ⟨rest, hrest⟩ := authorityPart_scheme u hs
    simp only [hrest]
    split_ifs <;> first
      | (simp only [List.append_assoc, List.cons_append]; exact ⟨_, rfl⟩)
      | exact ⟨_, rfl⟩
      | (exfalso; simp_all)

theorem authorityPart_noScheme (u : URL) (hs : u.Scheme = []) :
    (u.Host = [] ∧ u.User = none ∧ u.authorityPart = []) ∨
      ∃ rest, u.authorityPart = '/' :: rest := by
  unfold URL.authorityPart
  by_cases hh : u.Host ≠ [] ∨ u.User.isSome = true
  · right
    have h1 : u.Scheme ≠ [] ∨ u.Host ≠ [] ∨ u.User.isSome = true := Or.inr hh
    have h2 : ¬ (u.OmitHost = true ∧ u.Host = [] ∧ u.User.isNone = true) := by
      rintro ⟨_, h3, h4⟩
      rcases hh with h | h
      · exact h h3
      · cases hu : u.User <;> simp [hu] at h h4
    have h3 : u.Host ≠ [] ∨ u.Path ≠ [] ∨ u.User.isSome = true := by
      rcases hh with h | h
      · exact Or.inl h
      · exact Or.inr (Or.inr h)
    rw [if_neg (show ¬ u.Scheme ≠ [] from by simpa using hs), if_pos h1, if_neg h2, if_pos h3]
    exact ⟨_, rfl⟩
  · left
    have hh' : u.Host = [] ∧ u.User = none := by
      constructor
      · by_contra h; exact hh (Or.inl h)
      · cases hu : u.User with
        | none => rfl
        | some x => exact absurd (Or.inr (by simp [hu])) hh
    refine ⟨hh'.1, hh'.2, ?_⟩
    have h1 : ¬ (u.Scheme ≠ [] ∨ u.Host ≠ [] ∨ u.User.isSome = true) := by
      rintro (h | h)
      · exact h hs
      · exact hh h
    rw [if_neg (show ¬ u.Scheme ≠ [] from by simpa using hs), if_neg h1]
    rfl

/-- The shape of the serialization of a URL without scheme, opaque part and fragment:
it starts with `/` or with `.`, or it is the escaped path, whose first segment holds no
colon, followed by the query. -/
theorem String_noScheme (u : URL) (hs : u.Scheme = []) (ho : u.Opaque = [])
    (hf : u.Fragment = []) :
    (∃ tail, u.String = '/' :: tail) ∨ (∃ tail, u.String = '.' :: tail) ∨
      (strings.Contains (strings.Cut u.EscapedPath ['/']).1 [':'] = false ∧
        u.String = u.EscapedPath ++
          (if u.ForceQuery ∨ u.RawQuery ≠ [] then '?' :: u.RawQuery else [])) := by
  unfold URL.String
  rw [if_neg (show ¬ u.Opaque ≠ [] from by simpa using ho),
    if_neg (show ¬ u.Fragment ≠ [] from by simpa using hf), List.append_nil]
  rcases authorityPart_noScheme u hs with ⟨hh, _, ha⟩ | ⟨rest, ha⟩
  · simp only [ha]
    have h1 : ¬ (u.EscapedPath ≠ [] ∧ u.EscapedPath.head? ≠ some '/' ∧ u.Host ≠ []) :=
      fun h => h.2.2 hh
    rw [if_neg h1]
    by_cases hc : strings.Contains (strings.Cut u.EscapedPath ['/']).1 [':'] = true
    · right; left
      rw [if_pos ⟨rfl, hc⟩]
      exact ⟨_, rfl⟩
    · right; right
      rw [if_neg (fun h => hc h.2)]
      exact ⟨by simpa using hc, by simp⟩
  · left
    simp only [ha]
    split_ifs <;> first
      | (simp only [List.append_assoc, List.cons_append]; exact ⟨_, rfl⟩)
      | exact ⟨_, rfl⟩
      | (exfalso; simp_all)

end url

namespace url

open encoding

theorem not_schemeChar_special :
    ¬ schemeChar '#' ∧ ¬ schemeChar '/' ∧ ¬ schemeChar '?' ∧ ¬ schemeChar ':' ∧
      ¬ schemeChar '*' := by
  unfold schemeChar
  decide

theorem not_letter_special : ¬ letter '/' ∧ ¬ letter '.' ∧ ¬ letter '*' := by
  unfold letter
  decide

/-- The scheme of a URL is kept by normalization followed by a second parse. -/
theorem reparse_scheme (rawURL : Str) (u u2 : URL) (h : Parse rawURL = some u)
    (h2 : Parse (domain.normalizeRef u).String = some u2) : u2.Scheme = u.Scheme := by
  have hvs : (domain.normalizeRef u).Scheme = u.Scheme := rfl
  have hvo : (domain.normalizeRef u).Opaque = u.Opaque := rfl
  have hvf : (domain.normalizeRef u).Fragment = [] := rfl
  generalize domain.normalizeRef u = v at h2 hvs hvo hvf
  obtain ⟨t, ht⟩ := strings.cut_fst_prefix v.String ['#']
  by_cases hs : u.Scheme = []
  · -- no scheme: the serialization cannot be read as having one
    rw [hs]
    have hvs' : v.Scheme = [] := by rw [hvs, hs]
    have hvo' : v.Opaque = [] := by rw [hvo]; exact Parse_opaque rawURL u h hs
    rcases Parse_scheme _ u2 h2 with ⟨_, h0⟩ | ⟨scheme, rest, hg, hsch⟩
    · exact h0
    · by_cases hne : scheme = []
      · rw [hsch, hne]; rfl
      · exfalso
        obtain ⟨⟨⟨c, k', hck, hlet⟩, hall⟩, hpre⟩ := getScheme_valid _ scheme rest hg hne
        rw [hpre] at ht
        rcases String_noScheme v hvs' hvo' hvf with ⟨tail, hS⟩ | ⟨tail, hS⟩ | ⟨hcol, hS⟩
        · rw [hS, hck] at ht
          simp only [List.cons_append, List.cons.injEq] at ht
          exact not_letter_special.1 (ht.1 ▸ hlet)
        · rw [hS, hck] at ht
          simp only [List.cons_append, List.cons.injEq] at ht
          exact not_letter_special.2.1 (ht.1 ▸ hlet)
        · rw [hS] at ht
          have hpath : ∃ y, v.EscapedPath = scheme ++ ':' :: y := by
            have ht' : v.EscapedPath ++
                (if v.ForceQuery = true ∨ v.RawQuery ≠ [] then '?' :: v.RawQuery else [])
                = (scheme ++ [':']) ++ (rest ++ t) := by
              rw [ht]; simp
            rw [List.append_eq_append_iff] at ht'
            rcases ht' with ⟨a', ha, hq⟩ | ⟨c', hc, _⟩
            · cases a' with
              | nil => exact ⟨[], by rw [List.append_nil] at ha; rw [← ha]⟩
              | cons x a'' =>
                exfalso
                have hx : x = '?' := by
                  split at hq
                  · simp only [List.cons_append, List.cons.injEq] at hq
                    exact hq.1.symm
                  · simp at hq
                have hmem : x ∈ scheme ++ [':'] := by
                  rw [ha]
                  simp
                rw [hx] at hmem
                rcases List.mem_append.1 hmem with hm | hm
                · exact not_schemeChar_special.2.2.1 (hall _ hm)
                · simp at hm
            · exact ⟨c', by rw [hc]; simp⟩
          obtain ⟨y, hy⟩ := hpath
          have hcut : (strings.Cut v.EscapedPath ['/']).1
              = scheme ++ (strings.Cut (':' :: y) ['/']).1 := by
            rw [hy]
            apply strings.cut_singleton_append
            intro d hd hd'
            exact not_schemeChar_special.2.1 (hd' ▸ hall d hd)
          rw [hcut, strings.cut_singleton_cons, if_neg (by decide)] at hcol
          have : strings.Contains (scheme ++ ':' :: (strings.Cut y ['/']).1) [':'] = true := by
            rw [strings.contains_singleton]
            simp
          rw [this] at hcol
          exact Bool.noConfusion hcol
  · -- a scheme: the serialization starts with it and a colon
    obtain ⟨hvalid, hlower⟩ := Parse_scheme_valid rawURL u h hs
    obtain ⟨tail, hS⟩ := String_scheme_prefix v (by rw [hvs]; exact hs)
    rw [hvs] at hS
    have hcut : (strings.Cut v.String ['#']).1
        = u.Scheme ++ ':' :: (strings.Cut tail ['#']).1 := by
      have : v.String = (u.Scheme ++ [':']) ++ tail := by rw [hS]; simp
      rw [this, strings.cut_singleton_append]
      · simp
      · intro d hd hd'
        rcases List.mem_append.1 hd with hm | hm
        · exact not_schemeChar_special.1 (hd' ▸ hvalid.2 d hm)
        · rw [hd'] at hm
          simp at hm
    rcases Parse_scheme _ u2 h2 with ⟨hstar, _⟩ | ⟨scheme, rest, hg, hsch⟩
    · exfalso
      rw [hcut] at hstar
      obtain ⟨⟨c, k', hck, hlet⟩, _⟩ := hvalid
      rw [hck] at hstar
      simp only [List.cons_append, List.cons.injEq] at hstar
      exact not_letter_special.2.2 (hstar.1 ▸ hlet)
    · rw [hcut, getScheme_of_valid u.Scheme _ hvalid] at hg
      simp only [Option.some.injEq, Prod.mk.injEq] at hg
      rw [hsch, ← hg.1, hlower]

end url

/-! ## `crawler.New` -/

namespace crawler

open url

theorem isValidHTTP_normalized (seed : Str) (u : URL) (h : Parse seed = some u) :
    domain.IsValidHTTP (domain.normalizeRef u).String = true ↔
      (Parse (domain.normalizeRef u).String).isSome = true ∧
        (u.Scheme = "http".toList ∨ u.Scheme = "https".toList) := by
  unfold domain.IsValidHTTP
  cases h2 : Parse (domain.normalizeRef u).String with
  | none => simp
  | some u2 =>
    have := reparse_scheme seed u u2 h h2
    simp [this]

theorem New_eq (redisPing : Str → Bool) (chanBytes : Nat) (seed : Str) (opts : Options)
    (n : Str) (hn : domain.Normalize seed = some n) :
    New redisPing chanBytes seed opts =
      if domain.IsValidHTTP n = true then newCrawler redisPing chanBytes n opts
      else some (.error .notHTTP) := by
  unfold New
  rw [hn]
  by_cases hv : domain.IsValidHTTP n = true
  · simp [hv]
  · simp [hv]

theorem makechan_neg (chanBytes elemSize : Nat) (size : Int) (h : size < 0) :
    makechan chanBytes elemSize size = false := by
  unfold makechan
  simp
  intro h2
  omega

theorem newCrawler_baseURL (redisPing : Str → Bool) (chanBytes : Nat) (opts : Options)
    (n : Str) (c : Crawler) (h : newCrawler redisPing chanBytes n opts = some (.ok c)) :
    c.baseURL = n := by
  unfold newCrawler at h
  cases hf : newFrontier redisPing chanBytes n opts with
  | none => rw [hf] at h; simp at h
  | some r =>
    cases r with
    | error e => rw [hf] at h; simp at h
    | ok f =>
      rw [hf] at h
      simp only at h
      split at h
      · simp only [Option.some.injEq, Except.ok.injEq] at h
        rw [← h]
      · simp at h

/-- C7 as amended: `New` returns an error for every seed that fails to parse and for
every seed whose scheme is neither `http` nor `https`.  For a seed with scheme `http` or
`https` whose normalized form parses again (`IsValidHTTP` parses it): `New` returns a
crawler whose base URL is `Normalize(seed)` when the frontier is built (the Redis server
answers, or the runtime makes a channel of `FrontierCapacity` strings) and the runtime
makes the channel of `Workers*2` results; it returns an error when `UseRedis` is set and
the server does not answer; and it panics when the runtime does not make one of the
channels, which is so for a negative `FrontierCapacity` without Redis and for a
negative `Workers*2`. -/
theorem New_validates_seed (redisPing : Str → Bool) (chanBytes : Nat) (seed : Str)
    (opts : Options) :
    (Parse seed = none → New redisPing chanBytes seed opts = some (.error .invalidBaseURL)) ∧
    (∀ u, Parse seed = some u → u.Scheme ≠ "http".toList → u.Scheme ≠ "https".toList →
      New redisPing chanBytes seed opts = some (.error .notHTTP)) ∧
    (∀ u n, Parse seed = some u → (u.Scheme = "http".toList ∨ u.Scheme = "https".toList) →
      domain.Normalize seed = some n → (Parse n).isSome = true →
      ((if opts.UseRedis = true then redisPing opts.RedisAddr = true
          else makechan chanBytes 16 opts.FrontierCapacity = true) →
        makechan chanBytes 8 (int64 (opts.Workers * 2)) = true →
        ∃ c, New redisPing chanBytes seed opts = some (.ok c) ∧ c.baseURL = n ∧
          c.opts = opts ∧ c.crawled = 0) ∧
      (opts.UseRedis = true → redisPing opts.RedisAddr = false →
        New redisPing chanBytes seed opts = some (.error .redisConnect)) ∧
      (opts.UseRedis = false → makechan chanBytes 16 opts.FrontierCapacity = false →
        New redisPing chanBytes seed opts = none) ∧
      (opts.UseRedis = false ∨ redisPing opts.RedisAddr = true →
        makechan chanBytes 8 (int64 (opts.Workers * 2)) = false →
        New redisPing chanBytes seed opts = none)) ∧
    (opts.FrontierCapacity < 0 → makechan chanBytes 16 opts.FrontierCapacity = false) ∧
    (int64 (opts.Workers * 2) < 0 →
      makechan chanBytes 8 (int64 (opts.Workers * 2)) = false) := by
  refine ⟨?_, ?_, ?_, makechan_neg _ _ _, makechan_neg _ _ _⟩
  · intro h
    unfold New
    rw [domain.Normalize_eq_map, h]
    rfl
  · intro u h h1 h2
    have hn : domain.Normalize seed = some (domain.normalizeRef u).String := by
      rw [domain.Normalize_eq_map, h]; rfl
    rw [New_eq redisPing chanBytes seed opts _ hn]
    have hv : ¬ domain.IsValidHTTP (domain.normalizeRef u).String = true := by
      rw [isValidHTTP_normalized seed u h]
      rintro ⟨_, h3 | h3⟩
      · exact h1 h3
      · exact h2 h3
    rw [if_neg hv]
  · intro u n h hsch hn hparse
    have hn2 : domain.Normalize seed = some (domain.normalizeRef u).String := by
      rw [domain.Normalize_eq_map, h]; rfl
    have hnn : n = (domain.normalizeRef u).String := by
      rw [hn] at hn2
      exact Option.some.inj hn2
    have hv : domain.IsValidHTTP n = true := by
      rw [hnn, isValidHTTP_normalized seed u h]
      exact ⟨hnn ▸ hparse, hsch⟩
    rw [New_eq redisPing chanBytes seed opts n hn, if_pos hv]
    refine ⟨?_, ?_, ?_, ?_⟩
    · intro hfront hres
      by_cases hr : opts.UseRedis = true
      · rw [if_pos hr] at hfront
        simp only [newCrawler, newFrontier, hr, hfront, hres, if_true]
        exact ⟨_, rfl, rfl, rfl, rfl⟩
      · rw [if_neg hr] at hfront
        simp only [newCrawler, newFrontier, hr, hfront, hres, if_true]
        exact ⟨_, rfl, rfl, rfl, rfl⟩
    · intro hr hping
      simp [newCrawler, newFrontier, hr, hping]
    · intro hr hcap
      simp [newCrawler, newFrontier, hr, hcap]
    · intro hfront hres
      by_cases hr : opts.UseRedis = true
      · have hping : redisPing opts.RedisAddr = true := by
          rcases hfront with h1 | h1
          · rw [hr] at h1; exact absurd h1 (by decide)
          · exact h1
        simp [newCrawler, newFrontier, hr, hping, hres]
      · by_cases hcap : makechan chanBytes 16 opts.FrontierCapacity = true
        · simp [newCrawler, newFrontier, hr, hcap, hres]
        · simp [newCrawler, newFrontier, hr, hcap]

/-- Witness for C7: `not-a-valid-url` parses without scheme and `ftp://example.com` with
scheme `ftp`, so `New` rejects both; `https://example.com` is accepted with the base
URL `https://example.com/` under the default options. -/
theorem New_validates_seed_witness :
    New (fun _ => false) exampleChanBytes "not-a-valid-url".toList DefaultOptions
      = some (.error .notHTTP) ∧
    New (fun _ => false) exampleChanBytes "ftp://example.com".toList DefaultOptions
      = some (.error .notHTTP) ∧
    ∃ c, New (fun _ => false) exampleChanBytes "https://example.com".toList DefaultOptions
        = some (.ok c) ∧
      c.baseURL = "https://example.com/".toList ∧ c.opts = DefaultOptions ∧ c.crawled = 0 :=
  ⟨(New_validates_seed (fun _ => false) exampleChanBytes "not-a-valid-url".toList
      DefaultOptions).2.1
      { Path := "not-a-valid-url".toList } (by rfl) (by decide) (by decide),
    (New_validates_seed (fun _ => false) exampleChanBytes "ftp://example.com".toList
      DefaultOptions).2.1
      { Scheme := "ftp".toList, Host := "example.com".toList } (by rfl) (by decide) (by decide),
    ((New_validates_seed (fun _ => false) exampleChanBytes "https://example.com".toList
      DefaultOptions).2.2.1
      { Scheme := "https".toList, Host := "example.com".toList }
      "https://example.com/".toList (by rfl) (by decide) (by rfl) (by rfl)).1
      (by decide) (by decide)⟩

/-- C7 (counterexample): for the seed `https://example.com`, which parses with scheme
`https` and normalizes to `https://example.com/`, and the default options with
`Workers` set to `-1`, `New` returns neither an error nor a crawler: making the channel
of results with the size `-2` panics.  The same holds for a `FrontierCapacity` of
`-1`. -/
theorem New_panics_for_negative_Workers :
    (Parse "https://example.com".toList).map (fun u => u.Scheme) = some "https".toList ∧
    domain.Normalize "https://example.com".toList = some "https://example.com/".toList ∧
    int64 (({ DefaultOptions with Workers := -1 } : Options).Workers * 2) = -2 ∧
    makechan exampleChanBytes 8 (-2) = false ∧
    New (fun _ => false) exampleChanBytes "https://example.com".toList
      { DefaultOptions with Workers := -1 } = none ∧
    New (fun _ => false) exampleChanBytes "https://example.com".toList
      { DefaultOptions with FrontierCapacity := -1 } = none := by
  have n1 : domain.Normalize "https://example.com".toList
      = some "https://example.com/".toList := by rfl
  have v1 : domain.IsValidHTTP "https://example.com/".toList = true := by rfl
  refine ⟨by rfl, n1, by decide, by decide, ?_, ?_⟩
  · rw [New_eq _ _ _ _ _ n1, if_pos v1]
    rfl
  · rw [New_eq _ _ _ _ _ n1, if_pos v1]
    rfl

/-- C8 (counterexample): `New` accepts seeds with an empty host.  For `http://` and
`https:///path` it returns a crawler, with base URLs `http:///` and `https:///path`,
whose host is empty. -/
theorem New_accepts_seed_without_host :
    domain.GetHost "http://".toList = some [] ∧
    New (fun _ => false) exampleChanBytes "http://".toList DefaultOptions
      = some (.ok { opts := DefaultOptions, baseURL := "http:///".toList,
                    frontier := .memory 100000, crawled := 0 }) ∧
    domain.GetHost "http:///".toList = some [] ∧
    domain.GetHost "https:///path".toList = some [] ∧
    New (fun _ => false) exampleChanBytes "https:///path".toList DefaultOptions
      = some (.ok { opts := DefaultOptions, baseURL := "https:///path".toList,
                    frontier := .memory 100000, crawled := 0 }) := by
  have n1 : domain.Normalize "http://".toList = some "http:///".toList := by rfl
  have v1 : domain.IsValidHTTP "http:///".toList = true := by rfl
  have n2 : domain.Normalize "https:///path".toList = some "https:///path".toList := by rfl
  have v2 : domain.IsValidHTTP "https:///path".toList = true := by rfl
  refine ⟨by rfl, ?_, by rfl, by rfl, ?_⟩
  · rw [New_eq _ _ _ _ _ n1, if_pos v1]
    rfl
  · rw [New_eq _ _ _ _ _ n2, if_pos v2]
    rfl

/-- C8 as amended: `New` checks the scheme, not the host.  Every crawler that `New`
constructs has as base URL the normalized seed, which is an `http` or `https` URL; the
seed itself has scheme `http` or `https`; its host may be empty. -/
theorem New_base_is_http_url (redisPing : Str → Bool) (chanBytes : Nat) (seed : Str)
    (opts : Options) (c : Crawler) (h : New redisPing chanBytes seed opts = some (.ok c)) :
    domain.Normalize seed = some c.baseURL ∧ domain.IsValidHTTP c.baseURL = true ∧
      ∃ u, Parse seed = some u ∧ (u.Scheme = "http".toList ∨ u.Scheme = "https".toList) := by
  cases hn : domain.Normalize seed with
  | none =>
    unfold New at h
    rw [hn] at h
    simp at h
  | some n =>
    rw [New_eq redisPing chanBytes seed opts n hn] at h
    by_cases hv : domain.IsValidHTTP n = true
    · rw [if_pos hv] at h
      have hc : c.baseURL = n := newCrawler_baseURL redisPing chanBytes opts n c h
      rw [hc]
      refine ⟨rfl, hv, ?_⟩
      rw [domain.Normalize_eq_map] at hn
      cases hp : Parse seed with
      | none => rw [hp] at hn; simp at hn
      | some u =>
        rw [hp] at hn
        simp only [Option.map_some', Option.some.injEq] at hn
        rw [← hn, isValidHTTP_normalized seed u hp] at hv
        exact ⟨u, rfl, hv.2⟩
    · rw [if_neg hv] at h
      simp at h

/-- Witness for C8: the crawler that `New` constructs for the seed `http://`. -/
theorem New_base_is_http_url_witness :
    domain.Normalize "http://".toList = some "http:///".toList ∧
      domain.IsValidHTTP "http:///".toList = true ∧
      ∃ u, Parse "http://".toList = some u ∧
        (u.Scheme = "http".toList ∨ u.Scheme = "https".toList) :=
  New_base_is_http_url (fun _ => false) exampleChanBytes "http://".toList DefaultOptions
    { opts := DefaultOptions, baseURL := "http:///".toList, frontier := .memory 100000,
      crawled := 0 }
    (by
      have n1 : domain.Normalize "http://".toList = some "http:///".toList := by rfl
      have v1 : domain.IsValidHTTP "http:///".toList = true := by rfl
      rw [New_eq _ _ _ _ _ n1, if_pos v1]
      rfl)

end crawler

/-! ## The in-memory frontier -/

namespace frontier

open crawler (Ctx)

/-- Pushing onto an open frontier with room for all the URLs appends them in order. -/
theorem pushEach_of_room (pick : Pick) (wake : Wake) (urls : List Str) :
    ∀ f : MemoryFrontier, f.closed = false → f.ch.length + urls.length ≤ f.capacity →
      pushEach .active pick wake f urls
        = some (urls.map (fun _ => none),
            { f with ch := f.ch ++ urls, size := f.size + (urls.length : Int) }) := by
  induction urls with
  | nil => intro f _ _; simp [pushEach]
  | cons url urls ih =>
    intro f hopen hroom
    have hlt : f.ch.length < f.capacity := by
      simp only [List.length_cons] at hroom; omega
    have hpush : f.Push .active url pick wake
        = some (none, { f with ch := f.ch ++ [url], size := f.size + 1 }) := by
      simp [MemoryFrontier.Push, hopen, hlt, context.Err]
    have hnext := ih { f with ch := f.ch ++ [url], size := f.size + 1 } hopen
      (by simp only [List.length_append, List.length_cons, List.length_nil] at hroom ⊢; omega)
    simp only [pushEach, hpush, hnext, List.map_cons, List.append_assoc, List.singleton_append,
      List.length_cons, Nat.cast_add, Nat.cast_one]
    congr 3
    omega

/-- Popping as many times as the channel holds items returns them oldest first. -/
theorem popTimes_of_items (pick : Pick) (wake : Wake) (urls : List Str) :
    ∀ (f : MemoryFrontier) (rest : List Str), f.ch = urls ++ rest →
      popTimes .active pick wake urls.length f
        = some (urls.map (fun url => (url, none)),
            { f with ch := rest, size := f.size - (urls.length : Int) }) := by
  induction urls with
  | nil => intro f rest h; simp at h; simp [popTimes, ← h]
  | cons url urls ih =>
    intro f rest h
    have hpop : f.Pop .active pick wake
        = some ((url, none), { f with ch := urls ++ rest, size := f.size - 1 }) := by
      simp [MemoryFrontier.Pop, MemoryFrontier.receive, h, context.Err]
    have hnext := ih { f with ch := urls ++ rest, size := f.size - 1 } rest rfl
    simp only [List.length_cons, popTimes, hpop, hnext, List.map_cons, Nat.cast_add,
      Nat.cast_one]
    congr 3
    omega

/-- C11 (frontier FIFO).  For every list of URLs no longer than the capacity, pushing
them in order onto a new `MemoryFrontier` under a context that is not done returns no
error and makes `Size()` the length of the list; as many `Pop` calls then return exactly
those URLs in push order, each with a nil error, and leave `Size()` at zero. -/
theorem MemoryFrontier_push_then_pop_is_FIFO (capacity : Nat) (urls : List Str)
    (pick pick' : Pick) (wake wake' : Wake) (hroom : urls.length ≤ capacity) :
    ∃ f g : MemoryFrontier,
      pushEach .active pick wake (NewMemoryFrontier capacity) urls
        = some (urls.map (fun _ => none), f) ∧
      f.Size = urls.length ∧
      popTimes .active pick' wake' urls.length f
        = some (urls.map (fun url => (url, none)), g) ∧
      g.Size = 0 := by
  have hpush := pushEach_of_room pick wake urls (NewMemoryFrontier capacity) rfl
    (by simpa [NewMemoryFrontier] using hroom)
  refine ⟨_, _, hpush, ?_, popTimes_of_items pick' wake' urls _ [] ?_, ?_⟩
  · simp [MemoryFrontier.Size, NewMemoryFrontier]
  · simp [NewMemoryFrontier]
  · simp [MemoryFrontier.Size, NewMemoryFrontier]

/-- The three URLs of the test `TestMemoryFrontier_PushPop` on a frontier of capacity 100. -/
theorem MemoryFrontier_push_then_pop_is_FIFO_witness :
    ∃ f g : MemoryFrontier,
      pushEach .active .channel .nothing (NewMemoryFrontier 100)
          ["https://example.com/page1".toList, "https://example.com/page2".toList,
            "https://example.com/page3".toList]
        = some ([none, none, none], f) ∧
      f.Size = 3 ∧
      popTimes .active .done .cancel 3 f
        = some ([("https://example.com/page1".toList, none),
            ("https://example.com/page2".toList, none),
            ("https://example.com/page3".toList, none)], g) ∧
      g.Size = 0 :=
  MemoryFrontier_push_then_pop_is_FIFO 100
    ["https://example.com/page1".toList, "https://example.com/page2".toList,
      "https://example.com/page3".toList] .channel .done .nothing .cancel (by decide)

/-- C12 (close and push after close).  `Close` returns nil and leaves the queued items
and `Size()` as they are; a second `Close`, and any number of further ones, returns nil
and changes nothing; every `Push` after `Close` returns `context.Canceled` and leaves
the state, so the queued items and `Size()`, unchanged. -/
theorem MemoryFrontier_Close_once_then_Push_fails (f : MemoryFrontier) (n : Nat) (ctx : Ctx)
    (url : Str) (pick : Pick) (wake : Wake) :
    f.Close.1 = none ∧
    f.Close.2 = { f with closed := true } ∧
    f.Close.2.Close = (none, f.Close.2) ∧
    (fun g : MemoryFrontier => g.Close.2)^[n + 1] f = f.Close.2 ∧
    f.Close.2.Push ctx url pick wake = some (some .Canceled, f.Close.2) ∧
    f.Close.2.ch = f.ch ∧ f.Close.2.Size = f.Size := by
  have hstate : f.Close.2 = { f with closed := true } := by
    cases hc : f.closed <;> simp [MemoryFrontier.Close, hc]
    cases f; simp_all
  have hclosed : f.Close.2.closed = true := by rw [hstate]
  have hagain : f.Close.2.Close = (none, f.Close.2) := by
    generalize f.Close.2 = g at hclosed
    simp [MemoryFrontier.Close, hclosed]
  refine ⟨rfl, hstate, hagain, ?_, ?_, ?_, ?_⟩
  · induction n with
    | zero => rfl
    | succ n ih =>
      rw [Function.iterate_succ_apply', ih, hagain]
  · simp [MemoryFrontier.Push, hclosed]
  · rw [hstate]
  · rw [hstate]; rfl

/-- C13 (a pop timeout is not an error).  On an open, empty frontier under a caller
context that is not done and stays so, `PopWithTimeout` returns the empty string with a
nil error and leaves the state, so `Size()`, unchanged.  When an item is queued and the
timeout is positive it returns the head item with a nil error, removes it and lowers
`Size()` by one. -/
theorem PopWithTimeout_timeout_is_not_an_error (f : MemoryFrontier) (timeout : Int)
    (pick : Pick) (wake : Wake) :
    (f.closed = false → f.ch = [] →
      f.PopWithTimeout .active timeout pick .nothing = (([], none), f)) ∧
    (∀ url rest, f.ch = url :: rest → 0 < timeout →
      f.PopWithTimeout .active timeout pick wake
        = ((url, none), { f with ch := rest, size := f.size - 1 }) ∧
      (f.PopWithTimeout .active timeout pick wake).2.Size = f.Size - 1) := by
  constructor
  · intro hopen hempty
    by_cases ht : timeout ≤ 0 <;>
      simp [MemoryFrontier.PopWithTimeout, MemoryFrontier.expired, context.WithTimeout,
        context.Err, hopen, hempty, ht]
  · intro url rest hch hpos
    have ht : ¬ timeout ≤ 0 := by omega
    simp [MemoryFrontier.PopWithTimeout, MemoryFrontier.receive, context.WithTimeout,
      MemoryFrontier.Size, hch, ht]

/-- The two calls of the test `TestMemoryFrontier_PopWithTimeout`: a timeout of 100 ms on
the new frontier, and a timeout of one second with one URL queued. -/
theorem PopWithTimeout_timeout_is_not_an_error_witness :
    (NewMemoryFrontier 100).PopWithTimeout .active 100000000 .channel .nothing
      = (([], none), NewMemoryFrontier 100) ∧
    ({ ch := ["https://example.com".toList], capacity := 100, size := 1, closed := false }
        : MemoryFrontier).PopWithTimeout .active 1000000000 .channel .nothing
      = (("https://example.com".toList, none),
          { ch := [], capacity := 100, size := 0, closed := false }) :=
  ⟨(PopWithTimeout_timeout_is_not_an_error (NewMemoryFrontier 100) 100000000 .channel
      .nothing).1 rfl rfl,
   ((PopWithTimeout_timeout_is_not_an_error
      { ch := ["https://example.com".toList], capacity := 100, size := 1, closed := false }
      1000000000 .channel .nothing).2 "https://example.com".toList [] rfl (by decide)).1⟩

/-- C14 (cancellation surfaces as an error from frontier pops), at the input where the
code departs from it: on a new, empty frontier, under a caller context whose deadline
has passed, `PopWithTimeout` returns the empty string with a nil error, the result of a
timeout, whatever the timeout is; `Pop` on the same frontier and context returns
`context.DeadlineExceeded`. -/
theorem PopWithTimeout_hides_the_deadline_of_the_caller (capacity : Nat) (timeout : Int)
    (pick : Pick) (wake : Wake) :
    (NewMemoryFrontier capacity).PopWithTimeout .deadlineExceeded timeout pick wake
      = (([], none), NewMemoryFrontier capacity) ∧
    (NewMemoryFrontier capacity).Pop .deadlineExceeded pick wake
      = some (([], some .DeadlineExceeded), NewMemoryFrontier capacity) := by
  constructor
  · simp [MemoryFrontier.PopWithTimeout, MemoryFrontier.expired, context.WithTimeout,
      context.Err, NewMemoryFrontier]
  · simp [MemoryFrontier.Pop, context.Err, NewMemoryFrontier]

end frontier

/-! ## The deduplicator -/

namespace dedup

/-- What tests positive keeps testing positive while further URLs are passed to
`SeenOrAdd`. -/
theorem seenOrAddEach_tested {F : Type} (lib : Bloom F) (hlib : lib.NoFalseNegatives)
    (u : Str) (urls : List Str) :
    ∀ b : BloomDedup F, lib.TestString b.filter u = true →
      lib.TestString (seenOrAddEach lib b urls).filter u = true := by
  induction urls with
  | nil => intro b h; exact h
  | cons v urls ih =>
    intro b h
    simp only [seenOrAddEach, List.foldl_cons]
    exact ih _ (crawler.seenOrAdd_tested lib hlib b v u (Or.inr h))

/-- C15 (dedup semantics), amended.  For a Bloom filter without false negatives, every
deduplicator state and every URL `u`: `SeenOrAdd(u)` returns false exactly when the
filter does not test `u` positive (for a URL never passed before that is the case unless
the filter gives a false positive), and after the call every later `SeenOrAdd(u)` and
`Seen(u)` returns true, whatever other URLs are passed to `SeenOrAdd` in between. -/
theorem SeenOrAdd_then_always_seen {F : Type} (lib : Bloom F) (hlib : lib.NoFalseNegatives)
    (b : BloomDedup F) (u : Str) (others : List Str) :
    (b.SeenOrAdd lib u).1 = lib.TestString b.filter u ∧
    ((seenOrAddEach lib (b.SeenOrAdd lib u).2 others).SeenOrAdd lib u).1 = true ∧
    (seenOrAddEach lib (b.SeenOrAdd lib u).2 others).Seen lib u = true := by
  have hafter := seenOrAddEach_tested lib hlib u others (b.SeenOrAdd lib u).2
    (crawler.seenOrAdd_tested lib hlib b u u (Or.inl rfl))
  refine ⟨?_, ?_, hafter⟩
  · unfold BloomDedup.SeenOrAdd
    cases lib.TestString b.filter u <;> simp
  · generalize seenOrAddEach lib (b.SeenOrAdd lib u).2 others = later at hafter
    unfold BloomDedup.SeenOrAdd
    rw [if_pos hafter]

/-- The calls of the test `TestBloomDedup_SeenOrAdd` on an exact filter: `page1` is new,
and after `page2` was added it is still seen. -/
theorem SeenOrAdd_then_always_seen_witness :
    (({ filter := [], count := 0 } : BloomDedup (List Str)).SeenOrAdd exactFilter
        "https://example.com/page1".toList).1
      = exactFilter.TestString [] "https://example.com/page1".toList ∧
    ((seenOrAddEach exactFilter
        (({ filter := [], count := 0 } : BloomDedup (List Str)).SeenOrAdd exactFilter
          "https://example.com/page1".toList).2
        ["https://example.com/page2".toList]).SeenOrAdd exactFilter
          "https://example.com/page1".toList).1 = true ∧
    (seenOrAddEach exactFilter
        (({ filter := [], count := 0 } : BloomDedup (List Str)).SeenOrAdd exactFilter
          "https://example.com/page1".toList).2
        ["https://example.com/page2".toList]).Seen exactFilter
          "https://example.com/page1".toList = true :=
  SeenOrAdd_then_always_seen exactFilter crawler.exactFilter_noFalseNegatives
    { filter := [], count := 0 } "https://example.com/page1".toList
    ["https://example.com/page2".toList]

/-- A false positive: in the deduplicator that `NewBloomDedup(1, 0.9)` builds, after
`SeenOrAdd` of `page1` (which returns false), `SeenOrAdd` of `page2` returns true although
`page2` was never passed to it, and `page2` is not counted. -/
theorem SeenOrAdd_false_positive :
    (({ filter := false, count := 0 } : BloomDedup Bool).SeenOrAdd oneBitFilter
        "https://example.com/page1".toList).1 = false ∧
    ((({ filter := false, count := 0 } : BloomDedup Bool).SeenOrAdd oneBitFilter
        "https://example.com/page1".toList).2.SeenOrAdd oneBitFilter
        "https://example.com/page2".toList).1 = true ∧
    ((({ filter := false, count := 0 } : BloomDedup Bool).SeenOrAdd oneBitFilter
        "https://example.com/page1".toList).2.SeenOrAdd oneBitFilter
        "https://example.com/page2".toList).2.Count = 1 := by
  refine ⟨rfl, rfl, rfl⟩

end dedup

/-! ## The robots gate -/

namespace crawler

open dedup frontier

/-- The result that `crawlURL` starts with carries the URL it was called for. -/
theorem crawlStart_URL (cfg : Config) (url : Str) (fetched : FetchResult) :
    (crawlStart cfg url fetched).1.URL = url := by
  unfold crawlStart
  dsimp only
  repeat' split
  all_goals rfl

theorem workerStep_robots {F : Type} (cfg : Config) (lib : Bloom F) (choice : Choice)
    (s s' : System F) (loc loc' : Loc)
    (h : workerStep cfg lib choice s loc = some (s', loc'))
    (hloc : ∀ u, loc.crawling = some u → cfg.allowed u = true) :
    s'.workers = s.workers ∧
    (∀ u, loc'.crawling = some u → cfg.allowed u = true) ∧
    (∀ r ∈ s'.results, r ∈ s.results ∨ loc.crawling = some r.URL) ∧
    (∀ u ∈ fetches s'.log, u ∈ fetches s.log ∨ loc.crawling = some u) ∧
    (0 < cfg.opts.MaxURLs →
      s'.crawled + ((fetches s.log).length : Int) + (if loc.unspent then 1 else 0)
        = s.crawled + ((fetches s'.log).length : Int) + (if loc'.unspent then 1 else 0)) := by
  rcases loc with _ | _ | _ | _ | _ | _ | _ | _ | _ | ⟨_, _ | _⟩ | _ | _ | _ | _
  all_goals simp only [workerStep, release] at h
  all_goals repeat' split at h
  all_goals first
    | (simp only [reduceCtorEq] at h)
    | (simp only [Option.some.injEq, Prod.mk.injEq] at h
       obtain ⟨rfl, rfl⟩ := h
       simp only [Loc.crawling, Loc.unspent, fetches, crawlStart_URL] at hloc ⊢
       simp_all
       first
         | omega
         | (rintro r (hr | rfl)
            · exact Or.inl hr
            · exact Or.inr rfl)
         | skip)

end crawler

namespace crawler

open dedup frontier

theorem mainStep_robots {F : Type} (cfg : Config) (lib : Bloom F) (choice : Choice)
    (s s' : System F) (h : mainStep cfg lib choice s = some s') :
    s'.workers = s.workers ∧ s'.results = s.results ∧ s'.crawled = s.crawled ∧
    fetches s'.log = fetches s.log := by
  simp only [mainStep] at h
  repeat' split at h
  all_goals first
    | (simp only [reduceCtorEq] at h)
    | (simp only [Option.some.injEq] at h
       subst h
       simp [fetches])

theorem mem_of_mem_set {α : Type} (l : List α) (i : Nat) (a x : α) (h : x ∈ l.set i a) :
    x ∈ l ∨ x = a := by
  induction l generalizing i with
  | nil => simp at h
  | cons y ys ih =>
    cases i with
    | zero =>
      simp only [List.set_cons_zero, List.mem_cons] at h
      rcases h with rfl | h
      · exact Or.inr rfl
      · exact Or.inl (List.mem_cons_of_mem _ h)
    | succ j =>
      simp only [List.set_cons_succ, List.mem_cons] at h
      rcases h with rfl | h
      · exact Or.inl (List.mem_cons_self _ _)
      · rcases ih j h with h | h
        · exact Or.inl (List.mem_cons_of_mem _ h)
        · exact Or.inr h

theorem step_robots {F : Type} (cfg : Config) (lib : Bloom F) (s : System F) (a : Action)
    (inv : RobotsInv cfg s) : RobotsInv cfg (step cfg lib s a) := by
  cases a with
  | cancel => simp only [step]; split <;> exact ⟨inv.fetched, inv.crawling, inv.sent, inv.counted⟩
  | deadline =>
    simp only [step]; split <;> exact ⟨inv.fetched, inv.crawling, inv.sent, inv.counted⟩
  | main choice =>
    simp only [step]
    cases hm : mainStep cfg lib choice s with
    | none => exact inv
    | some s' =>
      obtain ⟨hw, hr, hc, hf⟩ := mainStep_robots cfg lib choice s s' hm
      exact ⟨by simpa [hf] using inv.fetched, by simpa [hw] using inv.crawling,
        by simpa [hr] using inv.sent, by simpa [hw, hc, hf] using inv.counted⟩
  | worker i choice =>
    simp only [step]
    split
    · cases hg : s.workers.get? i with
      | none => exact inv
      | some loc =>
        dsimp only
        cases hw : workerStep cfg lib choice s loc with
        | none => exact inv
        | some p =>
          obtain ⟨s', loc'⟩ := p
          dsimp only
          have hmem : loc ∈ s.workers := List.get?_mem hg
          have hloc := inv.crawling loc hmem
          obtain ⟨hws, hnext, hres, hfet, hcnt⟩ :=
            workerStep_robots cfg lib choice s s' loc loc' hw hloc
          refine ⟨?_, ?_, ?_, ?_⟩
          · intro u hu
            rcases hfet u hu with h | h
            · exact inv.fetched u h
            · exact hloc u h
          · intro w hwm u hu
            rcases mem_of_mem_set _ _ _ _ hwm with h | rfl
            · exact inv.crawling w (hws ▸ h) u hu
            · exact hnext u hu
          · intro r hr
            rcases hres r hr with h | h
            · exact inv.sent r h
            · exact hloc r.URL h
          · intro hmax
            have hcount := countP_set_add Loc.unspent s.workers i loc' loc hg
            have e1 : ((List.countP Loc.unspent (s.workers.set i loc') : Nat) : Int)
                + (if loc.unspent = true then 1 else 0)
                = (List.countP Loc.unspent s.workers : Nat)
                  + (if loc'.unspent = true then 1 else 0) := by
              have := congrArg (Nat.cast : Nat → Int) hcount
              push_cast at this
              exact this
            have h1 := inv.counted hmax
            have h2 := hcnt hmax
            simp only [hws]
            omega
    · exact inv

theorem exec_robots {F : Type} (cfg : Config) (lib : Bloom F) (schedule : List Action)
    (s : System F) (inv : RobotsInv cfg s) : RobotsInv cfg (exec cfg lib s schedule) := by
  induction schedule generalizing s with
  | nil => exact inv
  | cons a rest ih => exact ih (step cfg lib s a) (step_robots cfg lib s a inv)

theorem init_robots {F : Type} (cfg : Config) (emptyFilter : F) :
    RobotsInv cfg (System.init cfg emptyFilter) := by
  refine ⟨?_, ?_, ?_, ?_⟩
  · simp [System.init, fetches]
  · intro loc hloc u hu
    simp only [System.init] at hloc
    rw [List.eq_of_mem_replicate hloc] at hu
    simp [Loc.crawling] at hu
  · simp [System.init]
  · simp [System.init, fetches, List.countP_replicate, Loc.unspent]

end crawler

namespace crawler

open dedup frontier

theorem get_set_same {α : Type} (l : List α) (i : Nat) (a b : α) (h : l.get? i = some b) :
    (l.set i a).get? i = some a := by
  induction l generalizing i with
  | nil => simp at h
  | cons x xs ih =>
    cases i with
    | zero => simp
    | succ j =>
      simp only [List.get?_cons_succ] at h
      simpa using ih j h

theorem set_of_get {α : Type} (l : List α) (i : Nat) (a : α) (h : l.get? i = some a) :
    l.set i a = l := by
  induction l generalizing i with
  | nil => simp
  | cons x xs ih =>
    cases i with
    | zero =>
      simp only [List.get?_cons_zero, Option.some.injEq] at h
      simp [h]
    | succ j =>
      simp only [List.get?_cons_succ] at h
      simp [ih j h]

/-- A step of worker `i` that can happen moves the system as `workerStep` says. -/
theorem step_worker {F : Type} (cfg : Config) (lib : Bloom F) (s s' : System F) (i : Nat)
    (choice : Choice) (loc loc' : Loc) (hphase : s.phase = .running)
    (hget : s.workers.get? i = some loc)
    (hstep : workerStep cfg lib choice s loc = some (s', loc')) :
    step cfg lib s (.worker i choice) = { s' with workers := s'.workers.set i loc' } := by
  simp only [step, hphase, if_true, hget, hstep]

/-- The path of a worker through the robots gate: from the top of its loop it claims a
slot, pops `url`, finds it disallowed, releases the slot and is back at the top.  The
counter, the results, the log of calls and the deduplicator are as before. -/
theorem skip_path {F : Type} (cfg : Config) (lib : Bloom F) (s : System F) (i : Nat)
    (url : Str) (rest : List Str) (hphase : s.phase = .running)
    (htop : s.workers.get? i = some .top) (hmax : 0 < cfg.opts.MaxURLs)
    (hroom : s.crawled < cfg.opts.MaxURLs) (hch : s.frontier.ch = url :: rest)
    (hurl : url ≠ []) (hrobots : cfg.allowed url = false) :
    exec cfg lib s (List.replicate 6 (.worker i .ok))
      = { s with frontier := { s.frontier with ch := rest, size := s.frontier.size - 1 } } := by
  have hset : ∀ (a b : Loc), (s.workers.set i a).set i b = s.workers.set i b :=
    fun a b => List.set_set a b s.workers i
  have hget : ∀ a : Loc, (s.workers.set i a).get? i = some a :=
    fun a => get_set_same s.workers i a .top htop
  have hnot : ¬ s.crawled ≥ cfg.opts.MaxURLs := not_le.mpr hroom
  simp only [exec, List.replicate, List.foldl_cons, List.foldl_nil, step, hphase, if_true,
    htop, workerStep, hmax, hget, hset, hnot, if_false, hch, hurl, hrobots, release,
    Bool.false_eq_true]
  rw [set_of_get s.workers i .top htop, Int.add_sub_cancel]

end crawler

namespace crawler

open dedup frontier

/-- C16 (robots gate).  In every run, under every schedule, a URL for which
`robots.IsAllowed` is false is never passed to the fetcher and no result is sent for it;
under a budget (`MaxURLs > 0`) the counter `crawled` is the number of calls of the fetcher
plus the slots that workers hold and have not yet spent on a call, so a skip leaves
nothing in it.  Step by step: a worker at the top of its loop that claims a slot and
pops a disallowed URL is back at the top after six steps, with the counter at its value
before the claim, the results and the calls made so far as before, and the URL gone
from the queue. -/
theorem disallowed_url_is_skipped {F : Type} (cfg : Config) (lib : Bloom F) :
    (∀ (emptyFilter : F) (schedule : List Action),
      (∀ u, cfg.allowed u = false →
        u ∉ fetches (runOf cfg lib emptyFilter schedule).log ∧
        ∀ r ∈ (runOf cfg lib emptyFilter schedule).results, r.URL ≠ u) ∧
      (0 < cfg.opts.MaxURLs →
        (runOf cfg lib emptyFilter schedule).crawled
          = ((fetches (runOf cfg lib emptyFilter schedule).log).length : Int)
            + ((runOf cfg lib emptyFilter schedule).workers.countP Loc.unspent : Int))) ∧
    (∀ (s : System F) (i : Nat) (url : Str) (rest : List Str),
      s.phase = .running → s.workers.get? i = some .top → 0 < cfg.opts.MaxURLs →
      s.crawled < cfg.opts.MaxURLs → s.frontier.ch = url :: rest → url ≠ [] →
      cfg.allowed url = false →
      exec cfg lib s (List.replicate 6 (.worker i .ok))
        = { s with frontier := { s.frontier with ch := rest,
                                                 size := s.frontier.size - 1 } }) := by
  refine ⟨fun emptyFilter schedule => ?_, fun s i url rest h1 h2 h3 h4 h5 h6 h7 =>
    skip_path cfg lib s i url rest h1 h2 h3 h4 h5 h6 h7⟩
  have inv := exec_robots cfg lib schedule (System.init cfg emptyFilter)
    (init_robots cfg emptyFilter)
  refine ⟨fun u hu => ⟨fun hmem => ?_, fun r hr heq => ?_⟩, inv.counted⟩
  · have := inv.fetched u hmem
    rw [hu] at this
    exact Bool.false_ne_true this
  · have := inv.sent r hr
    rw [heq, hu] at this
    exact Bool.false_ne_true this

/-- The seed of `robotsConfig` is disallowed: the worker claims the one slot, pops the
seed, skips it and leaves the counter at zero; nothing is fetched and no result is sent. -/
theorem disallowed_url_is_skipped_witness :
    "https://example.com/blocked/page".toList
        ∉ fetches (runOf robotsConfig exactFilter [] robotsSchedule).log ∧
    exec robotsConfig exactFilter robotsState (List.replicate 6 (.worker 0 .ok))
      = { robotsState with frontier := { robotsState.frontier with
            ch := [], size := robotsState.frontier.size - 1 } } ∧
    robotsState.crawled = 0 ∧
    (runOf robotsConfig exactFilter [] robotsSchedule).crawled = 0 ∧
    (runOf robotsConfig exactFilter [] robotsSchedule).results = [] ∧
    (runOf robotsConfig exactFilter [] robotsSchedule).workers = [.top] :=
  ⟨(((disallowed_url_is_skipped robotsConfig exactFilter).1 [] robotsSchedule).1
        "https://example.com/blocked/page".toList (by rfl)).1,
   (disallowed_url_is_skipped robotsConfig exactFilter).2 robotsState 0
      "https://example.com/blocked/page".toList [] (by rfl) (by rfl) (by decide) (by decide)
      (by rfl) (by decide) (by rfl),
   by rfl, by rfl, by rfl, by rfl⟩

end crawler

/-! ## The robots checker -/

namespace robots

open url

/-- After an exchange that gives no policy, `Fetch` returns nil, clears the policy and
leaves the other fields as they are. -/
theorem Fetch_of_unusable {R : Type} (lib : Library R) (c : Checker R) (baseURL : Str)
    (exchange : Exchange) (parsedURL : URL) (hbase : Parse baseURL = some parsedURL)
    (hrequest : Parse (robotsURL parsedURL) ≠ none)
    (hexchange : exchange.unusable lib = true) :
    c.Fetch lib baseURL exchange = (none, { c with data := none }) := by
  unfold Checker.Fetch
  rw [hbase]
  dsimp only
  cases hr : Parse (robotsURL parsedURL) with
  | none => exact absurd hr hrequest
  | some _ =>
    dsimp only
    cases exchange with
    | failed => rfl
    | response status body =>
      dsimp only
      by_cases hs : status ≠ 200
      · rw [if_pos hs]
      · rw [if_neg hs]
        cases body with
        | none => rfl
        | some bytes =>
          dsimp only
          have hparse : lib.FromBytes bytes = none := by
            simp only [Exchange.unusable, Bool.or_eq_true, decide_eq_true_eq,
              Option.isNone_iff_eq_none] at hexchange
            rcases hexchange with h | h
            · exact absurd h hs
            · exact h
          rw [hparse]

/-- C17 (robots best-effort), amended.  For a `Checker` in any state, a `Fetch` that gets
as far as the request for `robots.txt` and whose request fails, returns a status other
than 200, whose body read fails or whose body fails to parse returns nil; afterwards
`IsAllowed` returns true for every string, and `CrawlDelay()` returns what it returned
before the `Fetch`: zero for a `Checker` that has never stored a crawl delay. -/
theorem Fetch_failure_allows_all_and_keeps_delay {R : Type} (lib : Library R)
    (c : Checker R) (baseURL : Str) (exchange : Exchange) (parsedURL : URL)
    (hbase : Parse baseURL = some parsedURL)
    (hrequest : Parse (robotsURL parsedURL) ≠ none)
    (hexchange : exchange.unusable lib = true) :
    (c.Fetch lib baseURL exchange).1 = none ∧
    (∀ rawURL, (c.Fetch lib baseURL exchange).2.IsAllowed lib rawURL = true) ∧
    (c.Fetch lib baseURL exchange).2.CrawlDelay = c.CrawlDelay ∧
    (c.crawlDelay = 0 → (c.Fetch lib baseURL exchange).2.CrawlDelay = 0) := by
  rw [Fetch_of_unusable lib c baseURL exchange parsedURL hbase hrequest hexchange]
  refine ⟨rfl, fun rawURL => rfl, rfl, fun h => h⟩

/-- The test `TestChecker_NetworkError`: a new checker, the base URL
`http://localhost:99999`, and a request that fails. -/
theorem Fetch_failure_allows_all_and_keeps_delay_witness :
    ((NewChecker "GoCrawler".toList : Checker Unit).Fetch sampleLibrary
        "http://localhost:99999".toList .failed).1 = none ∧
    (∀ rawURL, ((NewChecker "GoCrawler".toList : Checker Unit).Fetch sampleLibrary
        "http://localhost:99999".toList .failed).2.IsAllowed sampleLibrary rawURL = true) ∧
    ((NewChecker "GoCrawler".toList : Checker Unit).Fetch sampleLibrary
        "http://localhost:99999".toList .failed).2.CrawlDelay = 0 :=
  have h := Fetch_failure_allows_all_and_keeps_delay sampleLibrary
    (NewChecker "GoCrawler".toList) "http://localhost:99999".toList .failed
    { Scheme := "http".toList, Host := "localhost:99999".toList } (by rfl)
    (by
      have hu : robotsURL { Scheme := "http".toList, Host := "localhost:99999".toList }
          = "http://localhost:99999/robots.txt".toList := by rfl
      have hp : Parse "http://localhost:99999/robots.txt".toList
          = some { Scheme := "http".toList, Host := "localhost:99999".toList,
                   Path := "/robots.txt".toList } := by rfl
      rw [hu, hp]
      exact Option.some_ne_none _)
    (by rfl)
  ⟨h.1, h.2.1, h.2.2.2 rfl⟩

/-- A crawl delay outlives a failed fetch: a new checker for `TestBot` fetches a
`robots.txt` with a crawl delay and stores five seconds; a second `Fetch` whose request
fails returns nil, and `CrawlDelay()` still returns five seconds, not zero. -/
theorem CrawlDelay_survives_failed_Fetch :
    ((NewChecker "TestBot".toList : Checker Unit).Fetch sampleLibrary
        "http://example.com".toList
        (.response 200 (some sampleBody))).2.CrawlDelay
      = 5000000000 ∧
    ((((NewChecker "TestBot".toList : Checker Unit).Fetch sampleLibrary
        "http://example.com".toList
        (.response 200 (some sampleBody))).2.Fetch
          sampleLibrary "http://example.com".toList .failed).1 = none) ∧
    (((NewChecker "TestBot".toList : Checker Unit).Fetch sampleLibrary
        "http://example.com".toList
        (.response 200 (some sampleBody))).2.Fetch
          sampleLibrary "http://example.com".toList .failed).2.CrawlDelay = 5000000000 := by
  have hb : Parse "http://example.com".toList
      = some { Scheme := "http".toList, Host := "example.com".toList } := by rfl
  have hu : robotsURL { Scheme := "http".toList, Host := "example.com".toList }
      = "http://example.com/robots.txt".toList := by rfl
  have hp : Parse "http://example.com/robots.txt".toList
      = some { Scheme := "http".toList, Host := "example.com".toList,
               Path := "/robots.txt".toList } := by rfl
  have hfetch : ∀ (c : Checker Unit) (exchange : Exchange),
      c.Fetch sampleLibrary "http://example.com".toList exchange
        = match exchange with
          | .failed => (none, { c with data := none })
          | .response status body =>
            if status ≠ 200 then (none, { c with data := none })
            else
              match body with
              | none => (none, { c with data := none })
              | some _ => (none, { c with data := some (), crawlDelay := 5000000000 }) := by
    intro c exchange
    unfold Checker.Fetch
    rw [hb]
    dsimp only
    rw [hu, hp]
    dsimp only
    cases exchange with
    | failed => rfl
    | response status body =>
      dsimp only
      split
      · rfl
      · cases body with
        | none => rfl
        | some bytes => rfl
  rw [hfetch, hfetch]
  refine ⟨rfl, rfl, rfl⟩

/-- C18 (`IsAllowed` on bad input), amended.  For every string that fails URL parsing,
`IsAllowed` returns false when a robots policy is installed and true when none is. -/
theorem IsAllowed_of_unparsable {R : Type} (lib : Library R) (c : Checker R) (rawURL : Str)
    (hparse : Parse rawURL = none) :
    (c.data = none → c.IsAllowed lib rawURL = true) ∧
    (∀ data, c.data = some data → c.IsAllowed lib rawURL = false) := by
  constructor
  · intro h
    simp only [Checker.IsAllowed, h]
  · intro data h
    simp only [Checker.IsAllowed, h, hparse]

/-- The string `http://example.com/%zz` has a bad escape and does not parse: a checker
with a policy disallows it. -/
theorem IsAllowed_of_unparsable_witness :
    Parse "http://example.com/%zz".toList = none ∧
    ({ data := some (), userAgent := "GoCrawler".toList, crawlDelay := 0 }
        : Checker Unit).IsAllowed sampleLibrary "http://example.com/%zz".toList = false :=
  ⟨by rfl,
   (IsAllowed_of_unparsable sampleLibrary
      { data := some (), userAgent := "GoCrawler".toList, crawlDelay := 0 }
      "http://example.com/%zz".toList (by rfl)).2 () rfl⟩

/-- Without a policy a string that does not parse is allowed: `http://example.com/%zz`
fails URL parsing, and a new checker, which has no policy, returns true for it. -/
theorem IsAllowed_without_policy_allows_unparsable :
    Parse "http://example.com/%zz".toList = none ∧
    (NewChecker "GoCrawler".toList : Checker Unit).IsAllowed sampleLibrary
      "http://example.com/%zz".toList = true := by
  exact ⟨by rfl, rfl⟩

end robots

/-! ## The redirect policy of the fetcher -/

namespace fetcher

open http

/-- On a redirect chain without end the client stops at its tenth request, whatever the
number of requests made before. -/
theorem doLoop_of_endless (t : Transport) (hchain : t.Endless) (n : Nat) :
    ∀ (reqs : List Str) (req : Str) (fuel : Nat), reqs.length + n = 9 → n + 1 ≤ fuel →
      ∃ (out : Outcome) (resp : Response) (last : Str),
        Client.doLoop CheckRedirect t fuel reqs req = some out ∧
        out.reqs.length = 10 ∧ (reqs ++ [req]).head? = out.reqs.head? ∧
        out.reqs.getLast? = some last ∧ t.send last = .ok resp ∧
        out.resp = some resp ∧ out.err = none := by
  induction n with
  | zero =>
    intro reqs req fuel hlen hfuel
    obtain ⟨fuel, rfl⟩ : ∃ k, fuel = k + 1 := ⟨fuel - 1, by omega⟩
    obtain ⟨resp, next, hsend, hredirect, hloc, hnext⟩ := hchain req
    refine ⟨{ reqs := reqs ++ [req], resp := some resp, err := none }, resp, req, ?_, ?_, rfl,
      ?_, hsend, rfl, rfl⟩
    · have hten : 9 ≤ reqs.length := by omega
      simp [Client.doLoop, hsend, hredirect, hloc, hnext, CheckRedirect, hten]
    · simp; omega
    · simp
  | succ n ih =>
    intro reqs req fuel hlen hfuel
    obtain ⟨fuel, rfl⟩ : ∃ k, fuel = k + 1 := ⟨fuel - 1, by omega⟩
    obtain ⟨resp, next, hsend, hredirect, hloc, hnext⟩ := hchain req
    obtain ⟨out, resp', last, hout, h1, h2, h3, h4, h5, h6⟩ :=
      ih (reqs ++ [req]) next fuel (by simp; omega) (by omega)
    refine ⟨out, resp', last, ?_, h1, ?_, h3, h4, h5, h6⟩
    · have hfew : ¬ 9 ≤ reqs.length := by omega
      simp [Client.doLoop, hsend, hredirect, hloc, hnext, CheckRedirect, hfew, hout]
    · rw [← h2]
      cases reqs <;> simp

end fetcher

namespace fetcher

open http

/-- C19 (redirect limit), amended.  The redirect policy of the `HTTPFetcher` lets the
n-th consecutive redirect be followed exactly when fewer than ten requests have been
made, that is for every n ≤ 9.  On every redirect chain that does not end before, the
client therefore makes ten requests, starting with the given one; at the tenth redirect
it stops and returns that redirect response unfollowed, without an error, ten turns of
its loop being enough. -/
theorem CheckRedirect_stops_at_the_tenth_redirect (t : Transport) (req : Str) (fuel : Nat)
    (hfuel : 10 ≤ fuel) (hchain : t.Endless) :
    (∀ (next : Str) (via : List Str),
      CheckRedirect next via = if via.length ≤ 9 then none else some .ErrUseLastResponse) ∧
    ∃ (out : Outcome) (resp : Response) (last : Str),
      Client.Do CheckRedirect t fuel req = some out ∧
      out.reqs.length = 10 ∧ out.reqs.head? = some req ∧
      out.reqs.getLast? = some last ∧ t.send last = .ok resp ∧
      redirectBehavior resp = true ∧ out.resp = some resp ∧ out.err = none := by
  constructor
  · intro next via
    unfold CheckRedirect
    by_cases h : via.length ≤ 9
    · rw [if_pos h, if_neg (by omega)]
    · rw [if_neg h, if_pos (by omega)]
  · obtain ⟨out, resp, last, hout, h1, h2, h3, h4, h5, h6⟩ :=
      doLoop_of_endless t hchain 9 [] req fuel rfl (by omega)
    obtain ⟨resp', _, hsend, hredirect, _, _⟩ := hchain last
    have hsame : resp' = resp := by
      rw [hsend] at h4
      exact Except.ok.inj h4
    refine ⟨out, resp, last, hout, h1, ?_, h3, h4, hsame ▸ hredirect, h5, h6⟩
    rw [← h2]
    rfl

/-- A server that always answers `302 Found`: the client makes ten requests and returns
the tenth response. -/
theorem CheckRedirect_stops_at_the_tenth_redirect_witness :
    ∃ (out : Outcome) (resp : Response) (last : Str),
      Client.Do CheckRedirect loopTransport 10 "https://example.com/".toList = some out ∧
      out.reqs.length = 10 ∧ out.reqs.head? = some "https://example.com/".toList ∧
      out.reqs.getLast? = some last ∧ loopTransport.send last = .ok resp ∧
      redirectBehavior resp = true ∧ out.resp = some resp ∧ out.err = none :=
  (CheckRedirect_stops_at_the_tenth_redirect loopTransport "https://example.com/".toList 10
    (by decide)
    (fun _ => ⟨{ StatusCode := 302, Location := "/next".toList },
      "https://example.com/next".toList, rfl, by decide, by decide, rfl⟩)).2

/-- The tenth redirect is not followed: when ten requests have been made the policy
answers `ErrUseLastResponse`, and on the server that always redirects the client
returns after ten requests, nine redirects followed, without an error. -/
theorem CheckRedirect_refuses_the_tenth_redirect :
    CheckRedirect "https://example.com/next".toList
        (List.replicate 10 "https://example.com/next".toList)
      = some .ErrUseLastResponse ∧
    (Client.Do CheckRedirect loopTransport 11 "https://example.com/".toList).map
        (fun out => (out.reqs.length, out.err)) = some (10, none) := by
  constructor
  · rfl
  · rfl

end fetcher

/-! ## Fetch failures in `crawlURL` -/

namespace crawler

/-- The text that `fmt.Errorf("HTTP %d", code)` gives is `HTTP ` followed by the decimal
form of the code. -/
theorem httpErrorText_eq (code : Int) :
    httpErrorText code = "HTTP ".toList ++ (toString code).toList := by
  cases code with
  | ofNat n =>
    have hnot : ¬ (n : Int) < 0 := by omega
    have hstr : (toString (Int.ofNat n)).toList = Nat.toDigits 10 n := by
      show (toString n).toList = _
      simp only [toString, Nat.repr, String.toList]
      rfl
    rw [hstr]
    simp only [httpErrorText, natDigits, Int.ofNat_eq_coe, Int.natAbs_ofNat, if_neg hnot]
  | negSucc n =>
    have hneg : Int.negSucc n < 0 := Int.negSucc_lt_zero n
    have hstr : (toString (Int.negSucc n)).toList = '-' :: Nat.toDigits 10 (n + 1) := by
      show ("-" ++ toString (n + 1)).toList = _
      simp [toString, Nat.repr]
      rfl
    rw [hstr]
    simp only [httpErrorText, natDigits, if_pos hneg, Int.natAbs_negSucc, Nat.succ_eq_add_one]

/-- C20 (fetch failures become error results).  For every URL and every state of the
deduplicator and the frontier: when the fetcher returns a transport error, `crawlURL`
returns a result with that error; when it returns no error and a status code outside
200..299, `crawlURL` returns a result whose error text is `HTTP <code>`.  In both cases
`Links`, `SameHost` and `External` are empty, the deduplicator and the frontier are as
before, and the outcome does not depend on the parser or on any other collaborator. -/
theorem crawlURL_fetch_failure_is_error_result {D Q : Type} (deps : Deps D Q)
    (baseURL : Str) (dedup : D) (frontier : Q) (url : Str) (fetched : FetchResult) :
    (∀ err, fetched.Error = some err →
      crawlURL deps baseURL dedup frontier url fetched
        = { result := { URL := url, Links := [], SameHost := [], External := [],
                        Error := some err },
            dedup := dedup, frontier := frontier }) ∧
    (fetched.Error = none → fetched.StatusCode < 200 ∨ fetched.StatusCode > 299 →
      crawlURL deps baseURL dedup frontier url fetched
        = { result := { URL := url, Links := [], SameHost := [], External := [],
                        Error := some ("HTTP ".toList ++ (toString fetched.StatusCode).toList) },
            dedup := dedup, frontier := frontier }) ∧
    ((fetched.Error ≠ none ∨ fetched.StatusCode < 200 ∨ fetched.StatusCode > 299) →
      ∀ other : Deps D Q,
        crawlURL other baseURL dedup frontier url fetched
          = crawlURL deps baseURL dedup frontier url fetched) := by
  have herr : ∀ (d : Deps D Q) err, fetched.Error = some err →
      crawlURL d baseURL dedup frontier url fetched
        = { result := { URL := url, Error := some err }, dedup := dedup,
            frontier := frontier } := by
    intro d err h
    simp only [crawlURL, h]
  have hstatus : ∀ d : Deps D Q, fetched.Error = none →
      fetched.StatusCode < 200 ∨ fetched.StatusCode > 299 →
      crawlURL d baseURL dedup frontier url fetched
        = { result := { URL := url, Error := some (httpErrorText fetched.StatusCode) },
            dedup := dedup, frontier := frontier } := by
    intro d h hcode
    have hcode' : fetched.StatusCode < 200 ∨ fetched.StatusCode ≥ 300 := by omega
    simp only [crawlURL, h, if_pos hcode']
  refine ⟨fun err h => herr deps err h, fun h hcode => ?_, fun h other => ?_⟩
  · rw [hstatus deps h hcode, httpErrorText_eq]
  · cases hE : fetched.Error with
    | some err => rw [herr deps err hE, herr other err hE]
    | none =>
      have hcode : fetched.StatusCode < 200 ∨ fetched.StatusCode > 299 := by
        rcases h with h | h
        · exact absurd hE h
        · exact h
      rw [hstatus deps hE hcode, hstatus other hE hcode]

/-- A transport error and the status 404 that the mock fetcher returns for an unknown URL. -/
theorem crawlURL_fetch_failure_is_error_result_witness :
    crawlURL witnessDeps "https://example.com/".toList () () "https://example.com/a".toList
        { URL := "https://example.com/a".toList, StatusCode := 0, Body := [],
          ContentType := [], Error := some "connection refused".toList }
      = { result := { URL := "https://example.com/a".toList, Links := [], SameHost := [],
                      External := [], Error := some "connection refused".toList },
          dedup := (), frontier := () } ∧
    crawlURL witnessDeps "https://example.com/".toList () () "https://example.com/a".toList
        { URL := "https://example.com/a".toList, StatusCode := 404, Body := [],
          ContentType := [], Error := none }
      = { result := { URL := "https://example.com/a".toList, Links := [], SameHost := [],
                      External := [],
                      Error := some ("HTTP ".toList ++ (toString (404 : Int)).toList) },
          dedup := (), frontier := () } ∧
    "HTTP ".toList ++ (toString (404 : Int)).toList = "HTTP 404".toList :=
  ⟨(crawlURL_fetch_failure_is_error_result witnessDeps "https://example.com/".toList () ()
      "https://example.com/a".toList
      { URL := "https://example.com/a".toList, StatusCode := 0, Body := [],
        ContentType := [], Error := some "connection refused".toList }).1
      "connection refused".toList rfl,
   (crawlURL_fetch_failure_is_error_result witnessDeps "https://example.com/".toList () ()
      "https://example.com/a".toList
      { URL := "https://example.com/a".toList, StatusCode := 404, Body := [],
        ContentType := [], Error := none }).2.1 rfl (Or.inr (by decide)),
   by decide⟩

end crawler

/-! ## What `CrawledCount` reports -/

namespace crawler

open dedup frontier

theorem workerStep_unlimited {F : Type} (cfg : Config) (lib : Bloom F) (choice : Choice)
    (s s' : System F) (loc loc' : Loc) (hmax : cfg.opts.MaxURLs ≤ 0)
    (h : workerStep cfg lib choice s loc = some (s', loc'))
    (hloc : ∀ current, loc ≠ .loaded current) :
    s'.workers = s.workers ∧ s'.crawled = s.crawled ∧ ∀ current, loc' ≠ .loaded current := by
  have hnot : ¬ 0 < cfg.opts.MaxURLs := by omega
  rcases loc with _ | _ | _ | _ | _ | _ | _ | _ | _ | ⟨_, _ | _⟩ | _ | _ | _ | _
  all_goals simp only [workerStep, release, hnot, if_false] at h
  all_goals repeat' split at h
  all_goals first
    | (simp only [reduceCtorEq] at h)
    | (exact absurd rfl (hloc _))
    | (simp only [Option.some.injEq, Prod.mk.injEq] at h
       obtain ⟨rfl, rfl⟩ := h
       simp)

theorem step_unlimited {F : Type} (cfg : Config) (lib : Bloom F) (s : System F) (a : Action)
    (hmax : cfg.opts.MaxURLs ≤ 0) (inv : UnlimitedInv s) :
    UnlimitedInv (step cfg lib s a) := by
  cases a with
  | cancel => simp only [step]; split <;> exact ⟨inv.zero, inv.unloaded⟩
  | deadline => simp only [step]; split <;> exact ⟨inv.zero, inv.unloaded⟩
  | main choice =>
    simp only [step]
    cases hm : mainStep cfg lib choice s with
    | none => exact inv
    | some s' =>
      obtain ⟨hw, _, hc, _⟩ := mainStep_robots cfg lib choice s s' hm
      exact ⟨by simpa [hc] using inv.zero, by simpa [hw] using inv.unloaded⟩
  | worker i choice =>
    simp only [step]
    split
    · cases hg : s.workers.get? i with
      | none => exact inv
      | some loc =>
        dsimp only
        cases hw : workerStep cfg lib choice s loc with
        | none => exact inv
        | some p =>
          obtain ⟨s', loc'⟩ := p
          dsimp only
          obtain ⟨hws, hc, hnext⟩ := workerStep_unlimited cfg lib choice s s' loc loc' hmax hw
            (inv.unloaded loc (List.get?_mem hg))
          refine ⟨by rw [hc]; exact inv.zero, ?_⟩
          intro w hwm current
          rcases mem_of_mem_set _ _ _ _ hwm with h | rfl
          · exact inv.unloaded w (hws ▸ h) current
          · exact hnext current
    · exact inv

theorem exec_unlimited {F : Type} (cfg : Config) (lib : Bloom F) (schedule : List Action)
    (s : System F) (hmax : cfg.opts.MaxURLs ≤ 0) (inv : UnlimitedInv s) :
    UnlimitedInv (exec cfg lib s schedule) := by
  induction schedule generalizing s with
  | nil => exact inv
  | cons a rest ih => exact ih (step cfg lib s a) (step_unlimited cfg lib s a hmax inv)

theorem init_unlimited {F : Type} (cfg : Config) (emptyFilter : F) :
    UnlimitedInv (System.init cfg emptyFilter) := by
  refine ⟨rfl, ?_⟩
  intro loc hloc current
  simp only [System.init] at hloc
  rw [List.eq_of_mem_replicate hloc]
  simp

end crawler

namespace crawler

open dedup frontier

theorem workerStep_delivered {F : Type} (cfg : Config) (lib : Bloom F) (choice : Choice)
    (s s' : System F) (loc loc' : Loc)
    (h : workerStep cfg lib choice s loc = some (s', loc')) :
    s'.workers = s.workers ∧ s'.ctx = s.ctx ∧ s'.phase = s.phase ∧
    (s.ctx = .active →
      (fetches s'.log).length + s.results.length + (if loc.afterFetch then 1 else 0)
        = (fetches s.log).length + s'.results.length + (if loc'.afterFetch then 1 else 0)) := by
  rcases loc with _ | _ | _ | _ | _ | _ | _ | _ | _ | ⟨_, _ | _⟩ | _ | _ | _ | _
  all_goals simp only [workerStep, release] at h
  all_goals repeat' split at h
  all_goals first
    | (simp only [reduceCtorEq] at h)
    | (simp only [Option.some.injEq, Prod.mk.injEq] at h
       obtain ⟨rfl, rfl⟩ := h
       simp only [Loc.afterFetch, fetches]
       simp_all
       first
         | omega
         | skip)

theorem mainStep_delivered {F : Type} (cfg : Config) (lib : Bloom F) (choice : Choice)
    (s s' : System F) (h : mainStep cfg lib choice s = some s') :
    s'.ctx = s.ctx ∧
    (s'.phase = .finished → s.ctx = .active → ∀ loc ∈ s.workers, loc = .exited) := by
  simp only [mainStep] at h
  repeat' split at h
  all_goals first
    | (simp only [reduceCtorEq] at h)
    | (simp only [Option.some.injEq] at h
       subst h
       simp_all
       first
         | (intro _; assumption)
         | skip)

end crawler

namespace crawler

open dedup frontier

theorem step_delivered {F : Type} (cfg : Config) (lib : Bloom F) (s : System F) (a : Action)
    (inv : DeliveredInv s) : DeliveredInv (step cfg lib s a) := by
  cases a with
  | cancel =>
    simp only [step]
    split
    · exact ⟨fun h => by simp at h, fun _ h => by simp at h⟩
    · exact inv
  | deadline =>
    simp only [step]
    split
    · exact ⟨fun h => by simp at h, fun _ h => by simp at h⟩
    · exact inv
  | main choice =>
    simp only [step]
    cases hm : mainStep cfg lib choice s with
    | none => exact inv
    | some s' =>
      obtain ⟨hw, hr, _, hf⟩ := mainStep_robots cfg lib choice s s' hm
      obtain ⟨hctx, hend⟩ := mainStep_delivered cfg lib choice s s' hm
      simp only [Option.getD_some]
      refine ⟨fun h => ?_, fun hp h => ?_⟩
      · rw [hf, hr, hw]
        exact inv.delivered (hctx ▸ h)
      · rw [hw]
        exact hend hp (hctx ▸ h)
  | worker i choice =>
    simp only [step]
    split
    · rename_i hrun
      cases hg : s.workers.get? i with
      | none => exact inv
      | some loc =>
        dsimp only
        cases hw : workerStep cfg lib choice s loc with
        | none => exact inv
        | some p =>
          obtain ⟨s', loc'⟩ := p
          dsimp only
          obtain ⟨hws, hctx, hphase, hdelta⟩ :=
            workerStep_delivered cfg lib choice s s' loc loc' hw
          refine ⟨fun h => ?_, fun hp _ => ?_⟩
          · have hactive : s.ctx = .active := hctx ▸ h
            have h1 := inv.delivered hactive
            have h2 := hdelta hactive
            have hcount := countP_set_add Loc.afterFetch s.workers i loc' loc hg
            simp only [hws]
            omega
          · rw [hphase, hrun] at hp
            simp at hp
    · exact inv

theorem exec_delivered {F : Type} (cfg : Config) (lib : Bloom F) (schedule : List Action)
    (s : System F) (inv : DeliveredInv s) : DeliveredInv (exec cfg lib s schedule) := by
  induction schedule generalizing s with
  | nil => exact inv
  | cons a rest ih => exact ih (step cfg lib s a) (step_delivered cfg lib s a inv)

theorem init_delivered {F : Type} (cfg : Config) (emptyFilter : F) :
    DeliveredInv (System.init cfg emptyFilter) := by
  refine ⟨fun _ => ?_, fun h => ?_⟩
  · simp [System.init, fetches, List.countP_replicate, Loc.afterFetch]
  · simp [System.init] at h

/-- Under a budget, when a run has ended and the context was never cancelled,
`CrawledCount()` is the number of results sent. -/
theorem CrawledCount_eq_results_under_budget {F : Type} (cfg : Config) (lib : Bloom F)
    (emptyFilter : F) (schedule : List Action) (hmax : 0 < cfg.opts.MaxURLs)
    (hended : (runOf cfg lib emptyFilter schedule).phase = .finished)
    (hctx : (runOf cfg lib emptyFilter schedule).ctx = .active) :
    (runOf cfg lib emptyFilter schedule).CrawledCount
      = ((runOf cfg lib emptyFilter schedule).results.length : Int) := by
  have hcounted := (exec_robots cfg lib schedule (System.init cfg emptyFilter)
    (init_robots cfg emptyFilter)).counted hmax
  have inv := exec_delivered cfg lib schedule (System.init cfg emptyFilter)
    (init_delivered cfg emptyFilter)
  have hall := inv.ended hended hctx
  have hdel := inv.delivered hctx
  have h1 : (runOf cfg lib emptyFilter schedule).workers.countP Loc.unspent = 0 := by
    rw [List.countP_eq_zero]
    intro loc hloc
    rw [hall loc hloc]
    simp [Loc.unspent]
  have h2 : (runOf cfg lib emptyFilter schedule).workers.countP Loc.afterFetch = 0 := by
    rw [List.countP_eq_zero]
    intro loc hloc
    rw [hall loc hloc]
    simp [Loc.afterFetch]
  unfold runOf at *
  simp only [System.CrawledCount]
  omega

/-- C21 (`CrawledCount` reports the crawl total), where the code departs from it.
Without a budget (`MaxURLs ≤ 0`, so for the default `MaxURLs == 0`) no step of a run
touches the counter: in every state of every run `CrawledCount()` is zero, whatever the
number of results sent. -/
theorem CrawledCount_is_zero_without_budget {F : Type} (cfg : Config) (lib : Bloom F)
    (emptyFilter : F) (schedule : List Action) (hmax : cfg.opts.MaxURLs ≤ 0) :
    (runOf cfg lib emptyFilter schedule).CrawledCount = 0 :=
  (exec_unlimited cfg lib schedule (System.init cfg emptyFilter) hmax
    (init_unlimited cfg emptyFilter)).zero

/-- The default options with one worker: the seed is crawled and its result sent, the
run ends without cancellation and the result channel is closed; `CrawledCount()` is
zero although one result was sent. -/
theorem CrawledCount_is_zero_without_budget_witness :
    unlimitedConfig.opts.MaxURLs = 0 ∧
    (runOf unlimitedConfig exactFilter [] unlimitedSchedule).CrawledCount = 0 ∧
    (runOf unlimitedConfig exactFilter [] unlimitedSchedule).results.length = 1 ∧
    (runOf unlimitedConfig exactFilter [] unlimitedSchedule).phase = .finished ∧
    (runOf unlimitedConfig exactFilter [] unlimitedSchedule).resultsClosed = true ∧
    (runOf unlimitedConfig exactFilter [] unlimitedSchedule).ctx = .active ∧
    (runOf unlimitedConfig exactFilter [] unlimitedSchedule).workers = [.exited] :=
  ⟨rfl,
   CrawledCount_is_zero_without_budget unlimitedConfig exactFilter [] unlimitedSchedule
     (by decide),
   by rfl, by rfl, by rfl, by rfl, by rfl⟩

end crawler

/-! ## The bounds of the counter -/

namespace crawler

open dedup frontier

/-- What one step of a worker does to the counter and to the queue, under a budget: it
leaves the counter alone, or claims a slot, or gives its slot back; and it takes an item
from the queue only at a place where it holds a slot. -/
theorem workerStep_slot {F : Type} (cfg : Config) (lib : Bloom F) (choice : Choice)
    (s s' : System F) (loc loc' : Loc) (hmax : 0 < cfg.opts.MaxURLs)
    (h : workerStep cfg lib choice s loc = some (s', loc')) :
    ((s'.crawled = s.crawled ∧ (loc.holdsSlot = false → loc'.holdsSlot = false)) ∨
      (s'.crawled = s.crawled + 1 ∧ loc.holdsSlot = false ∧ loc'.holdsSlot = true) ∨
      (s'.crawled = s.crawled - 1 ∧ loc.holdsSlot = true ∧ loc'.holdsSlot = false)) ∧
    (s'.frontier.ch.length < s.frontier.ch.length → loc.holdsSlot = true) := by
  rcases loc with _ | _ | _ | _ | _ | _ | _ | _ | _ | ⟨_, _ | _⟩ | _ | _ | _ | _
  all_goals simp only [workerStep, release, hmax, if_true] at h
  all_goals repeat' split at h
  all_goals first
    | (simp only [reduceCtorEq] at h)
    | (simp only [Option.some.injEq, Prod.mk.injEq] at h
       obtain ⟨rfl, rfl⟩ := h
       simp [Loc.holdsSlot]
       first
         | omega
         | skip)

end crawler

namespace crawler

open dedup frontier

/-- C22 (counter bounds).  In a run with `MaxURLs > 0`, in every state that a schedule of
the steps of the goroutines reaches, `0 ≤ crawled ≤ MaxURLs`, and the counter covers the
results sent and the slots that workers hold.  A step of a worker lowers the counter
only by one and only at a place where the worker holds a slot, which it gives up with
the step; a worker comes to hold a slot only by the step that raises the counter by one,
its claim; and a worker takes an item from the queue only while it holds a slot. -/
theorem crawled_stays_within_bounds {F : Type} (cfg : Config) (lib : Bloom F)
    (hmax : 0 < cfg.opts.MaxURLs) :
    (∀ (emptyFilter : F) (schedule : List Action),
      0 ≤ (runOf cfg lib emptyFilter schedule).crawled ∧
      (runOf cfg lib emptyFilter schedule).crawled ≤ cfg.opts.MaxURLs ∧
      ((runOf cfg lib emptyFilter schedule).results.length : Int)
        + ((runOf cfg lib emptyFilter schedule).workers.countP Loc.holdsSlot : Int)
        ≤ (runOf cfg lib emptyFilter schedule).crawled) ∧
    (∀ (choice : Choice) (s s' : System F) (loc loc' : Loc),
      workerStep cfg lib choice s loc = some (s', loc') →
      ((s'.crawled = s.crawled ∧ (loc.holdsSlot = false → loc'.holdsSlot = false)) ∨
        (s'.crawled = s.crawled + 1 ∧ loc.holdsSlot = false ∧ loc'.holdsSlot = true) ∨
        (s'.crawled = s.crawled - 1 ∧ loc.holdsSlot = true ∧ loc'.holdsSlot = false)) ∧
      (s'.frontier.ch.length < s.frontier.ch.length → loc.holdsSlot = true)) := by
  refine ⟨fun emptyFilter schedule => ?_, fun choice s s' loc loc' h =>
    workerStep_slot cfg lib choice s s' loc loc' hmax h⟩
  have inv := exec_budget cfg lib schedule (System.init cfg emptyFilter) hmax
    (init_budget cfg emptyFilter hmax)
  have h1 := inv.claimed
  have h2 := inv.capped
  unfold runOf
  refine ⟨?_, h2, h1⟩
  omega

/-- Two workers and a budget of one URL: after worker 0 has claimed the slot and popped
the seed, and worker 1 has found the budget used up, the counter is one; the claim of a
worker that has loaded the value zero is a step that raises the counter by one. -/
theorem crawled_stays_within_bounds_witness :
    (0 ≤ (runOf budgetConfig exactFilter [] claimSchedule).crawled ∧
      (runOf budgetConfig exactFilter [] claimSchedule).crawled ≤ budgetConfig.opts.MaxURLs ∧
      ((runOf budgetConfig exactFilter [] claimSchedule).results.length : Int)
        + ((runOf budgetConfig exactFilter [] claimSchedule).workers.countP Loc.holdsSlot : Int)
        ≤ (runOf budgetConfig exactFilter [] claimSchedule).crawled) ∧
    (runOf budgetConfig exactFilter [] claimSchedule).crawled = 1 ∧
    (runOf budgetConfig exactFilter [] claimSchedule).workers
      = [.robots "https://example.com/".toList, .exited] ∧
    ((claimAfter.crawled = claimBefore.crawled ∧
        ((Loc.loaded 0).holdsSlot = false → Loc.pop.holdsSlot = false)) ∨
      (claimAfter.crawled = claimBefore.crawled + 1 ∧ (Loc.loaded 0).holdsSlot = false ∧
        Loc.pop.holdsSlot = true) ∨
      (claimAfter.crawled = claimBefore.crawled - 1 ∧ (Loc.loaded 0).holdsSlot = true ∧
        Loc.pop.holdsSlot = false)) :=
  ⟨(crawled_stays_within_bounds budgetConfig exactFilter (by decide)).1 [] claimSchedule,
   by rfl, by rfl,
   ((crawled_stays_within_bounds budgetConfig exactFilter (by decide)).2 .ok claimBefore
      claimAfter (.loaded 0) .pop (by rfl)).1⟩

end crawler

/-! ## The frontier is covered by the deduplicator -/

namespace crawler

open dedup frontier

/-- A step that leaves the log as it is or adds one call to it keeps the invariant, when
a `Push` it adds is for a URL passed to `SeenOrAdd` before, and what is new in the queue,
among the pending links and as seed to push has been passed to `SeenOrAdd`. -/
theorem CoveredInv.step {F : Type} {cfg : Config} {s t : System F} (inv : CoveredInv cfg s)
    (hlog : t.log = s.log ∨ ∃ e, t.log = e :: s.log ∧
      ∀ u, ((∃ ok, e = Event.pushSeed u ok) ∨ (∃ ok, e = Event.pushLink u ok)) →
        ∃ seen, Event.seenOrAdd u seen ∈ s.log)
    (hch : ∀ u ∈ t.frontier.ch, u ∈ s.frontier.ch ∨ ∃ seen, Event.seenOrAdd u seen ∈ t.log)
    (hpend : ∀ loc ∈ t.workers, ∀ u, loc.pending = some u →
      loc ∈ s.workers ∨ ∃ seen, Event.seenOrAdd u seen ∈ t.log)
    (hseed : t.phase = .seeded →
      s.phase = .seeded ∨ ∃ seen, Event.seenOrAdd cfg.baseURL seen ∈ t.log) :
    CoveredInv cfg t := by
  have hmono : ∀ u seen, Event.seenOrAdd u seen ∈ s.log → Event.seenOrAdd u seen ∈ t.log := by
    intro u seen h
    rcases hlog with h1 | ⟨e, h1, _⟩
    · rw [h1]; exact h
    · rw [h1]; exact List.mem_cons_of_mem _ h
  refine ⟨?_, ?_, ?_, ?_⟩
  · intro u hu
    rcases hch u hu with h | h
    · obtain ⟨seen, hs⟩ := inv.queued u h
      exact ⟨seen, hmono u seen hs⟩
    · exact h
  · intro loc hloc u hu
    rcases hpend loc hloc u hu with h | h
    · obtain ⟨seen, hs⟩ := inv.pending loc h u hu
      exact ⟨seen, hmono u seen hs⟩
    · exact h
  · intro hp
    rcases hseed hp with h | h
    · obtain ⟨seen, hs⟩ := inv.seed h
      exact ⟨seen, hmono _ seen hs⟩
    · exact h
  · intro newer older u hdec
    rcases hlog with h1 | ⟨e, h1, hpush⟩
    · rw [h1] at hdec
      exact inv.ordered newer older u hdec
    · rw [h1] at hdec
      cases newer with
      | nil =>
        simp only [List.nil_append, List.cons.injEq] at hdec
        have hold : older = s.log := by
          rcases hdec with ⟨_, _, h⟩ | ⟨_, _, h⟩ <;> exact h.symm
        rw [hold]
        apply hpush u
        rcases hdec with ⟨ok, h, _⟩ | ⟨ok, h, _⟩
        · exact Or.inl ⟨ok, h⟩
        · exact Or.inr ⟨ok, h⟩
      | cons e' newer' =>
        simp only [List.cons_append, List.cons.injEq] at hdec
        apply inv.ordered newer' older u
        rcases hdec with ⟨ok, _, h⟩ | ⟨ok, _, h⟩
        · exact Or.inl ⟨ok, h⟩
        · exact Or.inr ⟨ok, h⟩

end crawler

namespace crawler

open dedup frontier

theorem step_covered {F : Type} (cfg : Config) (lib : Bloom F) (s : System F) (a : Action)
    (inv : CoveredInv cfg s) : CoveredInv cfg (step cfg lib s a) := by
  cases a with
  | cancel =>
    simp only [step]
    split
    · exact ⟨inv.queued, inv.pending, inv.seed, inv.ordered⟩
    · exact inv
  | deadline =>
    simp only [step]
    split
    · exact ⟨inv.queued, inv.pending, inv.seed, inv.ordered⟩
    · exact inv
  | main choice =>
    simp only [step]
    cases hm : mainStep cfg lib choice s with
    | none => exact inv
    | some s' =>
      obtain ⟨hw, hk⟩ := mainStep_kinds cfg lib choice s s' hm
      simp only [Option.getD_some]
      rcases hk with ⟨_, _, hlog, _, hch⟩ | ⟨ok, hs, ht, hlog, _, hch⟩ |
        ⟨_, ht, hlog, _, hch⟩
      · refine inv.step (Or.inr ⟨_, hlog, ?_⟩) (fun u hu => Or.inl (hch ▸ hu))
          (fun loc hloc _ _ => Or.inl (hw ▸ hloc))
          (fun _ => Or.inr ⟨_, by rw [hlog]; exact List.mem_cons_self _ _⟩)
        intro u hu
        rcases hu with ⟨ok, h⟩ | ⟨ok, h⟩ <;> simp at h
      · have hbase := inv.seed hs
        refine inv.step (Or.inr ⟨_, hlog, ?_⟩) ?_ (fun loc hloc _ _ => Or.inl (hw ▸ hloc)) ?_
        · intro u hu
          rcases hu with ⟨ok', h⟩ | ⟨ok', h⟩
          · simp only [Event.pushSeed.injEq] at h
            rw [← h.1]
            exact hbase
          · simp at h
        · intro u hu
          rw [hch] at hu
          cases ok with
          | false => exact Or.inl (by simpa using hu)
          | true =>
            simp only [if_true, List.mem_append, List.mem_singleton] at hu
            rcases hu with h | h
            · exact Or.inl h
            · obtain ⟨seen, hseen⟩ := hbase
              exact Or.inr ⟨seen, by rw [hlog, h]; exact List.mem_cons_of_mem _ hseen⟩
        · intro hp
          rw [ht] at hp
          cases ok <;> simp at hp
      · refine inv.step (Or.inl hlog) (fun u hu => Or.inl (hch ▸ hu))
          (fun loc hloc _ _ => Or.inl (hw ▸ hloc)) ?_
        intro hp
        rw [ht] at hp
        simp at hp
  | worker i choice =>
    simp only [step]
    split
    · rename_i hrun
      cases hg : s.workers.get? i with
      | none => exact inv
      | some loc =>
        dsimp only
        cases hw : workerStep cfg lib choice s loc with
        | none => exact inv
        | some p =>
          obtain ⟨s', loc'⟩ := p
          dsimp only
          obtain ⟨hws, hphase, hk⟩ := workerStep_kinds cfg lib choice s s' loc loc' hw
          have hseed : s'.phase = .seeded →
              s.phase = .seeded ∨ ∃ seen, Event.seenOrAdd cfg.baseURL seen ∈ s'.log := by
            intro hp
            rw [hphase, hrun] at hp
            simp at hp
          have hpend : (∀ u, loc'.pending = some u →
                ∃ seen, Event.seenOrAdd u seen ∈ s'.log) →
              ∀ w ∈ s'.workers.set i loc', ∀ u, w.pending = some u →
                w ∈ s.workers ∨ ∃ seen, Event.seenOrAdd u seen ∈ s'.log := by
            intro hnew w hwm u hu
            rcases mem_of_mem_set _ _ _ _ hwm with h | rfl
            · exact Or.inl (hws ▸ h)
            · exact Or.inr (hnew u hu)
          rcases hk with ⟨hlog, _, hch, _, hp', _⟩ | ⟨u0, hch, hlog, _, _, hp', _⟩ |
            ⟨link, hlog, _, hch, _, hp', _⟩ | ⟨link, ok, hp, hp', hlog, _, hch, _⟩ |
            ⟨u0, _, _, hlog, _, hch, _, hp'⟩
          · exact inv.step (Or.inl hlog) (fun u hu => Or.inl (hch ▸ hu))
              (hpend (fun u hu => by rw [hp'] at hu; simp at hu)) hseed
          · exact inv.step (Or.inl hlog)
              (fun u hu => Or.inl (by rw [hch]; exact List.mem_cons_of_mem _ hu))
              (hpend (fun u hu => by rw [hp'] at hu; simp at hu)) hseed
          · refine inv.step (Or.inr ⟨_, hlog, ?_⟩) (fun u hu => Or.inl (hch ▸ hu))
              (hpend (fun u hu => ?_)) hseed
            · intro u hu
              rcases hu with ⟨ok, h⟩ | ⟨ok, h⟩ <;> simp at h
            · rw [hp'] at hu
              split at hu
              · simp at hu
              · simp only [Option.some.injEq] at hu
                exact ⟨(s.dedup.SeenOrAdd lib link).1, by
                  rw [hlog, hu]; exact List.mem_cons_self _ _⟩
          · have hlink := inv.pending loc (List.get?_mem hg) link hp
            refine inv.step (Or.inr ⟨_, hlog, ?_⟩) ?_
              (hpend (fun u hu => by rw [hp'] at hu; simp at hu)) hseed
            · intro u hu
              rcases hu with ⟨ok', h⟩ | ⟨ok', h⟩
              · simp at h
              · simp only [Event.pushLink.injEq] at h
                rw [← h.1]
                exact hlink
            · intro u hu
              rw [hch] at hu
              cases ok with
              | false => exact Or.inl (by simpa using hu)
              | true =>
                simp only [if_true, List.mem_append, List.mem_singleton] at hu
                rcases hu with h | h
                · exact Or.inl h
                · obtain ⟨seen, hseen⟩ := hlink
                  exact Or.inr ⟨seen, by rw [hlog, h]; exact List.mem_cons_of_mem _ hseen⟩
          · refine inv.step (Or.inr ⟨_, hlog, ?_⟩) (fun u hu => Or.inl (hch ▸ hu))
              (hpend (fun u hu => by rw [hp'] at hu; simp at hu)) hseed
            intro u hu
            rcases hu with ⟨ok, h⟩ | ⟨ok, h⟩ <;> simp at h
    · exact inv

theorem exec_covered {F : Type} (cfg : Config) (lib : Bloom F) (schedule : List Action)
    (s : System F) (inv : CoveredInv cfg s) : CoveredInv cfg (exec cfg lib s schedule) := by
  induction schedule generalizing s with
  | nil => exact inv
  | cons a rest ih => exact ih (step cfg lib s a) (step_covered cfg lib s a inv)

theorem init_covered {F : Type} (cfg : Config) (emptyFilter : F) :
    CoveredInv cfg (System.init cfg emptyFilter) := by
  refine ⟨?_, ?_, ?_, ?_⟩
  · intro u hu
    simp [System.init, NewMemoryFrontier] at hu
  · intro loc hloc u hu
    simp only [System.init] at hloc
    rw [List.eq_of_mem_replicate hloc] at hu
    simp [Loc.pending] at hu
  · intro hp
    simp [System.init] at hp
  · intro newer older u hdec
    rcases hdec with ⟨ok, h⟩ | ⟨ok, h⟩ <;> simp [System.init] at h

end crawler

/-! ## The exit of a worker when the frontier has drained -/

namespace crawler

open dedup frontier

/-- After a pop that gave the empty string, the worker reads `Size()`, releases its slot
and then returns when the size was zero and goes back to the top of its loop when it
was not. -/
theorem sizeCheck_path {F : Type} (cfg : Config) (lib : Bloom F) (s : System F) (i : Nat)
    (choice choice' : Choice) (hphase : s.phase = .running)
    (hloc : s.workers.get? i = some .sizeCheck) :
    exec cfg lib s [.worker i choice, .worker i choice']
      = { release cfg s with
          workers := s.workers.set i (if s.frontier.size = 0 then .exited else .top) } := by
  have hset : ∀ (a b : Loc), (s.workers.set i a).set i b = s.workers.set i b :=
    fun a b => List.set_set a b s.workers i
  have hget : ∀ a : Loc, (s.workers.set i a).get? i = some a :=
    fun a => get_set_same s.workers i a .sizeCheck hloc
  by_cases hsize : s.frontier.size = 0 <;> by_cases hmax : 0 < cfg.opts.MaxURLs <;>
    simp only [exec, List.foldl_cons, List.foldl_nil, step, hphase, if_true, hloc, workerStep,
      hsize, hmax, hget, hset, if_false, release]

/-- The steps that bring a worker to the place where it reads `Size()`, to the place
where it releases its slot and returns, and out of its loop. -/
theorem workerStep_exits {F : Type} (cfg : Config) (lib : Bloom F) (choice : Choice)
    (s s' : System F) (loc loc' : Loc)
    (h : workerStep cfg lib choice s loc = some (s', loc')) :
    (loc' = .sizeCheck →
      s'.results = s.results ∧
      ((loc = .pop ∧ s' = s ∧
          (choice = .timeout ∨ (choice = .done ∧ s.ctx = .deadlineExceeded))) ∨
        loc = .popCount [])) ∧
    (loc' = .releaseExit →
      s' = s ∧
      ((loc = .sizeCheck ∧ s.frontier.size = 0) ∨
        (loc = .pop ∧ choice = .ok ∧ s.frontier.ch = [] ∧ s.frontier.closed = true) ∨
        (loc = .pop ∧ choice = .done ∧ s.ctx = .canceled))) ∧
    (loc' = .releaseLoop →
      s' = s ∧
      ((loc = .sizeCheck ∧ s.frontier.size ≠ 0) ∨
        ∃ url, loc = .robots url ∧ cfg.allowed url = false)) ∧
    (loc' = .exited →
      s'.results = s.results ∧
      ((∃ current, loc = .loaded current ∧ current ≥ cfg.opts.MaxURLs) ∨
        loc = .releaseExit ∨ ∃ result, loc = .send result ∧ s.ctx ≠ .active)) := by
  rcases loc with _ | _ | _ | _ | _ | _ | _ | _ | _ | ⟨_, _ | _⟩ | _ | _ | _ | _
  all_goals simp only [workerStep] at h
  all_goals repeat' split at h
  all_goals first
    | (simp only [reduceCtorEq] at h)
    | (simp only [Option.some.injEq, Prod.mk.injEq] at h
       obtain ⟨rfl, rfl⟩ := h
       simp_all [release]
       first
         | (split <;> rfl)
         | skip)

end crawler

namespace crawler

open dedup frontier

/-- C24 (the drain exit needs both signals).  A worker for which `PopWithTimeout` gave
the empty string with no error reads `Size()`: when it is zero the worker releases its
slot (if `MaxURLs > 0`) and returns; when it is not zero the worker releases its slot
(if `MaxURLs > 0`) and is back at the top of its loop; in both cases the results sent are
as before.  A worker comes to read `Size()` only after a pop that gave the empty string
with no error (a timeout, a deadline of the context, or an empty string in the queue),
and it comes to the return that follows only when the size it read was zero or when the
pop gave an error; the other ways out of the loop are the used-up budget and a done
context at the send. -/
theorem drain_exit_needs_both_signals {F : Type} (cfg : Config) (lib : Bloom F) :
    (∀ (s : System F) (i : Nat) (choice choice' : Choice),
      s.phase = .running → s.workers.get? i = some .sizeCheck →
      exec cfg lib s [.worker i choice, .worker i choice']
        = { release cfg s with
            workers := s.workers.set i (if s.frontier.size = 0 then .exited else .top) } ∧
      (exec cfg lib s [.worker i choice, .worker i choice']).results = s.results ∧
      (exec cfg lib s [.worker i choice, .worker i choice']).crawled
        = (if 0 < cfg.opts.MaxURLs then s.crawled - 1 else s.crawled)) ∧
    (∀ (choice : Choice) (s s' : System F) (loc loc' : Loc),
      workerStep cfg lib choice s loc = some (s', loc') →
      (loc' = .sizeCheck →
        s'.results = s.results ∧
        ((loc = .pop ∧ s' = s ∧
            (choice = .timeout ∨ (choice = .done ∧ s.ctx = .deadlineExceeded))) ∨
          loc = .popCount [])) ∧
      (loc' = .releaseExit →
        s' = s ∧
        ((loc = .sizeCheck ∧ s.frontier.size = 0) ∨
          (loc = .pop ∧ choice = .ok ∧ s.frontier.ch = [] ∧ s.frontier.closed = true) ∨
          (loc = .pop ∧ choice = .done ∧ s.ctx = .canceled))) ∧
      (loc' = .releaseLoop →
        s' = s ∧
        ((loc = .sizeCheck ∧ s.frontier.size ≠ 0) ∨
          ∃ url, loc = .robots url ∧ cfg.allowed url = false)) ∧
      (loc' = .exited →
        s'.results = s.results ∧
        ((∃ current, loc = .loaded current ∧ current ≥ cfg.opts.MaxURLs) ∨
          loc = .releaseExit ∨ ∃ result, loc = .send result ∧ s.ctx ≠ .active))) := by
  refine ⟨fun s i choice choice' hphase hloc => ?_, fun choice s s' loc loc' h =>
    workerStep_exits cfg lib choice s s' loc loc' h⟩
  rw [sizeCheck_path cfg lib s i choice choice' hphase hloc]
  refine ⟨rfl, ?_, ?_⟩
  · simp only [release]
    split <;> rfl
  · simp only [release]
    split <;> rfl

/-- Two states of a run of `budgetConfig` in which worker 0 has waited in vain: with
`Size()` at zero it gives its slot back and returns; with `Size()` at one it gives its
slot back and is at the top of its loop again.  No result is sent. -/
theorem drain_exit_needs_both_signals_witness :
    (exec budgetConfig exactFilter drainState
      [Action.worker 0 Choice.ok, Action.worker 0 Choice.ok]
      = { release budgetConfig drainState with
          workers := drainState.workers.set 0
            (if drainState.frontier.size = 0 then .exited else .top) }) ∧
    (exec budgetConfig exactFilter drainState
      [Action.worker 0 Choice.ok, Action.worker 0 Choice.ok]).workers = [.exited, .exited] ∧
    (exec budgetConfig exactFilter drainState
      [Action.worker 0 Choice.ok, Action.worker 0 Choice.ok]).crawled = 0 ∧
    (exec budgetConfig exactFilter busyState
      [Action.worker 0 Choice.ok, Action.worker 0 Choice.ok]
      = { release budgetConfig busyState with
          workers := busyState.workers.set 0
            (if busyState.frontier.size = 0 then .exited else .top) }) ∧
    (exec budgetConfig exactFilter busyState
      [Action.worker 0 Choice.ok, Action.worker 0 Choice.ok]).workers = [.top, .exited] ∧
    (exec budgetConfig exactFilter busyState
      [Action.worker 0 Choice.ok, Action.worker 0 Choice.ok]).results = [] :=
  ⟨((drain_exit_needs_both_signals budgetConfig exactFilter).1 drainState 0 Choice.ok
      Choice.ok (by rfl) (by rfl)).1,
   by rfl, by rfl,
   ((drain_exit_needs_both_signals budgetConfig exactFilter).1 busyState 0 Choice.ok
      Choice.ok (by rfl) (by rfl)).1,
   by rfl, by rfl⟩

end crawler

/-! ## Runs with the Redis frontier: what the crawler pushes -/

namespace crawler

open dedup frontier

/-- The ways in which one step of a worker with the Redis frontier touches the log and
the deduplicator. -/
theorem redisWorkerStep_kinds {F : Type} (cfg : Config) (lib : Bloom F) (choice : Choice)
    (s s' : RedisSystem F) (loc loc' : Loc)
    (h : redisWorkerStep cfg lib choice s loc = some (s', loc')) :
    s'.workers = s.workers ∧ s'.phase = s.phase ∧
    ((s'.log = s.log ∧ s'.dedup = s.dedup ∧ loc.pending = none ∧ loc'.pending = none) ∨
      (∃ link, s'.log = .seenOrAdd link (s.dedup.SeenOrAdd lib link).1 :: s.log ∧
        s'.dedup = (s.dedup.SeenOrAdd lib link).2 ∧ loc.pending = none ∧
        loc'.pending = (if (s.dedup.SeenOrAdd lib link).1 then none else some link) ∧
        loc.inFlight = none ∧ loc'.inFlight = none) ∨
      (∃ link ok, loc.pending = some link ∧ loc'.pending = none ∧
        s'.log = .pushLink link ok :: s.log ∧ s'.dedup = s.dedup) ∨
      (∃ u, s'.log = .fetch u :: s.log ∧ s'.dedup = s.dedup ∧
        loc.pending = none ∧ loc'.pending = none)) := by
  rcases loc with _ | _ | _ | _ | _ | _ | _ | _ | _ | ⟨_, _ | _⟩ | _ | _ | _ | _
  all_goals simp only [redisWorkerStep, redisRelease] at h
  all_goals repeat' split at h
  all_goals first
    | (simp only [reduceCtorEq] at h)
    | (simp only [Option.some.injEq, Prod.mk.injEq] at h
       obtain ⟨rfl, rfl⟩ := h
       simp_all [Loc.pending, Loc.inFlight])
  all_goals (refine ⟨_, ⟨rfl, ‹_›⟩, rfl, ?_⟩; simp_all)

theorem redisMainStep_kinds {F : Type} (cfg : Config) (lib : Bloom F) (choice : Choice)
    (s s' : RedisSystem F) (h : redisMainStep cfg lib choice s = some s') :
    s'.workers = s.workers ∧
    ((s.phase = .start ∧ s'.phase = .seeded ∧
        s'.log = .seenOrAdd cfg.baseURL (s.dedup.SeenOrAdd lib cfg.baseURL).1 :: s.log ∧
        s'.dedup = (s.dedup.SeenOrAdd lib cfg.baseURL).2) ∨
      (∃ ok, s.phase = .seeded ∧ s'.phase = (if ok then .running else .finished) ∧
        s'.log = .pushSeed cfg.baseURL ok :: s.log ∧ s'.dedup = s.dedup) ∨
      (s.phase = .running ∧ s'.phase = .finished ∧ s'.log = s.log ∧ s'.dedup = s.dedup)) := by
  simp only [redisMainStep] at h
  repeat' split at h
  all_goals first
    | (simp only [reduceCtorEq] at h)
    | (simp only [Option.some.injEq] at h
       subst h
       simp_all)

theorem redisStep_push {F : Type} (cfg : Config) (lib : Bloom F)
    (hlib : lib.NoFalseNegatives) (s : RedisSystem F) (a : RedisAction)
    (inv : PushInv cfg lib s.own) : PushInv cfg lib (redisStep cfg lib s a).own := by
  have hframe : ∀ t : RedisSystem F, t.log = s.log → t.dedup = s.dedup →
      t.phase = s.phase → t.workers = s.workers → PushInv cfg lib t.own := by
    intro t h1 h2 h3 h4
    exact inv.frame (Or.inl h1) h2 (Or.inl h3) (fun u => by simp only [RedisSystem.own, h4])
      (fun u _ => by simp only [RedisSystem.own, h4])
  cases a with
  | peers list => exact hframe _ rfl rfl rfl rfl
  | own act =>
    cases act with
    | cancel =>
      simp only [redisStep]
      split
      · exact hframe _ rfl rfl rfl rfl
      · exact inv
    | deadline =>
      simp only [redisStep]
      split
      · exact hframe _ rfl rfl rfl rfl
      · exact inv
    | main choice =>
      simp only [redisStep]
      cases hm : redisMainStep cfg lib choice s with
      | none => exact inv
      | some s' =>
        obtain ⟨hw, hk⟩ := redisMainStep_kinds cfg lib choice s s' hm
        simp only [Option.getD_some]
        have hws : s'.own.workers = s.own.workers := hw
        rcases hk with ⟨hs, ht, hlog, hd⟩ | ⟨ok, hs, ht, hlog, hd⟩ | ⟨hs, ht, hlog, hd⟩
        · exact inv.seen hlib cfg.baseURL hlog hd (fun u => by rw [hws])
            (Or.inr ⟨hs, ht, rfl, fun u => by rw [hws]⟩)
        · refine inv.push cfg.baseURL ok hd
            (Or.inr ⟨hs, ?_, ?_, rfl, hlog, fun u => by rw [hws]⟩)
          · show s'.phase ≠ .start
            rw [ht]; cases ok <;> simp
          · show s'.phase ≠ .seeded
            rw [ht]; cases ok <;> simp
        · exact inv.frame (Or.inl hlog) hd (Or.inr ⟨ht, hs⟩) (fun u => by rw [hws])
            (fun u _ => by rw [hws])
    | worker i choice =>
      simp only [redisStep]
      split
      · rename_i hrun
        cases hg : s.workers.get? i with
        | none => exact inv
        | some loc =>
          dsimp only
          cases hstep : redisWorkerStep cfg lib choice s loc with
          | none => exact inv
          | some p =>
            obtain ⟨s', loc'⟩ := p
            dsimp only
            obtain ⟨hw, hph, hk⟩ := redisWorkerStep_kinds cfg lib choice s s' loc loc' hstep
            have hP := fun u => pendingCount_set u s.workers i loc loc' hg
            have hI := fun u => inFlightCount_set u s.workers i loc loc' hg
            have hrun2 : s'.phase = .running := by rw [hph, hrun]
            have hrun3 : s.own.phase = .running := hrun
            rcases hk with ⟨hlog, hd, hp1, hp2⟩ | ⟨link, hlog, hd, hp1, hp2, hf1, hf2⟩ |
              ⟨link, ok, hp1, hp2, hlog, hd⟩ | ⟨u0, hlog, hd, hp1, hp2⟩
            · refine inv.frame (Or.inl hlog) hd (Or.inl hph) (fun u => ?_) (fun u hp => ?_)
              · have := hP u
                simp only [RedisSystem.own, hw, hp1, hp2, reduceCtorEq, if_false] at this ⊢
                omega
              · simp only [RedisSystem.own, hrun2, reduceCtorEq, or_self] at hp
            · refine inv.seen hlib link hlog hd (fun u => ?_)
                (Or.inl ⟨hrun3, hrun2, fun u => ?_⟩)
              · have := hI u
                simp only [RedisSystem.own, hw, hf1, hf2, reduceCtorEq, if_false] at this ⊢
                omega
              · have := hP u
                simp only [RedisSystem.own, hw, hp1, hp2, reduceCtorEq, if_false,
                  Nat.add_zero] at this ⊢
                rw [this]
                congr 1
                by_cases hb : (s.dedup.SeenOrAdd lib link).1 = true
                · simp [hb]
                · simp [hb]
            · refine inv.push link ok hd (Or.inl ⟨hrun3, hrun2, hlog, fun u => ?_⟩)
              have := hP u
              simp only [RedisSystem.own, hw, hp1, hp2, reduceCtorEq, if_false,
                Option.some.injEq] at this ⊢
              omega
            · refine inv.frame (Or.inr ⟨u0, hlog⟩) hd (Or.inl hph) (fun u => ?_)
                (fun u hp => ?_)
              · have := hP u
                simp only [RedisSystem.own, hw, hp1, hp2, reduceCtorEq, if_false] at this ⊢
                omega
              · simp only [RedisSystem.own, hrun2, reduceCtorEq, or_self] at hp
      · exact inv

theorem redisExec_push {F : Type} (cfg : Config) (lib : Bloom F)
    (hlib : lib.NoFalseNegatives) (schedule : List RedisAction) (s : RedisSystem F)
    (inv : PushInv cfg lib s.own) : PushInv cfg lib (redisExec cfg lib s schedule).own := by
  induction schedule generalizing s with
  | nil => exact inv
  | cons a rest ih => exact ih (redisStep cfg lib s a) (redisStep_push cfg lib hlib s a inv)

theorem redisInit_push {F : Type} (cfg : Config) (lib : Bloom F) (emptyFilter : F)
    (leftover : List Str) :
    PushInv cfg lib (RedisSystem.init cfg emptyFilter leftover).own := by
  have inv := init_push cfg lib emptyFilter
  exact ⟨inv.tested, inv.logged, inv.early, inv.once, inv.answered, inv.preceded⟩

theorem Run.of_memory {F : Type} (cfg : Config) (lib : Bloom F) (emptyFilter : F)
    (leftover : List Str) (schedule : List RedisAction) (h : cfg.opts.UseRedis = false) :
    Run.of cfg lib emptyFilter leftover schedule
      = .memory (runOf cfg lib emptyFilter (ownActions schedule)) := by
  simp [Run.of, h]

theorem Run.of_redis {F : Type} (cfg : Config) (lib : Bloom F) (emptyFilter : F)
    (leftover : List Str) (schedule : List RedisAction) (h : cfg.opts.UseRedis = true) :
    Run.of cfg lib emptyFilter leftover schedule
      = .redis (redisRunOf cfg lib emptyFilter leftover schedule) := by
  simp [Run.of, h]

theorem ownActions_map_own (schedule : List Action) :
    ownActions (schedule.map RedisAction.own) = schedule := by
  induction schedule with
  | nil => rfl
  | cons a rest ih => simp [ownActions, ih]

/-- The push invariant holds in every state of every run, with either frontier. -/
theorem run_push {F : Type} (cfg : Config) (lib : Bloom F) (emptyFilter : F)
    (leftover : List Str) (schedule : List RedisAction) (hlib : lib.NoFalseNegatives) :
    (∀ u, countOf u (pushes (Run.of cfg lib emptyFilter leftover schedule).log) ≤ 1) ∧
    (∀ newer older url ok,
      (Run.of cfg lib emptyFilter leftover schedule).log
        = newer ++ Event.pushLink url ok :: older →
      unseenAnswers url older = 1) := by
  by_cases h : cfg.opts.UseRedis = true
  · rw [Run.of_redis cfg lib emptyFilter leftover schedule h]
    have inv := redisExec_push cfg lib hlib schedule
      (RedisSystem.init cfg emptyFilter leftover) (redisInit_push cfg lib emptyFilter leftover)
    refine ⟨fun u => ?_, inv.preceded⟩
    have := inv.once u
    simp only [Run.log, redisRunOf]
    simp only [RedisSystem.own] at this
    omega
  · rw [Run.of_memory cfg lib emptyFilter leftover schedule (by simpa using h)]
    have inv := exec_push cfg lib hlib (ownActions schedule) (System.init cfg emptyFilter)
      (init_push cfg lib emptyFilter)
    refine ⟨fun u => ?_, inv.preceded⟩
    have := inv.once u
    simp only [Run.log, runOf]
    omega

/-- C4 as amended: at-most-once enqueue.  When the filter of the deduplicator has no
false negatives, then in every run, with either frontier and under every schedule: the
crawler passes no URL to `Push` more than once (the seed included), and every `Push` of
a discovered link comes after exactly one call `SeenOrAdd` for that link that answered
false.  With the in-memory frontier no URL is fetched twice. -/
theorem no_url_enqueued_twice {F : Type} (cfg : Config) (lib : Bloom F) (emptyFilter : F)
    (leftover : List Str) (schedule : List RedisAction) (hlib : lib.NoFalseNegatives) :
    (pushes (Run.of cfg lib emptyFilter leftover schedule).log).Nodup ∧
    (∀ newer older url ok,
      (Run.of cfg lib emptyFilter leftover schedule).log
        = newer ++ Event.pushLink url ok :: older →
      unseenAnswers url older = 1) ∧
    (cfg.opts.UseRedis = false →
      (fetches (Run.of cfg lib emptyFilter leftover schedule).log).Nodup) := by
  obtain ⟨honce, hpre⟩ := run_push cfg lib emptyFilter leftover schedule hlib
  refine ⟨nodup_of_countOf_le_one _ honce, hpre, ?_⟩
  intro h
  rw [Run.of_memory cfg lib emptyFilter leftover schedule h] at honce ⊢
  have inv := exec_queued cfg lib (ownActions schedule) (System.init cfg emptyFilter)
    (init_queued cfg emptyFilter)
  apply nodup_of_countOf_le_one
  intro u
  have h1 := honce u
  have h2 := inv u
  simp only [Run.log, runOf] at h1 ⊢
  omega

/-- Witness for C4: the exact filter has no false negatives.  In the run of
`linkSchedule` with the in-memory frontier on a page of `http://h/` with the anchors
`/a` and `/`, the seed and the link `http://h/a` are each pushed once, the link after
one answer false, and the seed that the page links to is not pushed again.  In the run
of `redisSchedule` with the Redis frontier, in which the server holds the seed from the
start, the crawler pushes the seed once. -/
theorem no_url_enqueued_twice_witness :
    (pushes (Run.of linkConfig exactFilter [] []
      ((linkSchedule htmlPage).map RedisAction.own)).log).Nodup ∧
    (fetches (Run.of linkConfig exactFilter [] []
      ((linkSchedule htmlPage).map RedisAction.own)).log).Nodup ∧
    (Run.of linkConfig exactFilter [] [] ((linkSchedule htmlPage).map RedisAction.own)).log
      = [.seenOrAdd "http://h/".toList true, .pushLink "http://h/a".toList true,
          .seenOrAdd "http://h/a".toList false, .fetch "http://h/".toList,
          .pushSeed "http://h/".toList true, .seenOrAdd "http://h/".toList false] ∧
    (pushes (Run.of redisConfig exactFilter [] ["https://example.com/".toList]
      redisSchedule).log).Nodup ∧
    pushes (Run.of redisConfig exactFilter [] ["https://example.com/".toList]
      redisSchedule).log = ["https://example.com/".toList] :=
  ⟨(no_url_enqueued_twice linkConfig exactFilter [] []
      ((linkSchedule htmlPage).map RedisAction.own) exactFilter_noFalseNegatives).1,
    (no_url_enqueued_twice linkConfig exactFilter [] []
      ((linkSchedule htmlPage).map RedisAction.own) exactFilter_noFalseNegatives).2.2 rfl,
    by
      rw [Run.of_memory linkConfig exactFilter [] [] _ rfl, ownActions_map_own]
      exact log_of_linkSchedule linkConfig exactFilter [] "http://h/a".toList htmlPage _
        rfl rfl rfl rfl (by decide) crawlStart_linkConfig (by rfl) (by rfl) (by rfl) (by rfl)
        (by rfl),
    (no_url_enqueued_twice redisConfig exactFilter [] ["https://example.com/".toList]
      redisSchedule exactFilter_noFalseNegatives).1,
    by rfl⟩

/-- C4 (counterexample): a run with the Redis frontier in which a URL is fetched twice,
although the filter has no false negatives.  The server still holds the seed
`https://example.com/` under the key of the crawler, left there by an earlier run; `run`
pushes the seed, and the worker pops and fetches the seed two times. -/
theorem redis_run_fetches_the_seed_twice :
    redisConfig.opts.UseRedis = true ∧
    redisConfig.baseURL = "https://example.com/".toList ∧
    (Run.of redisConfig exactFilter [] ["https://example.com/".toList] redisSchedule).log
      = [.fetch "https://example.com/".toList, .fetch "https://example.com/".toList,
          .pushSeed "https://example.com/".toList true,
          .seenOrAdd "https://example.com/".toList false] ∧
    ¬ (fetches (Run.of redisConfig exactFilter [] ["https://example.com/".toList]
        redisSchedule).log).Nodup := by
  have hlog : (Run.of redisConfig exactFilter [] ["https://example.com/".toList]
      redisSchedule).log
      = [.fetch "https://example.com/".toList, .fetch "https://example.com/".toList,
          .pushSeed "https://example.com/".toList true,
          .seenOrAdd "https://example.com/".toList false] := by
    rfl
  refine ⟨rfl, rfl, hlog, ?_⟩
  rw [hlog]
  decide

end crawler

/-! ## Runs with the Redis frontier: pushes come after `SeenOrAdd` -/

namespace crawler

open dedup frontier

theorem redisStep_covered {F : Type} (cfg : Config) (lib : Bloom F) (s : RedisSystem F)
    (a : RedisAction) (inv : CoveredInv cfg s.own) :
    CoveredInv cfg (redisStep cfg lib s a).own := by
  have hqueue : ∀ t : RedisSystem F, ∀ u ∈ t.own.frontier.ch,
      u ∈ s.own.frontier.ch ∨ ∃ seen, Event.seenOrAdd u seen ∈ t.own.log := by
    intro t u hu
    simp [RedisSystem.own] at hu
  have hframe : ∀ t : RedisSystem F, t.log = s.log → t.phase = s.phase →
      t.workers = s.workers → CoveredInv cfg t.own := by
    intro t h1 h2 h3
    refine inv.step (Or.inl h1) (hqueue t) (fun loc hloc _ _ => Or.inl ?_)
      (fun hp => Or.inl ?_)
    · simp only [RedisSystem.own] at hloc ⊢
      rw [← h3]
      exact hloc
    · simp only [RedisSystem.own] at hp ⊢
      rw [← h2]
      exact hp
  cases a with
  | peers list => exact hframe _ rfl rfl rfl
  | own act =>
    cases act with
    | cancel =>
      simp only [redisStep]
      split
      · exact hframe _ rfl rfl rfl
      · exact inv
    | deadline =>
      simp only [redisStep]
      split
      · exact hframe _ rfl rfl rfl
      · exact inv
    | main choice =>
      simp only [redisStep]
      cases hm : redisMainStep cfg lib choice s with
      | none => exact inv
      | some s' =>
        obtain ⟨hw, hk⟩ := redisMainStep_kinds cfg lib choice s s' hm
        simp only [Option.getD_some]
        have hws : s'.own.workers = s.own.workers := hw
        rcases hk with ⟨_, _, hlog, _⟩ | ⟨ok, hs, ht, hlog, _⟩ | ⟨_, ht, hlog, _⟩
        · refine inv.step (Or.inr ⟨_, hlog, ?_⟩) (hqueue s')
            (fun loc hloc _ _ => Or.inl (hws ▸ hloc))
            (fun _ => Or.inr ⟨_, by
              show _ ∈ s'.log
              rw [hlog]; exact List.mem_cons_self _ _⟩)
          intro u hu
          rcases hu with ⟨ok, h⟩ | ⟨ok, h⟩ <;> simp at h
        · have hbase := inv.seed hs
          refine inv.step (Or.inr ⟨_, hlog, ?_⟩) (hqueue s')
            (fun loc hloc _ _ => Or.inl (hws ▸ hloc)) ?_
          · intro u hu
            rcases hu with ⟨ok2, h⟩ | ⟨ok2, h⟩
            · simp only [Event.pushSeed.injEq] at h
              rw [← h.1]
              exact hbase
            · simp at h
          · intro hp
            have hp2 : s'.phase = .seeded := hp
            rw [ht] at hp2
            cases ok <;> simp at hp2
        · refine inv.step (Or.inl hlog) (hqueue s')
            (fun loc hloc _ _ => Or.inl (hws ▸ hloc)) ?_
          intro hp
          have hp2 : s'.phase = .seeded := hp
          rw [ht] at hp2
          simp at hp2
    | worker i choice =>
      simp only [redisStep]
      split
      · rename_i hrun
        cases hg : s.workers.get? i with
        | none => exact inv
        | some loc =>
          dsimp only
          cases hw : redisWorkerStep cfg lib choice s loc with
          | none => exact inv
          | some p =>
            obtain ⟨s', loc'⟩ := p
            dsimp only
            obtain ⟨hws, hphase, hk⟩ := redisWorkerStep_kinds cfg lib choice s s' loc loc' hw
            have hseed : ({ s' with workers := s'.workers.set i loc' } : RedisSystem F).own.phase
                = .seeded → s.own.phase = .seeded ∨
                  ∃ seen, Event.seenOrAdd cfg.baseURL seen
                    ∈ ({ s' with workers := s'.workers.set i loc' } : RedisSystem F).own.log := by
              intro hp
              have hp2 : s'.phase = .seeded := hp
              rw [hphase, hrun] at hp2
              simp at hp2
            have hpend : (∀ u, loc'.pending = some u →
                  ∃ seen, Event.seenOrAdd u seen ∈ s'.log) →
                ∀ w ∈ ({ s' with workers := s'.workers.set i loc' } : RedisSystem F).own.workers,
                  ∀ u, w.pending = some u → w ∈ s.own.workers ∨
                    ∃ seen, Event.seenOrAdd u seen
                      ∈ ({ s' with workers := s'.workers.set i loc' } : RedisSystem F).own.log := by
              intro hnew w hwm u hu
              rcases mem_of_mem_set _ _ _ _ hwm with h | rfl
              · refine Or.inl ?_
                show w ∈ s.workers
                rw [← hws]
                exact h
              · exact Or.inr (hnew u hu)
            rcases hk with ⟨hlog, _, _, hp2⟩ | ⟨link, hlog, _, _, hp2, _⟩ |
              ⟨link, ok, hp, hp2, hlog, _⟩ | ⟨u0, hlog, _, _, hp2⟩
            · exact inv.step (Or.inl hlog) (hqueue _)
                (hpend (fun u hu => by rw [hp2] at hu; simp at hu)) hseed
            · refine inv.step (Or.inr ⟨_, hlog, ?_⟩) (hqueue _)
                (hpend (fun u hu => ?_)) hseed
              · intro u hu
                rcases hu with ⟨ok, h⟩ | ⟨ok, h⟩ <;> simp at h
              · rw [hp2] at hu
                split at hu
                · simp at hu
                · simp only [Option.some.injEq] at hu
                  exact ⟨(s.dedup.SeenOrAdd lib link).1, by
                    rw [hlog, hu]; exact List.mem_cons_self _ _⟩
            · have hlink := inv.pending loc (List.get?_mem hg) link hp
              refine inv.step (Or.inr ⟨_, hlog, ?_⟩) (hqueue _)
                (hpend (fun u hu => by rw [hp2] at hu; simp at hu)) hseed
              intro u hu
              rcases hu with ⟨ok2, h⟩ | ⟨ok2, h⟩
              · simp at h
              · simp only [Event.pushLink.injEq] at h
                rw [← h.1]
                exact hlink
            · refine inv.step (Or.inr ⟨_, hlog, ?_⟩) (hqueue _)
                (hpend (fun u hu => by rw [hp2] at hu; simp at hu)) hseed
              intro u hu
              rcases hu with ⟨ok, h⟩ | ⟨ok, h⟩ <;> simp at h
      · exact inv

theorem redisExec_covered {F : Type} (cfg : Config) (lib : Bloom F)
    (schedule : List RedisAction) (s : RedisSystem F) (inv : CoveredInv cfg s.own) :
    CoveredInv cfg (redisExec cfg lib s schedule).own := by
  induction schedule generalizing s with
  | nil => exact inv
  | cons a rest ih => exact ih (redisStep cfg lib s a) (redisStep_covered cfg lib s a inv)

theorem redisInit_covered {F : Type} (cfg : Config) (emptyFilter : F) (leftover : List Str) :
    CoveredInv cfg (RedisSystem.init cfg emptyFilter leftover).own := by
  have inv := init_covered cfg emptyFilter
  refine ⟨?_, inv.pending, inv.seed, inv.ordered⟩
  intro u hu
  simp [RedisSystem.own] at hu

/-- C23 as amended (the frontier is covered by the deduplicator, I1).  In every state
that a schedule of the steps of the goroutines reaches, with either frontier, every
call of `Push`, for the seed by `run` and for a link by `crawlURL`, comes after a call
of `SeenOrAdd` for the same URL.  With the in-memory frontier every URL queued in the
frontier has been passed to `SeenOrAdd`. -/
theorem frontier_is_covered_by_dedup {F : Type} (cfg : Config) (lib : Bloom F)
    (emptyFilter : F) (leftover : List Str) (schedule : List RedisAction) :
    (cfg.opts.UseRedis = false →
      ∀ u ∈ (Run.of cfg lib emptyFilter leftover schedule).queue,
        ∃ seen, Event.seenOrAdd u seen ∈ (Run.of cfg lib emptyFilter leftover schedule).log) ∧
    (∀ newer older u ok,
      (Run.of cfg lib emptyFilter leftover schedule).log
        = newer ++ Event.pushSeed u ok :: older →
      ∃ seen, Event.seenOrAdd u seen ∈ older) ∧
    (∀ newer older u ok,
      (Run.of cfg lib emptyFilter leftover schedule).log
        = newer ++ Event.pushLink u ok :: older →
      ∃ seen, Event.seenOrAdd u seen ∈ older) := by
  by_cases h : cfg.opts.UseRedis = true
  · rw [Run.of_redis cfg lib emptyFilter leftover schedule h]
    have inv := redisExec_covered cfg lib schedule (RedisSystem.init cfg emptyFilter leftover)
      (redisInit_covered cfg emptyFilter leftover)
    refine ⟨fun h2 => ?_, fun newer older u ok h2 => inv.ordered newer older u (Or.inl ⟨ok, h2⟩),
      fun newer older u ok h2 => inv.ordered newer older u (Or.inr ⟨ok, h2⟩)⟩
    rw [h] at h2
    exact absurd h2 (by decide)
  · rw [Run.of_memory cfg lib emptyFilter leftover schedule (by simpa using h)]
    have inv := exec_covered cfg lib (ownActions schedule) (System.init cfg emptyFilter)
      (init_covered cfg emptyFilter)
    exact ⟨fun _ => inv.queued,
      fun newer older u ok h2 => inv.ordered newer older u (Or.inl ⟨ok, h2⟩),
      fun newer older u ok h2 => inv.ordered newer older u (Or.inr ⟨ok, h2⟩)⟩

/-- Witness for C23: after `run` has seeded the in-memory frontier of `budgetConfig`, the
seed is queued, and it was passed to `SeenOrAdd` before it was pushed; in the run of
`redisSchedule` with the Redis frontier the push of the seed comes after the call
`SeenOrAdd` for it as well. -/
theorem frontier_is_covered_by_dedup_witness :
    (Run.of budgetConfig exactFilter [] [] (seedSchedule.map RedisAction.own)).queue
      = ["https://example.com/".toList] ∧
    (∃ seen, Event.seenOrAdd "https://example.com/".toList seen
      ∈ (Run.of budgetConfig exactFilter [] [] (seedSchedule.map RedisAction.own)).log) ∧
    (∃ seen, Event.seenOrAdd "https://example.com/".toList seen
      ∈ [Event.seenOrAdd "https://example.com/".toList false]) ∧
    (∃ seen, Event.seenOrAdd "https://example.com/".toList seen
      ∈ [Event.seenOrAdd "https://example.com/".toList false]) :=
  ⟨by rfl,
   (frontier_is_covered_by_dedup budgetConfig exactFilter [] []
      (seedSchedule.map RedisAction.own)).1 rfl
     "https://example.com/".toList
     (by
       have h : (Run.of budgetConfig exactFilter [] []
           (seedSchedule.map RedisAction.own)).queue = ["https://example.com/".toList] := by rfl
       rw [h]
       exact List.mem_singleton.2 rfl),
   (frontier_is_covered_by_dedup budgetConfig exactFilter [] []
      (seedSchedule.map RedisAction.own)).2.1 []
     [Event.seenOrAdd "https://example.com/".toList false] "https://example.com/".toList true
     (by rfl),
   (frontier_is_covered_by_dedup redisConfig exactFilter [] ["https://example.com/old".toList]
      (redisSchedule.take 6)).2.1 [Event.fetch "https://example.com/old".toList]
     [Event.seenOrAdd "https://example.com/".toList false] "https://example.com/".toList true
     (by rfl)⟩

/-- C23 (counterexample): a run with the Redis frontier in which a queued URL was never
passed to `SeenOrAdd`.  The server holds `https://example.com/old` under the key of the
crawler, left there by an earlier run or pushed by another client.  At the start of the
run it is queued while no call of `SeenOrAdd` has been made; and after the worker has
popped and fetched it, the log has a `Fetch` of it and no `SeenOrAdd` for it. -/
theorem redis_queue_holds_an_unseen_URL :
    redisConfig.opts.UseRedis = true ∧
    (Run.of redisConfig exactFilter [] ["https://example.com/old".toList] []).queue
      = ["https://example.com/old".toList] ∧
    (Run.of redisConfig exactFilter [] ["https://example.com/old".toList] []).log = [] ∧
    (Run.of redisConfig exactFilter [] ["https://example.com/old".toList]
        (redisSchedule.take 6)).queue = ["https://example.com/".toList] ∧
    (Run.of redisConfig exactFilter [] ["https://example.com/old".toList]
        (redisSchedule.take 6)).log
      = [.fetch "https://example.com/old".toList,
          .pushSeed "https://example.com/".toList true,
          .seenOrAdd "https://example.com/".toList false] ∧
    ¬ ∃ seen, Event.seenOrAdd "https://example.com/old".toList seen
      ∈ (Run.of redisConfig exactFilter [] ["https://example.com/old".toList]
          (redisSchedule.take 6)).log := by
  have hlog : (Run.of redisConfig exactFilter [] ["https://example.com/old".toList]
        (redisSchedule.take 6)).log
      = [.fetch "https://example.com/old".toList,
          .pushSeed "https://example.com/".toList true,
          .seenOrAdd "https://example.com/".toList false] := by
    rfl
  refine ⟨rfl, by rfl, by rfl, by rfl, hlog, ?_⟩
  rw [hlog]
  decide

end crawler
